import Mathlib

/-!
# Verification of the 3×3 sliding-puzzle solver core

Shallow embedding of the search core of `main.py` (state model, solvability
parity check, Manhattan heuristic, A* solver, input parser), together with
proofs of the specified properties.

Boards are embedded as `List Nat` (row-major, `0` = blank), mirroring the
Python lists/tuples.  The A* `while` loop is embedded as a fuel-indexed
step function; `astarReturns` states that the loop terminates with a given
result for some amount of fuel (fuel is only a device to express the
unbounded `while`; the loop's own budget `max_expansions` is modelled
faithfully).
-/

namespace Puzzle

/-- The board type: row-major list of the 9 cell contents, 0 = blank. -/
abbrev Board := List Nat

/-- `GOAL` from `main.py`. -/
def GOAL : Board := [1, 2, 3, 4, 5, 6, 7, 8, 0]

/-- `GOAL_POS[v]`: index of value `v` in `GOAL` (the Python dict lookup). -/
def GOAL_POS (v : Nat) : Nat := List.indexOf v GOAL

/-- Helper for `inversions`: number of inverted pairs `(i, j)`, `i < j`,
`arr[i] > arr[j]`, counted head-first exactly like the double loop in
`inversions`. -/
def invTail : List Nat → Nat
  | [] => 0
  | x :: rest => rest.countP (fun y => decide (y < x)) + invTail rest

/-- `inversions` from `main.py`: drop the blank, count inverted pairs. -/
def inversions (state : Board) : Nat :=
  invTail (state.filter (fun x => !(x == 0)))

/-- `is_solvable_3x3` from `main.py`. -/
def is_solvable_3x3 (state : Board) : Bool := inversions state % 2 == 0

/-- `neighbors` from `main.py`: the 2–4 grid neighbours of a cell index,
in the order up, down, left, right. -/
def neighbors (index : Nat) : List Nat :=
  let r := index / 3
  let c := index % 3
  (if 0 < r then [index - 3] else []) ++
  (if r < 2 then [index + 3] else []) ++
  (if 0 < c then [index - 1] else []) ++
  (if c < 2 then [index + 1] else [])

/-- Manhattan distance between two cell indices (the `abs(r1-r2)+abs(c1-c2)`
computation in `manhattan`). -/
def mdist (i g : Nat) : Nat :=
  ((i : Int) / 3 - (g : Int) / 3).natAbs + ((i : Int) % 3 - (g : Int) % 3).natAbs

/-- The loop of `manhattan`, with `i` the index of the head element. -/
def msum (i : Nat) : List Nat → Nat
  | [] => 0
  | v :: rest => (if v = 0 then 0 else mdist i (GOAL_POS v)) + msum (i + 1) rest

/-- `manhattan` from `main.py`. -/
def manhattan (state : Board) : Nat := msum 0 state

/-- The index of the blank, `state.index(0)` in Python. -/
def blankIdx (state : Board) : Nat := List.indexOf 0 state

/-- The simultaneous swap `new[i], new[j] = new[j], new[i]`. -/
def swapCells (state : Board) (i j : Nat) : Board :=
  (state.set i (state.getD j 0)).set j (state.getD i 0)

/-- Legality test of `SlidingPuzzle._apply_move_by_tile_value`: the moved
tile's cell must be a grid neighbour of the blank's cell. -/
def legalMove (state : Board) (tile : Nat) : Bool :=
  (neighbors (blankIdx state)).contains (List.indexOf tile state)

/-- The state change of `SlidingPuzzle._apply_move_by_tile_value` (and of the
neighbour generation in `astar_solve`): swap the blank with the tile. -/
def applyMove (state : Board) (tile : Nat) : Board :=
  swapCells state (blankIdx state) (List.indexOf tile state)

/-- Replay a move list from a board (the front end's sequential replay). -/
def replay (state : Board) : List Nat → Board
  | [] => state
  | m :: ms => replay (applyMove state m) ms

/-- All moves of the list are legal when played in order from `state`. -/
def LegalSeq (state : Board) : List Nat → Prop
  | [] => True
  | m :: ms => legalMove state m = true ∧ LegalSeq (applyMove state m) ms

/-- A board is well-formed when it is a permutation of `{0, …, 8}`. -/
def IsBoard (state : Board) : Prop := state.Perm (List.range 9)

/-- The contribution of value `v` sitting at cell `i` to `manhattan`. -/
def contrib (i v : Nat) : Nat := if v = 0 then 0 else mdist i (GOAL_POS v)

/-- Number of inverted pairs with left element from `P` and right element
from `Q` (helper for reasoning about `inversions`). -/
def crossInv (P Q : List Nat) : Nat :=
  (P.map (fun x => Q.countP (fun y => decide (y < x)))).sum

/-- `B` is reachable from `GOAL` by a finite sequence of legal moves. -/
def ReachableFromGoal (state : Board) : Prop :=
  ∃ ms, LegalSeq GOAL ms ∧ replay GOAL ms = state

/-! ## The input parser (`parse_state`), on ASCII texts

Texts are embedded as `List Char`.  The helpers below implement the ASCII
fragments of CPython's Unicode-aware primitives: the `str.strip`/`str.split`
whitespace test, `str.isdigit`, and `int`.  Beyond ASCII the Python function
behaves differently — `str.isdigit` also accepts Unicode digit characters,
`str.split` also breaks at Unicode whitespace such as U+00A0, `int` also
converts Unicode decimal digits, and the nine-digit branch converts with
`int` outside any `try`, so a digit character that `int` rejects (such as
U+00B2) makes it raise an uncaught `ValueError` instead of returning.  The
definitions below therefore describe `parse_state` on ASCII inputs only. -/

/-- The ASCII part of the whitespace recognised by `str.strip` and
`str.split` (CPython also treats Unicode whitespace, e.g. U+00A0, as a
separator). -/
def isSpace (c : Char) : Bool :=
  c = ' ' || c = '\t' || c = '\n' || c = '\r' || c = '\x0b' || c = '\x0c'

/-- The ASCII part of `str.isdigit` (CPython also accepts Unicode digit
characters such as U+0661 or U+00B2). -/
def isDigitCh (c : Char) : Bool := '0' ≤ c && c ≤ '9'

/-- Numeric value of a digit character. -/
def digitVal (c : Char) : Nat := c.toNat - '0'.toNat

/-- `text.strip()`. -/
def pyStrip (s : List Char) : List Char :=
  ((s.dropWhile isSpace).reverse.dropWhile isSpace).reverse

/-- The two `t.replace(sep, " ")` passes, character by character. -/
def sepToSpace (c : Char) : Char := if c = ',' || c = ';' then ' ' else c

/-- Accumulator-based worker for `t.split()`. -/
def splitWsAux : List Char → List Char → List (List Char)
  | [], acc => if acc.isEmpty then [] else [acc.reverse]
  | c :: rest, acc =>
    if isSpace c then
      if acc.isEmpty then splitWsAux rest []
      else acc.reverse :: splitWsAux rest []
    else splitWsAux rest (c :: acc)

/-- `t.split()`: maximal runs of non-whitespace characters. -/
def splitWs (s : List Char) : List (List Char) := splitWsAux s []

/-- After the first digit of an integer literal: digits, with single
underscores allowed between digits (Python 3 `int`). -/
def intDigitsTail : List Char → Bool
  | [] => true
  | c :: rest =>
    if c = '_' then
      match rest with
      | [] => false
      | c2 :: rest2 => isDigitCh c2 && intDigitsTail rest2
    else isDigitCh c && intDigitsTail rest

/-- An unsigned integer literal body. -/
def intDigitsOk : List Char → Bool
  | [] => false
  | c :: rest => isDigitCh c && intDigitsTail rest

/-- Value of a digit string, ignoring underscores. -/
def digitsValue (s : List Char) : Nat :=
  s.foldl (fun acc c => if c = '_' then acc else acc * 10 + digitVal c) 0

/-- `int(p)` on a whitespace-free ASCII token: `some` value or `none` for
`ValueError` (CPython's `int` also converts Unicode decimal digits). -/
def pyInt (s : List Char) : Option Int :=
  match s with
  | '+' :: rest => if intDigitsOk rest then some (digitsValue rest : Int) else none
  | '-' :: rest => if intDigitsOk rest then some (-(digitsValue rest : Int)) else none
  | _ => if intDigitsOk s then some (digitsValue s : Int) else none

/-- Insertion into a sorted list of integers. -/
def insertSorted (x : Int) : List Int → List Int
  | [] => [x]
  | y :: ys => if x ≤ y then x :: y :: ys else y :: insertSorted x ys

/-- `sorted(vals)`.  On integers every correct sort agrees with Python's
stable sort, so insertion sort is a faithful model. -/
def pySorted : List Int → List Int
  | [] => []
  | x :: xs => insertSorted x (pySorted xs)

/-- `list(range(9))` as integers. -/
def intRange9 : List Int := [0, 1, 2, 3, 4, 5, 6, 7, 8]

/-- Collect a list of optional values; `none` if any entry is `none`
(the `try/except ValueError` around the comprehension). -/
def allSome : List (Option Int) → Option (List Int)
  | [] => some []
  | none :: _ => none
  | some v :: rest =>
    match allSome rest with
    | none => none
    | some vs => some (v :: vs)

/-- `parse_state` from `main.py`, on ASCII texts: the branch on the
all-digit 9-character form, then the separator/split/int form, then the
common permutation check `sorted(vals) == list(range(9))`.  In the source
the nine-digit branch's `int(ch)` conversions sit outside the `try/except`
(which guards only the token branch); on a character where `str.isdigit`
holds but `int` fails — possible only beyond ASCII — the Python function
raises an uncaught `ValueError`, a path this ASCII-range model never
reaches. -/
def parse_state (text : List Char) : Option (List Int) :=
  if pyStrip text = [] then none
  else
    match
      (if (pyStrip text).all isDigitCh && (pyStrip text).length = 9 then
        some ((pyStrip text).map (fun c => (digitVal c : Int)))
      else if (splitWs ((pyStrip text).map sepToSpace)).length = 9 then
        allSome ((splitWs ((pyStrip text).map sepToSpace)).map pyInt)
      else none) with
    | none => none
    | some vals => if pySorted vals = intRange9 then some vals else none

/-- The values of the all-digit reading of a text. -/
def digitsOf (t : List Char) : List Int := t.map (fun c => (digitVal c : Int))

/-- The whitespace/comma/semicolon-separated tokens of a text. -/
def tokensOf (text : List Char) : List (List Char) :=
  splitWs ((pyStrip text).map sepToSpace)

/-- Textual form 1 of the spec: (after trimming surrounding whitespace)
nine characters, each a digit, whose values form the multiset `{0,…,8}`. -/
def FormA (text : List Char) : Prop :=
  (pyStrip text).all isDigitCh = true ∧ (pyStrip text).length = 9 ∧
    (digitsOf (pyStrip text)).Perm intRange9

/-- Textual form 2 of the spec: nine whitespace/comma/semicolon-separated
integer tokens whose values form the multiset `{0,…,8}`. -/
def FormB (text : List Char) : Prop :=
  (tokensOf text).length = 9 ∧
    ∃ vals, allSome ((tokensOf text).map pyInt) = some vals ∧ vals.Perm intRange9

/-! ## The A* solver (`astar_solve`)

The `while open_heap:` loop is embedded with a fuel parameter; `none` means
the fuel ran out (the mathematical loop would keep running), `some r` means
the Python function returns `r`.  The heap is modelled as a list kept sorted
by the Python tuple order on `(f, g, state)`; `heapq` pops a least element,
and since the solver never pushes two equal triples (pushes for one state
carry strictly decreasing `g`), popping the head of the sorted list is
faithful to `heapq.heappop`. -/

/-- `10**9`, the default in `g_cost.get(state, 10**9)`. -/
def BIG : Nat := 1000000000

/-- A heap entry `(f, g, state)`. -/
abbrev Entry := Nat × Nat × Board

/-- Strict lexicographic comparison of boards (Python tuple comparison of
the state components). -/
def boardLt : Board → Board → Bool
  | _, [] => false
  | [], _ :: _ => true
  | x :: xs, y :: ys => if x < y then true else if x = y then boardLt xs ys else false

/-- The Python comparison on heap entries: lexicographic on `(f, g, state)`. -/
def entryLe (a b : Entry) : Bool :=
  if a.1 = b.1 then
    if a.2.1 = b.2.1 then
      if a.2.2 = b.2.2 then true else boardLt a.2.2 b.2.2
    else decide (a.2.1 < b.2.1)
  else decide (a.1 < b.1)

/-- Ordered insertion, keeping the heap list sorted. -/
def insertE (e : Entry) : List Entry → List Entry
  | [] => [e]
  | x :: xs => if entryLe x e then x :: insertE e xs else e :: x :: xs

/-- Association list lookup with board keys (`dict` access). -/
def lookupB {α : Type} : List (Board × α) → Board → Option α
  | [], _ => none
  | (k, v) :: rest, key => if k = key then some v else lookupB rest key

/-- `g_cost.get(state, 10**9)`. -/
def getDflt (m : List (Board × Nat)) (key : Board) : Nat :=
  match lookupB m key with
  | some v => v
  | none => BIG

/-- Association list update (`dict` assignment). -/
def setB {α : Type} : List (Board × α) → Board → α → List (Board × α)
  | [], key, v => [(key, v)]
  | (k, w) :: rest, key, v =>
    if k = key then (key, v) :: rest else (k, w) :: setB rest key v

/-- `g_cost`: best known cost per board. -/
abbrev GMap := List (Board × Nat)

/-- `parent`: child board ↦ (parent board, moved tile). -/
abbrev PMap := List (Board × (Board × Nat))

/-- The reconstruction loop `while cur in parent`, collecting moved tiles
from the goal backwards (Python reverses at the end).  The fuel `g` given at
the call site bounds the chain length: parent links strictly decrease
`g_cost`, so the chain from the goal (of cost `g`) has at most `g` links. -/
def walkParents (par : PMap) : Board → Nat → List Nat
  | _, 0 => []
  | cur, fuel + 1 =>
    match lookupB par cur with
    | none => []
    | some (prev, moved) => moved :: walkParents par prev fuel

/-- The neighbour loop of one expansion: `for nb in neighbors(z)` with the
swap, the `g_cost` and `parent` updates, and the push. -/
def relaxAll (s : Board) (g z : Nat) :
    List Nat → List Entry → GMap → PMap → List Entry × GMap × PMap
  | [], heap, gc, par => (heap, gc, par)
  | nb :: rest, heap, gc, par =>
    let movedTile := s.getD nb 0
    let newS := swapCells s z nb
    let newG := g + 1
    if newG < getDflt gc newS then
      relaxAll s g z rest
        (insertE (newG + manhattan newS, newG, newS) heap)
        (setB gc newS newG) (setB par newS (s, movedTile))
    else
      relaxAll s g z rest heap gc par

/-- The `while open_heap:` loop, with `fuel` iterations available. -/
def astarLoop (maxExp : Nat) : Nat → List Entry → GMap → PMap → Nat →
    Option (Option (List Nat))
  | 0, _, _, _, _ => none
  | _ + 1, [], _, _, _ => some none
  | fuel + 1, (_, g, s) :: rest, gc, par, exps =>
    if g ≠ getDflt gc s then astarLoop maxExp fuel rest gc par exps
    else if s = GOAL then some (some ((walkParents par s g).reverse))
    else if exps + 1 > maxExp then some none
    else
      let z := blankIdx s
      let res := relaxAll s g z (neighbors z) rest gc par
      astarLoop maxExp fuel res.1 res.2.1 res.2.2 (exps + 1)

/-- `astar_solve` from `main.py`, with loop fuel. -/
def astar_solve (start : Board) (maxExp fuel : Nat) : Option (Option (List Nat)) :=
  if start = GOAL then some (some [])
  else astarLoop maxExp fuel [(manhattan start, 0, start)] [(start, 0)] [] 0

/-- Invariant of `g_cost`/`parent` tying each recorded board to a legal move
from its parent and a strictly smaller parent cost. -/
structure MapsInv (start : Board) (gc : GMap) (par : PMap) : Prop where
  start_mem : lookupB gc start = some 0
  board : ∀ s g, lookupB gc s = some g → IsBoard s
  gval_lt : ∀ s g, lookupB gc s = some g → g < BIG
  par_dom : ∀ s g, lookupB gc s = some g → s ≠ start → ∃ pt, lookupB par s = some pt
  par_fact : ∀ s p t, lookupB par s = some (p, t) →
    ∃ gs gp, lookupB gc s = some gs ∧ lookupB gc p = some gp ∧ gp < gs ∧
      legalMove p t = true ∧ applyMove p t = s ∧ s ≠ start


/-- Structural well-formedness of the `g_cost` keys: distinct, 9 cells,
values below 9 (used for the termination bound). -/
def KeysValid (gc : GMap) : Prop :=
  (gc.map Prod.fst).Nodup ∧ ∀ kv ∈ gc, kv.1.length = 9 ∧ ∀ x ∈ kv.1, x < 9

/-- Every queued state is a board of the same inversion parity as the
start. -/
def HeapInv (start : Board) (heap : List Entry) : Prop :=
  ∀ e ∈ heap, IsBoard e.2.2 ∧ inversions e.2.2 % 2 = inversions start % 2

/-- Sum of the recorded `g_cost` values. -/
def gcPot (gc : GMap) : Nat := (gc.map (fun kv => kv.2)).sum

/-- Crude bound on the number of distinct board keys. -/
def NBOARDS : Nat := 9 ^ 9

/-- Termination measure of the solver loop: every iteration strictly
decreases it. -/
def phi (heap : List Entry) (gc : GMap) : Nat :=
  heap.length + gcPot gc + (NBOARDS - gc.length) * BIG

/-! ## Cell permutations and blank walks (for the reachability proof) -/

/-- A cell index as `Fin 9` (all cells handled below are `< 9`). -/
def finOf (n : Nat) : Fin 9 := ⟨n % 9, Nat.mod_lt _ (by omega)⟩

/-- The board whose cell `i` holds the content of cell `π i` of `st`. -/
def permuteCells (st : Board) (π : Equiv.Perm (Fin 9)) : Board :=
  (List.finRange 9).map (fun i => st.getD (π i).val 0)

/-- A walk of the blank: each cell is grid-adjacent to its predecessor. -/
def StepsOK : Nat → List Nat → Prop
  | _, [] => True
  | c, d :: rest => d ∈ neighbors c ∧ StepsOK d rest

/-- Final cell of a walk. -/
def pathEnd : Nat → List Nat → Nat
  | c, [] => c
  | _, d :: rest => pathEnd d rest

/-- The cell permutation induced by walking the blank along a path. -/
def pathPerm : Nat → List Nat → Equiv.Perm (Fin 9)
  | _, [] => 1
  | c, d :: rest => Equiv.swap (finOf c) (finOf d) * pathPerm d rest

/-- The tile values pushed into the blank while walking it along a path. -/
def movesOfPath (st : Board) : List Nat → List Nat
  | [] => []
  | d :: rest => st.getD d 0 :: movesOfPath (applyMove st (st.getD d 0)) rest

/-- Cell permutations realizable by a closed walk of the blank from its home
cell 8 back to 8. -/
def Realizable (π : Equiv.Perm (Fin 9)) : Prop :=
  ∃ steps, StepsOK 8 steps ∧ pathEnd 8 steps = 8 ∧ pathPerm 8 steps = π

/-- Inversion count of the full cell list, blank included. -/
def invFull (st : List Nat) : Nat := invTail st

/-- The content function of a board. -/
def boardFun (st : Board) : Fin 9 → Fin 9 := fun i => finOf (st.getD i.val 0)

/-- The cell holding a given content. -/
def boardInv (st : Board) : Fin 9 → Fin 9 := fun v => finOf (List.indexOf v.val st)

/-- The permutation sending a cell to its content (for genuine boards). -/
def boardPerm (st : Board) (hl : Function.LeftInverse (boardInv st) (boardFun st))
    (hr : Function.RightInverse (boardInv st) (boardFun st)) :
    Equiv.Perm (Fin 9) := ⟨boardFun st, boardInv st, hl, hr⟩

/-- Transposition of the contents of cells 0 and `x`. -/
def star (x : Fin 9) : Equiv.Perm (Fin 9) := Equiv.swap (finOf 0) x

/-- Product of a word of star transpositions. -/
def starProd : List (Fin 9) → Equiv.Perm (Fin 9)
  | [] => 1
  | x :: rest => star x * starProd rest

/-- An explicit grid path from cell 8 to cell `m`. -/
def homePath : Nat → List Nat
  | 0 => [5, 4, 1, 0]
  | 1 => [5, 4, 1]
  | 2 => [5, 2]
  | 3 => [5, 4, 3]
  | 4 => [5, 4]
  | 5 => [5]
  | 6 => [7, 6]
  | 7 => [7]
  | _ => []

/-- Closed blank walks realizing the cell permutations `swap 0 x * swap 0 y`
for distinct `x, y` in the interior cells (found by search, checked below by
`decide`). -/
def starPairSteps : Nat → Nat → List Nat
  | 1, 2 => [5, 2, 1, 4, 5, 8, 7, 6, 3, 4, 1, 0, 3, 6, 7, 8]
  | 1, 3 => [5, 4, 1, 0, 3, 4, 5, 8]
  | 1, 4 => [7, 6, 3, 4, 1, 0, 3, 6, 7, 8]
  | 1, 5 => [7, 4, 1, 0, 3, 4, 5, 2, 1, 4, 3, 0, 1, 2, 5, 4, 7, 8]
  | 1, 6 => [5, 4, 3, 6, 7, 4, 1, 0, 3, 4, 7, 6, 3, 4, 5, 8]
  | 1, 7 => [5, 4, 7, 6, 3, 4, 1, 0, 3, 6, 7, 4, 5, 8]
  | 2, 1 => [5, 2, 1, 0, 3, 4, 1, 2, 5, 4, 3, 0, 1, 2, 5, 8]
  | 2, 3 => [5, 2, 1, 4, 5, 2, 1, 0, 3, 4, 5, 2, 1, 4, 5, 8]
  | 2, 4 => [5, 4, 1, 0, 3, 4, 5, 2, 1, 4, 3, 0, 1, 4, 5, 8]
  | 2, 5 => [7, 4, 1, 0, 3, 4, 5, 2, 1, 4, 3, 0, 1, 4, 7, 8]
  | 2, 6 => [5, 2, 1, 4, 3, 6, 7, 4, 5, 2, 1, 0, 3, 4, 7, 6, 3, 4, 5, 2, 1, 4, 5, 8]
  | 2, 7 => [5, 2, 1, 4, 7, 6, 3, 4, 5, 2, 1, 0, 3, 6, 7, 4, 5, 2, 1, 4, 5, 8]
  | 3, 1 => [5, 4, 3, 0, 1, 4, 5, 8]
  | 3, 2 => [5, 4, 1, 2, 5, 4, 3, 0, 1, 4, 5, 2, 1, 4, 5, 8]
  | 3, 4 => [5, 2, 1, 4, 3, 0, 1, 2, 5, 8]
  | 3, 5 => [7, 4, 5, 2, 1, 4, 3, 0, 1, 2, 5, 4, 7, 8]
  | 3, 6 => [7, 6, 3, 0, 1, 4, 7, 6, 3, 4, 1, 0, 3, 6, 7, 8]
  | 3, 7 => [5, 4, 7, 8, 5, 2, 1, 4, 3, 0, 1, 2, 5, 8, 7, 4, 5, 8]
  | 4, 1 => [7, 6, 3, 0, 1, 4, 3, 6, 7, 8]
  | 4, 2 => [5, 4, 1, 0, 3, 4, 1, 2, 5, 4, 3, 0, 1, 4, 5, 8]
  | 4, 3 => [5, 2, 1, 0, 3, 4, 1, 2, 5, 8]
  | 4, 5 => [7, 4, 5, 2, 1, 4, 7, 6, 3, 0, 1, 2, 5, 4, 3, 6, 7, 8]
  | 4, 6 => [7, 4, 3, 0, 1, 4, 3, 6, 7, 4, 1, 0, 3, 4, 7, 8]
  | 4, 7 => [5, 2, 1, 4, 7, 6, 3, 4, 1, 0, 3, 6, 7, 4, 1, 2, 5, 8]
  | 5, 1 => [7, 4, 5, 2, 1, 0, 3, 4, 1, 2, 5, 4, 3, 0, 1, 4, 7, 8]
  | 5, 2 => [7, 4, 1, 0, 3, 4, 1, 2, 5, 4, 3, 0, 1, 4, 7, 8]
  | 5, 3 => [7, 4, 5, 2, 1, 0, 3, 4, 1, 2, 5, 4, 7, 8]
  | 5, 4 => [7, 6, 3, 4, 5, 2, 1, 0, 3, 6, 7, 4, 1, 2, 5, 4, 7, 8]
  | 5, 6 => [5, 4, 7, 8, 5, 4, 3, 0, 1, 4, 3, 6, 7, 8, 5, 4, 1, 0, 3, 4, 7, 8]
  | 5, 7 => [5, 2, 1, 4, 7, 6, 3, 0, 1, 4, 3, 0, 1, 2, 5, 4, 3, 6, 7, 8]
  | 6, 1 => [5, 4, 3, 6, 7, 4, 3, 0, 1, 4, 7, 6, 3, 4, 5, 8]
  | 6, 2 => [5, 4, 1, 2, 5, 4, 3, 0, 1, 2, 5, 8, 7, 6, 3, 4, 7, 8, 5, 4, 1, 2, 5, 8]
  | 6, 3 => [5, 2, 1, 0, 3, 4, 1, 2, 5, 8, 7, 4, 3, 6, 7, 8]
  | 6, 4 => [5, 2, 1, 4, 3, 0, 1, 2, 5, 8, 7, 6, 3, 4, 7, 8]
  | 6, 5 => [7, 4, 3, 0, 1, 4, 5, 8, 7, 6, 3, 4, 1, 0, 3, 4, 7, 8, 5, 4, 7, 8]
  | 6, 7 => [5, 4, 3, 0, 1, 4, 7, 6, 3, 4, 1, 0, 3, 4, 5, 8]
  | 7, 1 => [5, 4, 7, 6, 3, 0, 1, 4, 3, 6, 7, 4, 5, 8]
  | 7, 2 => [5, 4, 1, 0, 3, 4, 7, 8, 5, 4, 1, 2, 5, 8, 7, 4, 3, 0, 1, 4, 5, 8]
  | 7, 3 => [5, 4, 7, 6, 3, 0, 1, 4, 3, 6, 7, 4, 1, 0, 3, 4, 5, 8]
  | 7, 4 => [5, 2, 1, 4, 7, 6, 3, 0, 1, 4, 3, 6, 7, 4, 1, 2, 5, 8]
  | 7, 5 => [7, 4, 5, 2, 1, 4, 7, 6, 3, 0, 1, 4, 3, 6, 7, 4, 1, 2, 5, 8]
  | 7, 6 => [5, 4, 3, 0, 1, 4, 3, 6, 7, 4, 1, 0, 3, 4, 5, 8]
  | _, _ => []

/-- The solver's input/output relation: with enough fuel the `while` loop
terminates and the function returns `r`. -/
def astarReturns (start : Board) (maxExp : Nat) (r : Option (List Nat)) : Prop :=
  ∃ fuel, astar_solve start maxExp fuel = some r

/-- Value swap of the tiles 1 and 2, the parity-flipping involution used to
bound the number of even boards. -/
def swap12 (x : Nat) : Nat := if x = 1 then 2 else if x = 2 then 1 else x

/-- The finite set of all boards of even inversion parity. -/
def evenBoards : Finset Board :=
  ((List.range 9).permutations.toFinset).filter (fun b => inversions b % 2 = 0)

/-- A legal move list leading from `a` to `b`. -/
def PathTo (a b : Board) (ms : List Nat) : Prop :=
  LegalSeq a ms ∧ replay a ms = b

/-- `n` is the minimal number of legal moves leading from `a` to `b`. -/
def IsDist (a b : Board) (n : Nat) : Prop :=
  (∃ ms, PathTo a b ms ∧ ms.length = n) ∧ ∀ ms, PathTo a b ms → n ≤ ms.length

/-- The solver-loop invariant for the optimality proof.  `D` is the set of
expanded ("settled") boards; every heap entry keeps `f = g + h`, a `g_cost`
value at most its `g`, and an explicit path of length `g`; every recorded
`g_cost` value is realized by a path and belongs either to a settled board
or to a live heap entry; settled boards carry their exact distance, have no
live entry at that distance, and have all their neighbours relaxed. -/
structure AStarInv (start : Board) (heap : List Entry) (gc : GMap)
    (exps : Nat) (D : Finset Board) : Prop where
  card : exps = D.card
  sortedF : heap.Pairwise (fun a b => a.1 ≤ b.1)
  entry_f : ∀ e ∈ heap, e.1 = e.2.1 + manhattan e.2.2
  entry_ge : ∀ e ∈ heap, ∃ gs, lookupB gc e.2.2 = some gs ∧ gs ≤ e.2.1
  entry_path : ∀ e ∈ heap, ∃ ms, PathTo start e.2.2 ms ∧ ms.length = e.2.1
  distinct : heap.Pairwise (fun a b => a.2.2 = b.2.2 → a.2.1 ≠ b.2.1)
  gexact : ∀ s g, lookupB gc s = some g → ∃ ms, PathTo start s ms ∧ ms.length = g
  keyfacts : ∀ s g, lookupB gc s = some g →
    IsBoard s ∧ inversions s % 2 = inversions start % 2 ∧ g ≤ 181440
  open_ok : ∀ s g, lookupB gc s = some g → s ∈ D ∨ ∃ f, (f, g, s) ∈ heap
  settled : ∀ v ∈ D, ∃ dv, IsDist start v dv ∧ lookupB gc v = some dv ∧
    (∀ e ∈ heap, e.2.2 = v → dv < e.2.1) ∧
    (∀ t, legalMove v t = true →
      ∃ gw, lookupB gc (applyMove v t) = some gw ∧ gw ≤ dv + 1)
  goal_not : GOAL ∉ D

/-- The part of `AStarInv` that is maintained through the relaxation loop of
a single expansion of `s` (whose popped entry is already off the heap). -/
structure RelaxInv (start s : Board) (g : Nat) (D : Finset Board)
    (heap : List Entry) (gc : GMap) : Prop where
  sortedF : heap.Pairwise (fun a b => a.1 ≤ b.1)
  entry_f : ∀ e ∈ heap, e.1 = e.2.1 + manhattan e.2.2
  entry_ge : ∀ e ∈ heap, ∃ gs, lookupB gc e.2.2 = some gs ∧ gs ≤ e.2.1
  entry_path : ∀ e ∈ heap, ∃ ms, PathTo start e.2.2 ms ∧ ms.length = e.2.1
  distinct : heap.Pairwise (fun a b => a.2.2 = b.2.2 → a.2.1 ≠ b.2.1)
  gexact : ∀ u gu, lookupB gc u = some gu →
    ∃ ms, PathTo start u ms ∧ ms.length = gu
  keyfacts : ∀ u gu, lookupB gc u = some gu →
    IsBoard u ∧ inversions u % 2 = inversions start % 2 ∧ gu ≤ 181440
  open_ok : ∀ u gu, lookupB gc u = some gu →
    u ∈ D ∨ u = s ∨ ∃ f, (f, gu, u) ∈ heap
  settled : ∀ v ∈ D, ∃ dv, IsDist start v dv ∧ lookupB gc v = some dv ∧
    (∀ e ∈ heap, e.2.2 = v → dv < e.2.1) ∧
    (∀ t, legalMove v t = true →
      ∃ gw, lookupB gc (applyMove v t) = some gw ∧ gw ≤ dv + 1)

end Puzzle

namespace Puzzle

/-! ## Basic facts about boards -/

theorem isBoard_goal : IsBoard GOAL := by
  unfold IsBoard
  decide

theorem IsBoard.length (h : IsBoard st) : st.length = 9 := by
  have hp : st.Perm (List.range 9) := h
  simpa using hp.length_eq

theorem IsBoard.nodup (h : IsBoard st) : st.Nodup := by
  have hp : st.Perm (List.range 9) := h
  exact hp.nodup_iff.mpr (List.nodup_range 9)

theorem IsBoard.mem_val (h : IsBoard st) {v : Nat} : v ∈ st ↔ v < 9 := by
  have hp : st.Perm (List.range 9) := h
  rw [hp.mem_iff, List.mem_range]

theorem IsBoard.zero_mem (h : IsBoard st) : 0 ∈ st := h.mem_val.mpr (by omega)

theorem IsBoard.indexOf_lt (h : IsBoard st) {v : Nat} (hv : v < 9) :
    List.indexOf v st < 9 := by
  have h1 : List.indexOf v st < st.length :=
    List.indexOf_lt_length.mpr (h.mem_val.mpr hv)
  rw [h.length] at h1
  exact h1

theorem IsBoard.blankIdx_lt (h : IsBoard st) : blankIdx st < 9 :=
  h.indexOf_lt (by omega)

theorem IsBoard.getD_indexOf (h : IsBoard st) {v : Nat} (hv : v < 9) :
    st.getD (List.indexOf v st) 0 = v := by
  have hlt : List.indexOf v st < st.length :=
    List.indexOf_lt_length.mpr (h.mem_val.mpr hv)
  rw [List.getD_eq_getElem?_getD, List.getElem?_eq_getElem hlt, Option.getD_some]
  exact List.getElem_indexOf hlt

theorem IsBoard.getD_blankIdx (h : IsBoard st) : st.getD (blankIdx st) 0 = 0 :=
  h.getD_indexOf (by omega)

theorem getD_eq_getElem {l : List Nat} {i : Nat} (h : i < l.length) (d : Nat) :
    l.getD i d = l[i] := by
  rw [List.getD_eq_getElem?_getD, List.getElem?_eq_getElem h, Option.getD_some]

theorem IsBoard.getD_lt (h : IsBoard st) {i : Nat} (hi : i < 9) : st.getD i 0 < 9 := by
  have hlen : i < st.length := by rw [h.length]; exact hi
  rw [getD_eq_getElem hlen]
  exact h.mem_val.mp (List.getElem_mem hlen)

/-- The first index holding a value equals any index holding it, on nodup
boards. -/
theorem IsBoard.indexOf_eq_of_getD (h : IsBoard st) {i : Nat} (hi : i < 9)
    (hv : st.getD i 0 = v) : List.indexOf v st = i := by
  have hlen : i < st.length := by rw [h.length]; exact hi
  have hvlt : v < 9 := by
    rw [← hv]; exact h.getD_lt hi
  have hidx : List.indexOf v st < st.length :=
    List.indexOf_lt_length.mpr (h.mem_val.mpr hvlt)
  have h1 : st[List.indexOf v st] = v := List.getElem_indexOf hidx
  have h2 : st[i] = v := by rw [← getD_eq_getElem hlen 0]; exact hv
  have h4 := @List.Nodup.getElem_inj_iff _ _ h.nodup (List.indexOf v st) hidx i hlen
  exact h4.mp (by rw [h1, h2])

/-! ## Swapping two cells -/

theorem length_swapCells (st : Board) (i j : Nat) :
    (swapCells st i j).length = st.length := by
  simp [swapCells]

theorem getD_swapCells_fst {st : Board} {i j : Nat} (hi : i < st.length)
    (hij : i ≠ j) : (swapCells st i j).getD i 0 = st.getD j 0 := by
  unfold swapCells
  have h1 : i < (st.set i (st.getD j 0)).length := by simpa using hi
  rw [List.getD_eq_getElem?_getD, List.getElem?_set]
  simp only [if_neg (Ne.symm hij)]
  rw [List.getElem?_eq_getElem h1, Option.getD_some, List.getElem_set]
  simp [getD_eq_getElem hi]

theorem getD_swapCells_snd {st : Board} {i j : Nat} (hj : j < st.length) :
    (swapCells st i j).getD j 0 = st.getD i 0 := by
  unfold swapCells
  have h1 : j < (st.set i (st.getD j 0)).length := by simpa using hj
  rw [List.getD_eq_getElem?_getD, List.getElem?_set]
  simp [hj, List.getD_eq_getElem?_getD]

theorem getD_swapCells_other {st : Board} {i j k : Nat} (hik : k ≠ i)
    (hjk : k ≠ j) : (swapCells st i j).getD k 0 = st.getD k 0 := by
  unfold swapCells
  rw [List.getD_eq_getElem?_getD, List.getElem?_set, if_neg (Ne.symm hjk),
    List.getElem?_set, if_neg (Ne.symm hik), ← List.getD_eq_getElem?_getD]

theorem perm_swapCells {st : Board} {i j : Nat} (hi : i < st.length)
    (hj : j < st.length) : (swapCells st i j).Perm st := by
  rw [List.perm_iff_count]
  intro a
  unfold swapCells
  have hj1 : j < (st.set i (st.getD j 0)).length := by simpa using hj
  rw [List.count_set _ _ _ _ hj1, List.count_set _ _ _ _ hi]
  have hgi : st.getD i 0 = st[i] := getD_eq_getElem hi 0
  have hgj : st.getD j 0 = st[j] := getD_eq_getElem hj 0
  have hset : (st.set i (st.getD j 0))[j] = if i = j then st[j] else st[j] := by
    rw [List.getElem_set]
    split <;> simp_all
  rw [hset]
  have hci : st[i] ∈ st := List.getElem_mem hi
  have hcj : st[j] ∈ st := List.getElem_mem hj
  have hcounti : (st[i] == a) = true → 1 ≤ List.count a st := by
    intro hia
    have : st[i] = a := by simpa using hia
    subst this
    simpa [List.count_pos_iff] using hci
  have hcountj : (st[j] == a) = true → 1 ≤ List.count a st := by
    intro hja
    have : st[j] = a := by simpa using hja
    subst this
    simpa [List.count_pos_iff] using hcj
  split_ifs <;> simp_all <;> omega

theorem IsBoard.swapCells (h : IsBoard st) {i j : Nat} (hi : i < 9) (hj : j < 9) :
    IsBoard (Puzzle.swapCells st i j) := by
  have hi' : i < st.length := by rw [h.length]; exact hi
  have hj' : j < st.length := by rw [h.length]; exact hj
  exact (perm_swapCells hi' hj').trans h

theorem eq_of_getD {l m : List Nat} (hl : l.length = 9) (hm : m.length = 9)
    (h : ∀ n, n < 9 → l.getD n 0 = m.getD n 0) : l = m := by
  apply List.ext_getElem (by omega)
  intro n h1 h2
  have h3 := h n (by omega)
  rwa [getD_eq_getElem h1, getD_eq_getElem h2] at h3

/-! ## Grid facts, by direct case evaluation over the 9 cells -/

theorem neighbors_range : ∀ z, z < 9 → ∀ nb ∈ neighbors z, nb < 9 ∧ nb ≠ z := by
  decide

theorem neighbors_symm : ∀ z, z < 9 → ∀ nb ∈ neighbors z, z ∈ neighbors nb := by
  decide

theorem mdist_eq_zero_iff : ∀ i, i < 9 → ∀ g, g < 9 → (mdist i g = 0 ↔ i = g) := by
  decide

theorem mdist_neighbor : ∀ z, z < 9 → ∀ nb ∈ neighbors z, ∀ g, g < 9 →
    mdist nb g ≤ mdist z g + 1 ∧ mdist z g ≤ mdist nb g + 1 := by
  decide

theorem goalPos_lt : ∀ v, v < 9 → GOAL_POS v < 9 := by decide

theorem goal_getD_goalPos : ∀ v, v < 9 → GOAL.getD (GOAL_POS v) 0 = v := by decide

/-! ## Manhattan distance decomposition -/

theorem msum_cons (i v : Nat) (rest : List Nat) :
    msum i (v :: rest) = contrib i v + msum (i + 1) rest := rfl

theorem msum_append (l : List Nat) : ∀ (i : Nat) (r : List Nat),
    msum i (l ++ r) = msum i l + msum (i + l.length) r := by
  induction l with
  | nil => intro i r; simp [msum]
  | cons v rest ih =>
    intro i r
    simp only [List.cons_append, msum_cons, ih (i + 1) r, List.length_cons]
    have h2 : i + 1 + rest.length = i + (rest.length + 1) := by omega
    rw [h2]
    omega

theorem msum_zero_all {l : List Nat} : ∀ (i : Nat), msum i l = 0 →
    ∀ k, k < l.length → contrib (i + k) (l.getD k 0) = 0 := by
  induction l with
  | nil => intro i _ k hk; simp at hk
  | cons v rest ih =>
    intro i h0 k hk
    rw [msum_cons] at h0
    match k with
    | 0 => simpa using Nat.eq_zero_of_add_eq_zero_right h0
    | k' + 1 =>
      have h1 : msum (i + 1) rest = 0 := Nat.eq_zero_of_add_eq_zero_left h0
      have h2 := ih (i + 1) h1 k' (by simpa using hk)
      simpa [Nat.add_comm, Nat.add_assoc, Nat.add_left_comm] using h2

theorem msum_set {st : List Nat} : ∀ {k : Nat} (i : Nat), k < st.length →
    ∀ (a : Nat), msum i (st.set k a) + contrib (i + k) (st.getD k 0)
      = msum i st + contrib (i + k) a := by
  induction st with
  | nil => intro k i hk; simp at hk
  | cons v rest ih =>
    intro k i hk a
    match k with
    | 0 => simp [msum_cons]; omega
    | k' + 1 =>
      have hk' : k' < rest.length := by simpa using hk
      have h1 := ih (i + 1) hk' a
      simp only [List.set_cons_succ, msum_cons, List.getD_cons_succ]
      have harith : i + 1 + k' = i + (k' + 1) := by omega
      rw [harith] at h1
      omega

theorem manhattan_set {st : Board} {k : Nat} (hk : k < st.length) (a : Nat) :
    manhattan (st.set k a) + contrib k (st.getD k 0) = manhattan st + contrib k a := by
  have := msum_set 0 hk a
  simpa [manhattan] using this

theorem manhattan_swapCells {st : Board} {i j : Nat} (hi : i < st.length)
    (hj : j < st.length) (hij : i ≠ j) :
    manhattan (swapCells st i j) + contrib i (st.getD i 0) + contrib j (st.getD j 0)
      = manhattan st + contrib i (st.getD j 0) + contrib j (st.getD i 0) := by
  unfold swapCells
  have hi1 : i < (st.set i (st.getD j 0)).length := by simpa using hi
  have hj1 : j < (st.set i (st.getD j 0)).length := by simpa using hj
  have hA := manhattan_set hi (st.getD j 0)
  have hB := @manhattan_set (st.set i (st.getD j 0)) j hj1 (st.getD i 0)
  have hgd : (st.set i (st.getD j 0)).getD j 0 = st.getD j 0 := by
    rw [List.getD_eq_getElem?_getD, List.getElem?_set, if_neg hij,
      ← List.getD_eq_getElem?_getD]
  rw [hgd] at hB
  omega

/-! ## Move semantics -/

theorem legalMove_iff {st : Board} {t : Nat} :
    legalMove st t = true ↔ List.indexOf t st ∈ neighbors (blankIdx st) :=
  ⟨fun h2 => by simpa [legalMove] using h2, fun h2 => by simpa [legalMove] using h2⟩

theorem IsBoard.tileIdx_mem (h : IsBoard st) (hl : legalMove st t = true) :
    List.indexOf t st ∈ neighbors (blankIdx st) := legalMove_iff.mp hl

theorem IsBoard.tileIdx_lt (h : IsBoard st) (hl : legalMove st t = true) :
    List.indexOf t st < 9 :=
  (neighbors_range _ h.blankIdx_lt _ (h.tileIdx_mem hl)).1

theorem IsBoard.tileIdx_ne (h : IsBoard st) (hl : legalMove st t = true) :
    List.indexOf t st ≠ blankIdx st :=
  (neighbors_range _ h.blankIdx_lt _ (h.tileIdx_mem hl)).2

theorem IsBoard.getD_tileIdx (h : IsBoard st) (hl : legalMove st t = true) :
    st.getD (List.indexOf t st) 0 = t := by
  have hlt : List.indexOf t st < st.length := by
    rw [h.length]; exact h.tileIdx_lt hl
  rw [getD_eq_getElem hlt]
  exact List.getElem_indexOf hlt

theorem IsBoard.tile_lt (h : IsBoard st) (hl : legalMove st t = true) : t < 9 := by
  have hlt : List.indexOf t st < st.length := by
    rw [h.length]; exact h.tileIdx_lt hl
  exact h.mem_val.mp (List.indexOf_lt_length.mp hlt)

theorem IsBoard.tile_ne_zero (h : IsBoard st) (hl : legalMove st t = true) :
    t ≠ 0 := by
  intro h0
  subst h0
  exact h.tileIdx_ne hl rfl

theorem IsBoard.applyMove_isBoard (h : IsBoard st) (hl : legalMove st t = true) :
    IsBoard (applyMove st t) :=
  h.swapCells h.blankIdx_lt (h.tileIdx_lt hl)

theorem getD_applyMove_tileIdx (h : IsBoard st) (hl : legalMove st t = true) :
    (applyMove st t).getD (List.indexOf t st) 0 = 0 := by
  unfold applyMove
  rw [getD_swapCells_snd (by rw [h.length]; exact h.tileIdx_lt hl)]
  exact h.getD_blankIdx

theorem getD_applyMove_blankIdx (h : IsBoard st) (hl : legalMove st t = true) :
    (applyMove st t).getD (blankIdx st) 0 = t := by
  unfold applyMove
  rw [getD_swapCells_fst (by rw [h.length]; exact h.blankIdx_lt)
    (Ne.symm (h.tileIdx_ne hl))]
  exact h.getD_tileIdx hl

theorem getD_applyMove_other (h : IsBoard st) (hl : legalMove st t = true)
    {n : Nat} (h1 : n ≠ blankIdx st) (h2 : n ≠ List.indexOf t st) :
    (applyMove st t).getD n 0 = st.getD n 0 := by
  unfold applyMove
  exact getD_swapCells_other h1 h2

theorem blankIdx_applyMove (h : IsBoard st) (hl : legalMove st t = true) :
    blankIdx (applyMove st t) = List.indexOf t st :=
  (h.applyMove_isBoard hl).indexOf_eq_of_getD (h.tileIdx_lt hl)
    (getD_applyMove_tileIdx h hl)

theorem indexOf_applyMove (h : IsBoard st) (hl : legalMove st t = true) :
    List.indexOf t (applyMove st t) = blankIdx st :=
  (h.applyMove_isBoard hl).indexOf_eq_of_getD h.blankIdx_lt
    (getD_applyMove_blankIdx h hl)

theorem legalMove_applyMove (h : IsBoard st) (hl : legalMove st t = true) :
    legalMove (applyMove st t) t = true := by
  rw [legalMove_iff, indexOf_applyMove h hl, blankIdx_applyMove h hl]
  exact neighbors_symm _ h.blankIdx_lt _ (h.tileIdx_mem hl)

/-- Moving the same tile again undoes the move. -/
theorem applyMove_applyMove (h : IsBoard st) (hl : legalMove st t = true) :
    applyMove (applyMove st t) t = st := by
  have h' : IsBoard (applyMove st t) := h.applyMove_isBoard hl
  have hz := h.blankIdx_lt
  have hk := h.tileIdx_lt hl
  have hne := h.tileIdx_ne hl
  have hlen : (applyMove (applyMove st t) t).length = 9 := by
    unfold applyMove
    rw [length_swapCells, length_swapCells, h.length]
  apply eq_of_getD hlen h.length
  intro n hn
  show (swapCells (applyMove st t) (blankIdx (applyMove st t))
    (List.indexOf t (applyMove st t))).getD n 0 = st.getD n 0
  rw [blankIdx_applyMove h hl, indexOf_applyMove h hl]
  have hlen' : (applyMove st t).length = 9 := by
    unfold applyMove; rw [length_swapCells, h.length]
  by_cases hn1 : n = List.indexOf t st
  · subst hn1
    rw [getD_swapCells_fst (by rw [hlen']; exact hk) hne]
    rw [getD_applyMove_blankIdx h hl, h.getD_tileIdx hl]
  · by_cases hn2 : n = blankIdx st
    · subst hn2
      rw [getD_swapCells_snd (by rw [hlen']; exact hz)]
      rw [getD_applyMove_tileIdx h hl, h.getD_blankIdx]
    · rw [getD_swapCells_other hn1 hn2, getD_applyMove_other h hl hn2 hn1]

/-! ## The heuristic under one move (consistency) -/

theorem manhattan_applyMove_close (h : IsBoard st) (hl : legalMove st t = true) :
    manhattan (applyMove st t) ≤ manhattan st + 1 ∧
      manhattan st ≤ manhattan (applyMove st t) + 1 := by
  have hz : blankIdx st < st.length := by rw [h.length]; exact h.blankIdx_lt
  have hk : List.indexOf t st < st.length := by rw [h.length]; exact h.tileIdx_lt hl
  have hswap := manhattan_swapCells hz hk (Ne.symm (h.tileIdx_ne hl))
  rw [h.getD_blankIdx, h.getD_tileIdx hl] at hswap
  have ht0 : t ≠ 0 := h.tile_ne_zero hl
  have hcontrib0 : contrib (blankIdx st) 0 = 0 := by simp [contrib]
  have hcontribk0 : contrib (List.indexOf t st) 0 = 0 := by simp [contrib]
  rw [hcontrib0, hcontribk0] at hswap
  have hcz : contrib (blankIdx st) t = mdist (blankIdx st) (GOAL_POS t) := by
    simp [contrib, ht0]
  have hck : contrib (List.indexOf t st) t
      = mdist (List.indexOf t st) (GOAL_POS t) := by
    simp [contrib, ht0]
  rw [hcz, hck] at hswap
  have hmd := mdist_neighbor _ h.blankIdx_lt _ (h.tileIdx_mem hl) (GOAL_POS t)
    (goalPos_lt t (h.tile_lt hl))
  show manhattan (swapCells st (blankIdx st) (List.indexOf t st)) ≤ manhattan st + 1
    ∧ manhattan st ≤ manhattan (swapCells st (blankIdx st) (List.indexOf t st)) + 1
  omega

/-! ## Replaying sequences -/

theorem replay_append (st : Board) (ms ns : List Nat) :
    replay st (ms ++ ns) = replay (replay st ms) ns := by
  induction ms generalizing st with
  | nil => rfl
  | cons m ms ih => simp [replay, ih]

theorem LegalSeq.append {st : Board} {ms ns : List Nat} (h1 : LegalSeq st ms)
    (h2 : LegalSeq (replay st ms) ns) : LegalSeq st (ms ++ ns) := by
  induction ms generalizing st with
  | nil => exact h2
  | cons m ms ih =>
    exact ⟨h1.1, ih h1.2 h2⟩

theorem IsBoard.replay_isBoard (h : IsBoard st) {ms : List Nat}
    (hms : LegalSeq st ms) : IsBoard (replay st ms) := by
  induction ms generalizing st with
  | nil => exact h
  | cons m ms ih => exact ih (h.applyMove_isBoard hms.1) hms.2

/-- The Manhattan heuristic changes by at most one per move, telescoped:
it never exceeds the number of moves plus the final heuristic value. -/
theorem manhattan_le_length_add (h : IsBoard st) {ms : List Nat}
    (hms : LegalSeq st ms) :
    manhattan st ≤ ms.length + manhattan (replay st ms) := by
  induction ms generalizing st with
  | nil => simp [replay]
  | cons m ms ih =>
    have h1 := (manhattan_applyMove_close h hms.1).2
    have h2 := ih (h.applyMove_isBoard hms.1) hms.2
    simp only [replay, List.length_cons]
    omega

theorem manhattan_goal : manhattan GOAL = 0 := by decide

/-- Admissibility: the heuristic never overestimates the length of any
legal solution. -/
theorem manhattan_admissible (h : IsBoard st) {ms : List Nat}
    (hms : LegalSeq st ms) (hgoal : replay st ms = GOAL) :
    manhattan st ≤ ms.length := by
  have h1 := manhattan_le_length_add h hms
  rw [hgoal, manhattan_goal] at h1
  simpa using h1

/-! ## `manhattan = 0` characterises the goal -/

theorem manhattan_eq_zero_iff (h : IsBoard st) :
    manhattan st = 0 ↔ st = GOAL := by
  constructor
  · intro h0
    have hpt : ∀ i, i < 9 → contrib i (st.getD i 0) = 0 := by
      intro i hi
      have := msum_zero_all 0 h0 i (by rw [h.length]; exact hi)
      simpa using this
    have hmatch : ∀ i, i < 9 → st.getD i 0 ≠ 0 → GOAL.getD i 0 = st.getD i 0 := by
      intro i hi hne
      have hc := hpt i hi
      rw [contrib, if_neg hne] at hc
      have hvlt : st.getD i 0 < 9 := h.getD_lt hi
      have hgp : GOAL_POS (st.getD i 0) < 9 := goalPos_lt _ hvlt
      have heq := (mdist_eq_zero_iff i hi _ hgp).mp hc
      have hg := goal_getD_goalPos _ hvlt
      rw [← heq] at hg
      exact hg
    have h8 : st.getD 8 0 = 0 := by
      by_contra h8
      have hm := hmatch 8 (by omega) h8
      have h0 : GOAL.getD 8 0 = 0 := by rfl
      rw [h0] at hm
      exact h8 hm.symm
    apply eq_of_getD h.length (by decide)
    intro n hn
    by_cases hz : st.getD n 0 = 0
    · have hn8 : n = 8 := by
        by_contra hne8
        have hlen8 : (8 : Nat) < st.length := by rw [h.length]; omega
        have hlenn : n < st.length := by rw [h.length]; exact hn
        have e1 : st[n] = 0 := by rw [← getD_eq_getElem hlenn 0]; exact hz
        have e2 : st[8] = 0 := by rw [← getD_eq_getElem hlen8 0]; exact h8
        have h4 := @List.Nodup.getElem_inj_iff _ _ h.nodup n hlenn 8 hlen8
        exact hne8 (h4.mp (by rw [e1, e2]))
      subst hn8
      rw [hz]
      decide
    · rw [hmatch n hn hz]
  · intro he
    rw [he]
    exact manhattan_goal

/-! ## Inversion counting -/

theorem invTail_cons (x : Nat) (rest : List Nat) :
    invTail (x :: rest) = rest.countP (fun y => decide (y < x)) + invTail rest := rfl

theorem crossInv_cons_left (x : Nat) (P Q : List Nat) :
    crossInv (x :: P) Q = Q.countP (fun y => decide (y < x)) + crossInv P Q := by
  simp [crossInv]

theorem crossInv_append_right (P Q R : List Nat) :
    crossInv P (Q ++ R) = crossInv P Q + crossInv P R := by
  induction P with
  | nil => rfl
  | cons x P ih =>
    simp only [crossInv_cons_left, List.countP_append, ih]
    omega

theorem crossInv_perm_right (P : List Nat) {Q Q' : List Nat} (h : Q.Perm Q') :
    crossInv P Q = crossInv P Q' := by
  induction P with
  | nil => rfl
  | cons x P ih => simp only [crossInv_cons_left, ih, h.countP_eq]

theorem crossInv_singleton_right (P : List Nat) (t : Nat) :
    crossInv P [t] = P.countP (fun x => decide (t < x)) := by
  induction P with
  | nil => rfl
  | cons x P ih =>
    rw [crossInv_cons_left, ih, List.countP_cons, List.countP_nil, List.countP_cons]
    omega

theorem invTail_append (P Q : List Nat) :
    invTail (P ++ Q) = invTail P + crossInv P Q + invTail Q := by
  induction P with
  | nil => simp [invTail, crossInv]
  | cons x P ih =>
    simp only [List.cons_append, invTail_cons, List.countP_append, ih,
      crossInv_cons_left]
    omega

theorem countP_lt_add_countP_gt {Y : List Nat} {t : Nat} (hY : ∀ y ∈ Y, y ≠ t) :
    Y.countP (fun y => decide (y < t)) + Y.countP (fun y => decide (t < y))
      = Y.length := by
  induction Y with
  | nil => rfl
  | cons y Y ih =>
    have hy := hY y (by simp)
    have hrest := ih (fun z hz => hY z (by simp [hz]))
    simp only [List.countP_cons, List.length_cons, decide_eq_true_eq]
    by_cases hlt : y < t
    · rw [if_pos hlt, if_neg (by omega)]
      omega
    · rw [if_neg hlt, if_pos (by omega)]
      omega

/-- Moving an element across an even-length block of distinct other elements
does not change the parity of the inversion count. -/
theorem invTail_move_parity {Y : List Nat} {t : Nat} (hY : ∀ y ∈ Y, y ≠ t)
    (hYlen : Y.length % 2 = 0) (X Z : List Nat) :
    invTail (X ++ t :: (Y ++ Z)) % 2 = invTail (X ++ (Y ++ t :: Z)) % 2 := by
  have hperm : (Y ++ t :: Z).Perm (t :: (Y ++ Z)) := List.perm_middle
  rw [invTail_append, invTail_append, crossInv_perm_right X hperm.symm]
  have h1 : invTail (t :: (Y ++ Z)) = Y.countP (fun y => decide (y < t))
      + Z.countP (fun y => decide (y < t))
      + (invTail Y + crossInv Y Z + invTail Z) := by
    rw [invTail_cons, List.countP_append, invTail_append]
  have h2 : invTail (Y ++ t :: Z) = invTail Y
      + (crossInv Y [t] + crossInv Y Z)
      + (Z.countP (fun y => decide (y < t)) + invTail Z) := by
    have e1 : Y ++ t :: Z = Y ++ ([t] ++ Z) := by simp
    rw [e1, invTail_append, crossInv_append_right]
    have e2 : invTail ([t] ++ Z) = Z.countP (fun y => decide (y < t)) + invTail Z := by
      simp [invTail_cons, invTail]
    rw [e2]
  have h3 : crossInv Y [t] = Y.countP (fun x => decide (t < x)) :=
    crossInv_singleton_right Y t
  have h4 := countP_lt_add_countP_gt hY
  rw [h1, h2, h3]
  omega

theorem eq_of_getD_gen {l m : List Nat} (hlen : l.length = m.length)
    (h : ∀ n, n < m.length → l.getD n 0 = m.getD n 0) : l = m := by
  apply List.ext_getElem hlen
  intro n h1 h2
  have h3 := h n h2
  rwa [getD_eq_getElem h1, getD_eq_getElem h2] at h3

theorem swapCells_comm (st : Board) {i j : Nat} (hij : i ≠ j) :
    swapCells st i j = swapCells st j i := by
  unfold swapCells
  exact List.set_comm _ _ _ hij

theorem swapCells_swapCells {st : Board} {i j : Nat} (hij : i ≠ j)
    (hi : i < st.length) (hj : j < st.length) :
    swapCells (swapCells st i j) i j = st := by
  have hlen : (swapCells (swapCells st i j) i j).length = st.length := by
    simp [swapCells]
  have hi' : i < (swapCells st i j).length := by rwa [length_swapCells]
  have hj' : j < (swapCells st i j).length := by rwa [length_swapCells]
  apply eq_of_getD_gen hlen
  intro n hn
  by_cases h1 : n = i
  · subst h1
    rw [getD_swapCells_fst hi' hij, getD_swapCells_snd hj]
  · by_cases h2 : n = j
    · subst h2
      rw [getD_swapCells_snd hj', getD_swapCells_fst hi hij]
    · rw [getD_swapCells_other h1 h2, getD_swapCells_other h1 h2]

/-- Swapping the distinguished cells of a decomposed list. -/
theorem swap_decomp (L M R : List Nat) (a b : Nat) :
    swapCells (L ++ a :: (M ++ b :: R)) L.length (L.length + M.length + 1)
      = L ++ b :: (M ++ a :: R) := by
  have hgi : (L ++ a :: (M ++ b :: R)).getD L.length 0 = a := by
    rw [List.getD_append_right _ _ _ _ (le_refl _), Nat.sub_self, List.getD_cons_zero]
  have hgj : (L ++ a :: (M ++ b :: R)).getD (L.length + M.length + 1) 0 = b := by
    rw [List.getD_append_right _ _ _ _ (by omega)]
    have e : L.length + M.length + 1 - L.length = M.length + 1 := by omega
    rw [e, List.getD_cons_succ,
      List.getD_append_right _ _ _ _ (le_refl _), Nat.sub_self, List.getD_cons_zero]
  unfold swapCells
  rw [hgi, hgj]
  rw [List.set_append, if_neg (by omega), Nat.sub_self, List.set_cons_zero]
  rw [List.set_append, if_neg (by omega)]
  have e1 : L.length + M.length + 1 - L.length = M.length + 1 := by omega
  rw [e1, List.set_cons_succ, List.set_append, if_neg (by omega), Nat.sub_self,
    List.set_cons_zero]

/-- Core parity lemma: swapping the blank (at the smaller index `i`) with a
tile at index `j`, across an even-length middle block, preserves the parity
of `inversions`. -/
theorem inversions_swap_parity {st : Board} (hnd : st.Nodup) {i j : Nat}
    (hij : i < j) (hjlen : j < st.length) (hzero : st.getD i 0 = 0)
    (htne : st.getD j 0 ≠ 0) (hmid : (j - i - 1) % 2 = 0) :
    inversions (swapCells st i j) % 2 = inversions st % 2 := by
  have hilen : i < st.length := by omega
  have hL : (List.take i st).length = i := by
    rw [List.length_take]
    omega
  have hM : ((st.drop (i + 1)).take (j - i - 1)).length = j - i - 1 := by
    rw [List.length_take, List.length_drop]
    omega
  -- positional decomposition of `st`
  have hd1 : st = List.take i st ++ st.getD i 0 ::
      ((st.drop (i + 1)).take (j - i - 1) ++ st.getD j 0 :: st.drop (j + 1)) := by
    conv_lhs => rw [← List.take_append_drop i st]
    rw [List.drop_eq_getElem_cons hilen]
    conv_lhs =>
      rw [← List.take_append_drop (j - i - 1) (st.drop (i + 1)), List.drop_drop]
    have e1 : i + 1 + (j - i - 1) = j := by omega
    rw [e1, List.drop_eq_getElem_cons hjlen]
    rw [getD_eq_getElem hilen, getD_eq_getElem hjlen]
  -- positional decomposition of the swapped board
  have hd2 : swapCells st i j = List.take i st ++ st.getD j 0 ::
      ((st.drop (i + 1)).take (j - i - 1) ++ st.getD i 0 :: st.drop (j + 1)) := by
    have hsd := swap_decomp (List.take i st) ((st.drop (i + 1)).take (j - i - 1))
      (st.drop (j + 1)) (st.getD i 0) (st.getD j 0)
    rw [hL, hM] at hsd
    have e : i + (j - i - 1) + 1 = j := by omega
    rw [e] at hsd
    have hstep : swapCells st i j
        = swapCells (List.take i st ++ st.getD i 0 ::
          ((st.drop (i + 1)).take (j - i - 1) ++ st.getD j 0 :: st.drop (j + 1)))
          i j := by
      rw [← hd1]
    rw [hstep, hsd]
  -- distinctness facts from nodup
  have hnd1 : (st.getD i 0 ::
      ((st.drop (i + 1)).take (j - i - 1) ++ st.getD j 0 :: st.drop (j + 1))).Nodup := by
    rw [hd1] at hnd
    exact hnd.of_append_right
  have hzero_not_mem : (0 : Nat) ∉
      (st.drop (i + 1)).take (j - i - 1) ++ st.getD j 0 :: st.drop (j + 1) := by
    have := (List.nodup_cons.mp hnd1).1
    rwa [hzero] at this
  have hM_ne_zero : ∀ y ∈ (st.drop (i + 1)).take (j - i - 1), y ≠ 0 := by
    intro y hy h0
    subst h0
    exact hzero_not_mem (List.mem_append.mpr (Or.inl hy))
  have hM_ne_t : ∀ y ∈ (st.drop (i + 1)).take (j - i - 1), y ≠ st.getD j 0 := by
    have hnd2 : ((st.drop (i + 1)).take (j - i - 1)
        ++ st.getD j 0 :: st.drop (j + 1)).Nodup := (List.nodup_cons.mp hnd1).2
    intro y hy he
    have hdisj := (List.nodup_append.mp hnd2).2.2
    exact (hdisj hy) (by rw [he]; exact List.mem_cons_self _ _)
  -- compute the filtered sequences
  have hbeq : (st.getD j 0 == 0) = false := by
    cases hb2 : (st.getD j 0 == 0)
    · rfl
    · exact absurd (by simpa using hb2) htne
  have hMfilter : ((st.drop (i + 1)).take (j - i - 1)).filter (fun x => !(x == 0))
      = (st.drop (i + 1)).take (j - i - 1) :=
    List.filter_eq_self.mpr (fun a ha => by simp [hM_ne_zero a ha])
  have hF1 : inversions st = invTail ((List.take i st).filter (fun x => !(x == 0))
      ++ ((st.drop (i + 1)).take (j - i - 1)
        ++ st.getD j 0 :: (st.drop (j + 1)).filter (fun x => !(x == 0)))) := by
    unfold inversions
    conv_lhs => rw [hd1, hzero]
    rw [List.filter_append, List.filter_cons_of_neg (by simp), List.filter_append,
      List.filter_cons_of_pos (by show (!(st.getD j 0 == 0)) = true; rw [hbeq]; rfl),
      hMfilter]
  have hF2 : inversions (swapCells st i j)
      = invTail ((List.take i st).filter (fun x => !(x == 0))
        ++ st.getD j 0 :: ((st.drop (i + 1)).take (j - i - 1)
          ++ (st.drop (j + 1)).filter (fun x => !(x == 0)))) := by
    unfold inversions
    rw [hd2, hzero]
    rw [List.filter_append,
      List.filter_cons_of_pos (by show (!(st.getD j 0 == 0)) = true; rw [hbeq]; rfl),
      List.filter_append, List.filter_cons_of_neg (by simp), hMfilter]
  rw [hF1, hF2]
  exact invTail_move_parity hM_ne_t (by omega) _ _

/-- One adjacency case split: a neighbour is one step left/right/up/down. -/
theorem neighbors_cases : ∀ z, z < 9 → ∀ nb ∈ neighbors z,
    (z < nb ∧ (nb - z - 1) % 2 = 0) ∨ (nb < z ∧ (z - nb - 1) % 2 = 0) := by
  decide

/-- A legal move never changes the parity of the inversion count, hence never
changes solvability. -/
theorem inversions_applyMove_parity (h : IsBoard st) (hl : legalMove st t = true) :
    inversions (applyMove st t) % 2 = inversions st % 2 := by
  have hz := h.blankIdx_lt
  have hk := h.tileIdx_lt hl
  have hkz := h.tileIdx_ne hl
  have hzlen : blankIdx st < st.length := by rw [h.length]; exact hz
  have hklen : List.indexOf t st < st.length := by rw [h.length]; exact hk
  have ht : st.getD (List.indexOf t st) 0 = t := h.getD_tileIdx hl
  have ht0 : t ≠ 0 := h.tile_ne_zero hl
  rcases neighbors_cases _ hz _ (h.tileIdx_mem hl) with ⟨hlt, hmid⟩ | ⟨hlt, hmid⟩
  · exact inversions_swap_parity h.nodup hlt hklen h.getD_blankIdx
      (by rw [ht]; exact ht0) hmid
  · -- blank to the right of the tile: apply the core lemma to the swapped board
    have hu : (swapCells st (blankIdx st) (List.indexOf t st)).Perm st :=
      perm_swapCells hzlen hklen
    have hulen : List.indexOf t st
        < (swapCells st (blankIdx st) (List.indexOf t st)).length := by
      rw [length_swapCells]
      exact hklen
    have hulen2 : blankIdx st
        < (swapCells st (blankIdx st) (List.indexOf t st)).length := by
      rw [length_swapCells]
      exact hzlen
    have hu0 : (swapCells st (blankIdx st) (List.indexOf t st)).getD
        (List.indexOf t st) 0 = 0 := by
      rw [getD_swapCells_snd hklen]
      exact h.getD_blankIdx
    have hut : (swapCells st (blankIdx st) (List.indexOf t st)).getD
        (blankIdx st) 0 = t := by
      rw [getD_swapCells_fst hzlen (Ne.symm hkz)]
      exact ht
    have hmain := inversions_swap_parity (hu.nodup_iff.mpr h.nodup) hlt
      (by rw [length_swapCells]; exact hzlen) hu0 (by rw [hut]; exact ht0) hmid
    have hback : swapCells (swapCells st (blankIdx st) (List.indexOf t st))
        (List.indexOf t st) (blankIdx st) = st := by
      rw [← swapCells_comm _ (Ne.symm hkz)]
      exact swapCells_swapCells (Ne.symm hkz) hzlen hklen
    rw [hback] at hmain
    exact hmain.symm

end Puzzle

namespace Puzzle

/-! ## Solvability under moves and reachability -/

theorem is_solvable_applyMove (h : IsBoard st) (hl : legalMove st t = true) :
    is_solvable_3x3 (applyMove st t) = is_solvable_3x3 st := by
  unfold is_solvable_3x3
  rw [inversions_applyMove_parity h hl]

theorem inversions_goal : inversions GOAL = 0 := by decide

theorem replay_parity (h : IsBoard st) {ms : List Nat} (hms : LegalSeq st ms) :
    inversions (replay st ms) % 2 = inversions st % 2 := by
  induction ms generalizing st with
  | nil => rfl
  | cons m ms ih =>
    have h1 := ih (h.applyMove_isBoard hms.1) hms.2
    simp only [replay] at h1 ⊢
    rw [h1, inversions_applyMove_parity h hms.1]

theorem ReachableFromGoal.isBoard (h : ReachableFromGoal st) : IsBoard st := by
  obtain ⟨ms, hms, hrep⟩ := h
  rw [← hrep]
  exact isBoard_goal.replay_isBoard hms

theorem ReachableFromGoal.even (h : ReachableFromGoal st) :
    inversions st % 2 = 0 := by
  obtain ⟨ms, hms, hrep⟩ := h
  rw [← hrep, replay_parity isBoard_goal hms, inversions_goal]

theorem is_solvable_iff_even {st : Board} :
    is_solvable_3x3 st = true ↔ inversions st % 2 = 0 := by
  unfold is_solvable_3x3
  exact beq_iff_eq

/-! ## Basic facts about the A* embedding -/

theorem astarLoop_mono {maxExp : Nat} : ∀ {fuel : Nat} {heap : List Entry}
    {gc : GMap} {par : PMap} {exps : Nat} {r : Option (List Nat)},
    astarLoop maxExp fuel heap gc par exps = some r →
    astarLoop maxExp (fuel + 1) heap gc par exps = some r := by
  intro fuel
  induction fuel with
  | zero => intro heap gc par exps r h; exact absurd h (by simp [astarLoop])
  | succ n ih =>
    intro heap gc par exps r h
    match heap with
    | [] => exact h
    | (f, g, s) :: rest =>
      rw [astarLoop] at h ⊢
      by_cases h1 : g ≠ getDflt gc s
      · rw [if_pos h1] at h ⊢
        exact ih h
      · rw [if_neg h1] at h ⊢
        by_cases h2 : s = GOAL
        · rwa [if_pos h2] at h ⊢
        · rw [if_neg h2] at h ⊢
          by_cases h3 : exps + 1 > maxExp
          · rwa [if_pos h3] at h ⊢
          · rw [if_neg h3] at h ⊢
            exact ih h

theorem astarLoop_mono_le {maxExp : Nat} {fuel fuel' : Nat} (hle : fuel ≤ fuel')
    {heap : List Entry} {gc : GMap} {par : PMap} {exps : Nat}
    {r : Option (List Nat)}
    (h : astarLoop maxExp fuel heap gc par exps = some r) :
    astarLoop maxExp fuel' heap gc par exps = some r := by
  induction fuel' with
  | zero =>
    have : fuel = 0 := by omega
    subst this
    exact h
  | succ n ih =>
    by_cases he : fuel = n + 1
    · subst he
      exact h
    · exact astarLoop_mono (ih (by omega))

/-- The loop's result is a function of its inputs: `astarReturns` relates a
start and budget to at most one result. -/
theorem astarReturns_unique {start : Board} {maxExp : Nat}
    {r r' : Option (List Nat)} (h : astarReturns start maxExp r)
    (h' : astarReturns start maxExp r') : r = r' := by
  obtain ⟨fuel, hf⟩ := h
  obtain ⟨fuel', hf'⟩ := h'
  unfold astar_solve at hf hf'
  by_cases hg : start = GOAL
  · rw [if_pos hg] at hf hf'
    have e1 : some r = some r' := by rw [← hf, ← hf']
    simpa using e1
  · rw [if_neg hg] at hf hf'
    by_cases hle : fuel ≤ fuel'
    · have := astarLoop_mono_le hle hf
      rw [this] at hf'
      simpa using hf'
    · have := astarLoop_mono_le (by omega : fuel' ≤ fuel) hf'
      rw [this] at hf
      have h2 : r' = r := by simpa using hf
      exact h2.symm

/-- `astar_solve(GOAL, b)` returns `[]` immediately, for any budget. -/
theorem astar_solve_goal (maxExp fuel : Nat) :
    astar_solve GOAL maxExp fuel = some (some []) := by
  simp [astar_solve]

end Puzzle

namespace Puzzle

/-! ## Sorting facts for the parser -/

theorem insertSorted_perm (x : Int) (l : List Int) :
    (insertSorted x l).Perm (x :: l) := by
  induction l with
  | nil => exact List.Perm.refl _
  | cons y ys ih =>
    unfold insertSorted
    by_cases hxy : x ≤ y
    · rw [if_pos hxy]
    · rw [if_neg hxy]
      exact (List.Perm.cons y ih).trans (List.Perm.swap x y ys)

theorem pySorted_perm (l : List Int) : (pySorted l).Perm l := by
  induction l with
  | nil => exact List.Perm.refl _
  | cons x xs ih =>
    unfold pySorted
    exact (insertSorted_perm x (pySorted xs)).trans (List.Perm.cons x ih)

theorem insertSorted_sorted (x : Int) {l : List Int}
    (h : l.Sorted (fun a b => a ≤ b)) :
    (insertSorted x l).Sorted (fun a b => a ≤ b) := by
  induction l with
  | nil => simp [insertSorted]
  | cons y ys ih =>
    rw [List.sorted_cons] at h
    unfold insertSorted
    by_cases hxy : x ≤ y
    · rw [if_pos hxy, List.sorted_cons]
      refine ⟨?_, List.sorted_cons.mpr h⟩
      intro b hb
      rcases List.mem_cons.mp hb with hb | hb
      · omega
      · have := h.1 b hb
        omega
    · rw [if_neg hxy, List.sorted_cons]
      refine ⟨?_, ih h.2⟩
      intro b hb
      have hb2 : b ∈ x :: ys := (insertSorted_perm x ys).mem_iff.mp hb
      rcases List.mem_cons.mp hb2 with hb2 | hb2
      · omega
      · exact h.1 b hb2

theorem pySorted_sorted (l : List Int) :
    (pySorted l).Sorted (fun a b => a ≤ b) := by
  induction l with
  | nil => simp [pySorted]
  | cons x xs ih => exact insertSorted_sorted x ih

theorem pySorted_eq_iff (l : List Int) :
    pySorted l = intRange9 ↔ l.Perm intRange9 := by
  constructor
  · intro h
    have h1 : l.Perm (pySorted l) := (pySorted_perm l).symm
    rw [h] at h1
    exact h1
  · intro h
    have hperm : (pySorted l).Perm intRange9 := (pySorted_perm l).trans h
    have hs1 : (pySorted l).Sorted (fun a b => a ≤ b) := pySorted_sorted l
    have hs2 : intRange9.Sorted (fun a b => a ≤ b) := by
      unfold intRange9
      decide
    exact List.eq_of_perm_of_sorted hperm hs1 hs2

/-! ## Character and splitting facts for the parser -/

theorem digit_char_facts (c : Char) (h : isDigitCh c = true) :
    isSpace c = false ∧ sepToSpace c = c := by
  unfold isDigitCh at h
  rw [Bool.and_eq_true, decide_eq_true_eq, decide_eq_true_eq] at h
  obtain ⟨h1, h2⟩ := h
  constructor
  · by_contra hsp
    have hsp' : isSpace c = true := by
      cases hx : isSpace c
      · exact absurd hx hsp
      · rfl
    unfold isSpace at hsp'
    rw [Bool.or_eq_true, Bool.or_eq_true, Bool.or_eq_true, Bool.or_eq_true,
      Bool.or_eq_true] at hsp'
    rcases hsp' with ((((hc | hc) | hc) | hc) | hc) | hc <;>
      · rw [decide_eq_true_eq] at hc
        subst hc
        revert h1 h2
        decide
  · unfold sepToSpace
    rw [if_neg]
    intro hor
    rw [Bool.or_eq_true, decide_eq_true_eq, decide_eq_true_eq] at hor
    rcases hor with hc | hc <;>
      · subst hc
        revert h1 h2
        decide

theorem map_sepToSpace_of_digits {t : List Char}
    (h : ∀ c ∈ t, isDigitCh c = true) : t.map sepToSpace = t := by
  induction t with
  | nil => rfl
  | cons c rest ih =>
    rw [List.map_cons, (digit_char_facts c (h c (List.mem_cons_self c rest))).2,
      ih (fun d hd => h d (List.mem_cons_of_mem c hd))]

theorem splitWsAux_nonspace {s : List Char} (h : ∀ c ∈ s, isSpace c = false) :
    ∀ acc : List Char, acc ≠ [] ∨ s ≠ [] →
      splitWsAux s acc = [acc.reverse ++ s] := by
  induction s with
  | nil =>
    intro acc hne
    rcases hne with hne | hne
    · match acc with
      | a :: as => simp [splitWsAux]
    · exact absurd rfl hne
  | cons c rest ih =>
    intro acc _
    have hc : isSpace c = false := h c (List.mem_cons_self c rest)
    unfold splitWsAux
    rw [hc]
    show splitWsAux rest (c :: acc) = [acc.reverse ++ c :: rest]
    rw [ih (fun d hd => h d (List.mem_cons_of_mem c hd)) (c :: acc)
      (Or.inl (by simp))]
    simp

theorem splitWs_nonspace {s : List Char} (h : ∀ c ∈ s, isSpace c = false)
    (hne : s ≠ []) : splitWs s = [s] := by
  unfold splitWs
  rw [splitWsAux_nonspace h [] (Or.inr hne)]
  simp

/-! ## The parser characterisation -/

theorem parse_state_some_iff (text : List Char) :
    (∃ vals, parse_state text = some vals) ↔ (FormA text ∨ FormB text) := by
  by_cases h0 : pyStrip text = []
  · have hps : parse_state text = none := by
      unfold parse_state
      rw [if_pos h0]
    constructor
    · rintro ⟨v, hv⟩
      rw [hps] at hv
      cases hv
    · rintro (⟨_, hA2, _⟩ | ⟨hB1, _⟩)
      · rw [h0] at hA2
        simp at hA2
      · unfold tokensOf at hB1
        rw [h0] at hB1
        simp [splitWs, splitWsAux] at hB1
  · by_cases h1 : ((pyStrip text).all isDigitCh
        && (pyStrip text).length = 9) = true
    · -- all-digit branch
      have h1c := h1
      rw [Bool.and_eq_true] at h1c
      obtain ⟨hall, hlen⟩ := h1c
      rw [decide_eq_true_eq] at hlen
      have hps : parse_state text
          = if pySorted (digitsOf (pyStrip text)) = intRange9
            then some (digitsOf (pyStrip text)) else none := by
        unfold parse_state
        rw [if_neg h0, if_pos h1]
        rfl
      have hnotB : ¬ FormB text := by
        rintro ⟨hB1, _⟩
        unfold tokensOf at hB1
        rw [map_sepToSpace_of_digits (List.all_eq_true.mp hall)] at hB1
        rw [splitWs_nonspace
          (fun c hc => (digit_char_facts c (List.all_eq_true.mp hall c hc)).1)
          h0] at hB1
        simp at hB1
      by_cases hsort : pySorted (digitsOf (pyStrip text)) = intRange9
      · rw [if_pos hsort] at hps
        constructor
        · intro _
          exact Or.inl ⟨hall, hlen, (pySorted_eq_iff _).mp hsort⟩
        · intro _
          exact ⟨_, hps⟩
      · rw [if_neg hsort] at hps
        constructor
        · rintro ⟨v, hv⟩
          rw [hps] at hv
          cases hv
        · rintro (⟨_, _, hA3⟩ | hB)
          · exact absurd ((pySorted_eq_iff _).mpr hA3) hsort
          · exact absurd hB hnotB
    · -- token branch
      have hnotA : ¬ FormA text := by
        rintro ⟨hA1, hA2, _⟩
        apply h1
        rw [Bool.and_eq_true]
        exact ⟨hA1, by rw [decide_eq_true_eq]; exact hA2⟩
      by_cases h2 : (splitWs ((pyStrip text).map sepToSpace)).length = 9
      · rcases h3 : allSome ((splitWs ((pyStrip text).map sepToSpace)).map pyInt)
          with _ | vals
        · have hps : parse_state text = none := by
            unfold parse_state
            rw [if_neg h0, if_neg h1, if_pos h2, h3]
          constructor
          · rintro ⟨v, hv⟩
            rw [hps] at hv
            cases hv
          · rintro (hA | ⟨_, vals, hsome, _⟩)
            · exact absurd hA hnotA
            · unfold tokensOf at hsome
              rw [h3] at hsome
              cases hsome
        · have hps : parse_state text
              = if pySorted vals = intRange9 then some vals else none := by
            unfold parse_state
            rw [if_neg h0, if_neg h1, if_pos h2, h3]
          by_cases h4 : pySorted vals = intRange9
          · rw [if_pos h4] at hps
            constructor
            · intro _
              refine Or.inr ⟨h2, vals, ?_, (pySorted_eq_iff _).mp h4⟩
              unfold tokensOf
              exact h3
            · intro _
              exact ⟨vals, hps⟩
          · rw [if_neg h4] at hps
            constructor
            · rintro ⟨v, hv⟩
              rw [hps] at hv
              cases hv
            · rintro (hA | ⟨_, vals2, hsome2, hperm2⟩)
              · exact absurd hA hnotA
              · unfold tokensOf at hsome2
                rw [h3] at hsome2
                have h5 : vals2 = vals := (Option.some.inj hsome2).symm
                subst h5
                exact absurd ((pySorted_eq_iff _).mpr hperm2) h4
      · have hps : parse_state text = none := by
          unfold parse_state
          rw [if_neg h0, if_neg h1, if_neg h2]
        constructor
        · rintro ⟨v, hv⟩
          rw [hps] at hv
          cases hv
        · rintro (hA | ⟨hB1, _⟩)
          · exact absurd hA hnotA
          · unfold tokensOf at hB1
            exact absurd hB1 h2

end Puzzle

namespace Puzzle

/-! ## Association-list facts -/

theorem lookupB_setB_self {α : Type} (m : List (Board × α)) (k : Board) (v : α) :
    lookupB (setB m k v) k = some v := by
  induction m with
  | nil => simp [setB, lookupB]
  | cons kv rest ih =>
    obtain ⟨k1, v1⟩ := kv
    unfold setB
    by_cases h : k1 = k
    · rw [if_pos h]
      simp [lookupB]
    · rw [if_neg h]
      unfold lookupB
      rw [if_neg h]
      exact ih

theorem lookupB_setB_ne {α : Type} (m : List (Board × α)) {k k' : Board}
    (h : k' ≠ k) (v : α) : lookupB (setB m k v) k' = lookupB m k' := by
  induction m with
  | nil => simp [setB, lookupB, Ne.symm h]
  | cons kv rest ih =>
    obtain ⟨k1, v1⟩ := kv
    unfold setB
    by_cases h1 : k1 = k
    · rw [if_pos h1]
      unfold lookupB
      rw [if_neg (Ne.symm h), if_neg (by rw [h1]; exact Ne.symm h)]
    · rw [if_neg h1]
      unfold lookupB
      by_cases h2 : k1 = k'
      · rw [if_pos h2, if_pos h2]
      · rw [if_neg h2, if_neg h2]
        exact ih

/-! ## The solver's map invariant (soundness of the parent links) -/

theorem MapsInv.initial {start : Board} (h : IsBoard start) :
    MapsInv start [(start, 0)] [] := by
  constructor
  · simp [lookupB]
  · intro s g hs
    unfold lookupB at hs
    by_cases he : start = s
    · rw [← he]; exact h
    · rw [if_neg he] at hs; cases hs
  · intro s g hs
    unfold lookupB at hs
    by_cases he : start = s
    · rw [if_pos he] at hs
      have : (0 : Nat) = g := by simpa using hs
      unfold BIG
      omega
    · rw [if_neg he] at hs; cases hs
  · intro s g hs hne
    unfold lookupB at hs
    by_cases he : start = s
    · exact absurd he.symm hne
    · rw [if_neg he] at hs; cases hs
  · intro s p t hs
    cases hs

theorem getDflt_eq_of_lookup {gc : GMap} {key : Board} {v : Nat}
    (h : lookupB gc key = some v) : getDflt gc key = v := by
  unfold getDflt
  rw [h]

theorem getDflt_eq_BIG {gc : GMap} {key : Board}
    (h : lookupB gc key = none) : getDflt gc key = BIG := by
  unfold getDflt
  rw [h]

theorem getDflt_le_BIG {gc : GMap} (hval : ∀ s g, lookupB gc s = some g → g < BIG)
    (key : Board) : getDflt gc key ≤ BIG := by
  unfold getDflt
  rcases hk : lookupB gc key with _ | v
  · exact le_refl _
  · exact le_of_lt (hval key v hk)

/-- With a `g` at the cap, the relaxation loop performs no updates. -/
theorem relaxAll_noop {s : Board} {z : Nat} {gc : GMap} {par : PMap}
    (hval : ∀ s g, lookupB gc s = some g → g < BIG) :
    ∀ (nbs : List Nat) (heap : List Entry),
      relaxAll s BIG z nbs heap gc par = (heap, gc, par) := by
  intro nbs
  induction nbs with
  | nil => intro heap; rfl
  | cons nb rest ih =>
    intro heap
    unfold relaxAll
    rw [if_neg]
    · exact ih heap
    · have := getDflt_le_BIG hval (swapCells s z nb)
      omega

/-- One expansion preserves the map invariant. -/
theorem relaxAll_maps_inv {start s : Board} (hsB : IsBoard s) {g : Nat} :
    ∀ (nbs : List Nat) (gc : GMap) (par : PMap) (heap : List Entry),
      MapsInv start gc par →
      lookupB gc s = some g →
      (∀ nb ∈ nbs, nb ∈ neighbors (blankIdx s)) →
      MapsInv start (relaxAll s g (blankIdx s) nbs heap gc par).2.1
        (relaxAll s g (blankIdx s) nbs heap gc par).2.2 := by
  intro nbs
  induction nbs with
  | nil =>
    intro gc par heap inv _ _
    exact inv
  | cons nb rest ih =>
    intro gc par heap inv hg hnbs
    have hnb : nb ∈ neighbors (blankIdx s) := hnbs nb (List.mem_cons_self nb rest)
    have hrest : ∀ x ∈ rest, x ∈ neighbors (blankIdx s) :=
      fun x hx => hnbs x (List.mem_cons_of_mem nb hx)
    have hnb9 : nb < 9 := (neighbors_range _ hsB.blankIdx_lt _ hnb).1
    have hnbz : nb ≠ blankIdx s := (neighbors_range _ hsB.blankIdx_lt _ hnb).2
    unfold relaxAll
    by_cases hupd : g + 1 < getDflt gc (swapCells s (blankIdx s) nb)
    · rw [if_pos hupd]
      have hlen_nb : nb < s.length := by rw [hsB.length]; exact hnb9
      have hlen_z : blankIdx s < s.length := by
        rw [hsB.length]; exact hsB.blankIdx_lt
      have hnewB : IsBoard (swapCells s (blankIdx s) nb) :=
        hsB.swapCells hsB.blankIdx_lt hnb9
      have hsz : s.getD nb 0 ≠ 0 := by
        intro h0
        have h1 := hsB.indexOf_eq_of_getD hnb9 h0
        exact hnbz (by rw [← h1]; rfl)
      have hnew_ne_s : swapCells s (blankIdx s) nb ≠ s := by
        intro he
        have h1 : (swapCells s (blankIdx s) nb).getD (blankIdx s) 0
            = s.getD nb 0 := getD_swapCells_fst hlen_z (Ne.symm hnbz)
        rw [he, hsB.getD_blankIdx] at h1
        exact hsz h1.symm
      have hnew_ne_start : swapCells s (blankIdx s) nb ≠ start := by
        intro he
        rw [he, getDflt_eq_of_lookup inv.start_mem] at hupd
        omega
      have hlegal : legalMove s (s.getD nb 0) = true := by
        rw [legalMove_iff, hsB.indexOf_eq_of_getD hnb9 rfl]
        exact hnb
      have happly : applyMove s (s.getD nb 0) = swapCells s (blankIdx s) nb := by
        unfold applyMove
        rw [hsB.indexOf_eq_of_getD hnb9 rfl]
      have inv' : MapsInv start
          (setB gc (swapCells s (blankIdx s) nb) (g + 1))
          (setB par (swapCells s (blankIdx s) nb) (s, s.getD nb 0)) := by
        constructor
        · rw [lookupB_setB_ne _ (Ne.symm hnew_ne_start)]
          exact inv.start_mem
        · intro s2 g2 hs2
          by_cases he : s2 = swapCells s (blankIdx s) nb
          · rw [he]
            exact hnewB
          · rw [lookupB_setB_ne _ he] at hs2
            exact inv.board s2 g2 hs2
        · intro s2 g2 hs2
          by_cases he : s2 = swapCells s (blankIdx s) nb
          · rw [he, lookupB_setB_self] at hs2
            have hge : g + 1 = g2 := by simpa using hs2
            have := getDflt_le_BIG inv.gval_lt (swapCells s (blankIdx s) nb)
            omega
          · rw [lookupB_setB_ne _ he] at hs2
            exact inv.gval_lt s2 g2 hs2
        · intro s2 g2 hs2 hne
          by_cases he : s2 = swapCells s (blankIdx s) nb
          · refine ⟨(s, s.getD nb 0), ?_⟩
            rw [he, lookupB_setB_self]
          · rw [lookupB_setB_ne _ he] at hs2
            obtain ⟨pt, hpt⟩ := inv.par_dom s2 g2 hs2 hne
            exact ⟨pt, by rw [lookupB_setB_ne _ he]; exact hpt⟩
        · intro s2 p2 t2 hs2
          by_cases he : s2 = swapCells s (blankIdx s) nb
          · rw [he, lookupB_setB_self] at hs2
            have hpair : (s, s.getD nb 0) = (p2, t2) := by
              injection hs2
            cases hpair
            refine ⟨g + 1, g, ?_, ?_, by omega, hlegal, by rw [happly, ← he], ?_⟩
            · rw [he, lookupB_setB_self]
            · rw [lookupB_setB_ne _ hnew_ne_s.symm]
              exact hg
            · rw [he]
              exact hnew_ne_start
          · rw [lookupB_setB_ne _ he] at hs2
            obtain ⟨gs, gp, hgs, hgp, hlt, hleg, happ, hnes⟩ :=
              inv.par_fact s2 p2 t2 hs2
            refine ⟨gs, ?gpv, ?_, ?_, ?_, hleg, happ, hnes⟩
            case gpv =>
              exact if p2 = swapCells s (blankIdx s) nb then g + 1 else gp
            · rw [lookupB_setB_ne _ he]
              exact hgs
            · by_cases hpe : p2 = swapCells s (blankIdx s) nb
              · rw [if_pos hpe, hpe, lookupB_setB_self]
              · rw [if_neg hpe, lookupB_setB_ne _ hpe]
                exact hgp
            · by_cases hpe : p2 = swapCells s (blankIdx s) nb
              · rw [if_pos hpe]
                rw [hpe] at hgp
                rw [getDflt_eq_of_lookup hgp] at hupd
                omega
              · rw [if_neg hpe]
                exact hlt
      have hg' : lookupB (setB gc (swapCells s (blankIdx s) nb) (g + 1)) s
          = some g := by
        rw [lookupB_setB_ne _ hnew_ne_s.symm]
        exact hg
      exact ih _ _ _ inv' hg' hrest
    · rw [if_neg hupd]
      exact ih _ _ _ inv hg hrest

end Puzzle

namespace Puzzle

/-! ## Correctness of the path reconstruction -/

theorem walkParents_spec {start : Board} {gc : GMap} {par : PMap}
    (inv : MapsInv start gc par) :
    ∀ (fuel : Nat) (s : Board) (gs : Nat), lookupB gc s = some gs → gs ≤ fuel →
      LegalSeq start (walkParents par s fuel).reverse ∧
        replay start (walkParents par s fuel).reverse = s := by
  intro fuel
  induction fuel with
  | zero =>
    intro s gs hs hle
    have hs_start : s = start := by
      by_contra hne
      obtain ⟨⟨p, t⟩, hpt⟩ := inv.par_dom s gs hs hne
      obtain ⟨gs2, gp, hgs2, _, hlt, _, _, _⟩ := inv.par_fact s p t hpt
      rw [hs] at hgs2
      have : gs = gs2 := by simpa using hgs2
      omega
    subst hs_start
    exact ⟨trivial, rfl⟩
  | succ n ih =>
    intro s gs hs hle
    rcases hpar : lookupB par s with _ | pt
    · have hs_start : s = start := by
        by_contra hne
        obtain ⟨pt2, hpt2⟩ := inv.par_dom s gs hs hne
        rw [hpar] at hpt2
        cases hpt2
      subst hs_start
      unfold walkParents
      rw [hpar]
      exact ⟨trivial, rfl⟩
    · obtain ⟨p, t⟩ := pt
      obtain ⟨gs2, gp, hgs2, hgp, hlt, hleg, happ, _⟩ := inv.par_fact s p t hpar
      have hgs_eq : gs = gs2 := by
        rw [hs] at hgs2
        simpa using hgs2
      subst hgs_eq
      have hle2 : gp ≤ n := by omega
      obtain ⟨ihleg, ihrep⟩ := ih p gp hgp hle2
      unfold walkParents
      rw [hpar]
      show LegalSeq start ((t :: walkParents par p n).reverse) ∧
        replay start ((t :: walkParents par p n).reverse) = s
      rw [List.reverse_cons]
      constructor
      · refine LegalSeq.append ihleg ?_
        rw [ihrep]
        exact ⟨hleg, trivial⟩
      · rw [replay_append, ihrep]
        show applyMove p t = s
        exact happ

/-- Whatever move list the loop returns replays from the start board to the
goal, each move being legal — unless it is empty. -/
theorem astarLoop_replay {start : Board} {maxExp : Nat} :
    ∀ (fuel : Nat) (heap : List Entry) (gc : GMap) (par : PMap) (exps : Nat)
      (moves : List Nat),
      MapsInv start gc par →
      astarLoop maxExp fuel heap gc par exps = some (some moves) →
      moves = [] ∨ (LegalSeq start moves ∧ replay start moves = GOAL) := by
  intro fuel
  induction fuel with
  | zero =>
    intro heap gc par exps moves _ h
    exact absurd h (by simp [astarLoop])
  | succ n ih =>
    intro heap gc par exps moves inv h
    match heap with
    | [] =>
      rw [astarLoop] at h
      have : (none : Option (List Nat)) = some moves := by simpa using h
      cases this
    | (f, g, s) :: rest =>
      rw [astarLoop] at h
      by_cases h1 : g ≠ getDflt gc s
      · rw [if_pos h1] at h
        exact ih rest gc par exps moves inv h
      · rw [if_neg h1] at h
        push_neg at h1
        by_cases h2 : s = GOAL
        · rw [if_pos h2] at h
          have hmoves : moves = (walkParents par s g).reverse := by
            have h3 : some (some ((walkParents par s g).reverse))
                = some (some moves) := h
            simpa using h3.symm
          rcases hlk : lookupB gc s with _ | gs
          · -- goal not recorded: no parent either, so the walk is empty
            left
            rcases hfuel : g with _ | g'
            · rw [hmoves, hfuel]
              rfl
            · rcases hpar : lookupB par s with _ | pt
              · rw [hmoves, hfuel]
                unfold walkParents
                rw [hpar]
                rfl
              · obtain ⟨p, t⟩ := pt
                obtain ⟨gs2, _, hgs2, _, _, _, _, _⟩ := inv.par_fact s p t hpar
                rw [hlk] at hgs2
                cases hgs2
          · right
            have hgg : g = gs := by
              rw [h1, getDflt_eq_of_lookup hlk]
            obtain ⟨hleg, hrep⟩ := walkParents_spec inv g s gs hlk (by omega)
            rw [hmoves]
            exact ⟨hleg, by rw [hrep]; exact h2⟩
        · rw [if_neg h2] at h
          by_cases h3 : exps + 1 > maxExp
          · rw [if_pos h3] at h
            have : (none : Option (List Nat)) = some moves := by simpa using h
            cases this
          · rw [if_neg h3] at h
            simp only [] at h
            rcases hlk : lookupB gc s with _ | gs
            · -- unknown state: `g` is the cap and the expansion is a no-op
              have hgB : g = BIG := by rw [h1, getDflt_eq_BIG hlk]
              rw [hgB, relaxAll_noop inv.gval_lt _ _] at h
              exact ih rest gc par (exps + 1) moves inv h
            · have hgg : g = gs := by rw [h1, getDflt_eq_of_lookup hlk]
              subst hgg
              have hsB : IsBoard s := inv.board s g hlk
              have inv' := relaxAll_maps_inv hsB (neighbors (blankIdx s)) gc par
                rest inv hlk (fun x hx => hx)
              exact ih _ _ _ (exps + 1) moves inv' h

end Puzzle

namespace Puzzle

/-! ## Structural lemmas about the heap and the cost map -/

theorem length_insertE (e : Entry) (l : List Entry) :
    (insertE e l).length = l.length + 1 := by
  induction l with
  | nil => rfl
  | cons x xs ih =>
    unfold insertE
    by_cases h : entryLe x e
    · rw [if_pos h]
      simp [ih]
    · rw [if_neg h]
      simp

theorem mem_insertE {a e : Entry} {l : List Entry} :
    a ∈ insertE e l ↔ a = e ∨ a ∈ l := by
  induction l with
  | nil => simp [insertE]
  | cons x xs ih =>
    unfold insertE
    by_cases h : entryLe x e
    · rw [if_pos h]
      simp only [List.mem_cons, ih]
      tauto
    · rw [if_neg h]
      simp only [List.mem_cons]

theorem lookupB_eq_none_iff {α : Type} {m : List (Board × α)} {k : Board} :
    lookupB m k = none ↔ k ∉ m.map Prod.fst := by
  induction m with
  | nil => simp [lookupB]
  | cons kv rest ih =>
    obtain ⟨k1, v1⟩ := kv
    unfold lookupB
    by_cases h : k1 = k
    · rw [if_pos h]
      simp [h]
    · rw [if_neg h]
      rw [ih]
      simp only [List.map_cons, List.mem_cons]
      constructor
      · intro h1 h2
        rcases h2 with h2 | h2
        · exact h h2.symm
        · exact h1 h2
      · intro h1 h2
        exact h1 (Or.inr h2)

theorem setB_of_mem {α : Type} {m : List (Board × α)} {k : Board} {w : α}
    (h : lookupB m k = some w) (v : α) :
    (setB m k v).map Prod.fst = m.map Prod.fst ∧
      (setB m k v).length = m.length := by
  induction m with
  | nil => cases h
  | cons kv rest ih =>
    obtain ⟨k1, v1⟩ := kv
    unfold lookupB at h
    unfold setB
    by_cases h1 : k1 = k
    · rw [if_pos h1]
      simp [h1]
    · rw [if_neg h1]
      rw [if_neg h1] at h
      have := ih h
      simp only [List.map_cons, List.length_cons]
      exact ⟨by rw [this.1], by rw [this.2]⟩

theorem setB_of_new {α : Type} {m : List (Board × α)} {k : Board}
    (h : lookupB m k = none) (v : α) :
    (setB m k v).map Prod.fst = m.map Prod.fst ++ [k] ∧
      (setB m k v).length = m.length + 1 := by
  induction m with
  | nil => simp [setB]
  | cons kv rest ih =>
    obtain ⟨k1, v1⟩ := kv
    unfold lookupB at h
    unfold setB
    by_cases h1 : k1 = k
    · rw [if_pos h1] at h
      cases h
    · rw [if_neg h1] at h
      rw [if_neg h1]
      have := ih h
      simp only [List.map_cons, List.length_cons, List.cons_append]
      exact ⟨by rw [this.1], by rw [this.2]⟩

theorem gcPot_setB_of_mem {m : GMap} {k : Board} {w : Nat}
    (h : lookupB m k = some w) (v : Nat) :
    gcPot (setB m k v) + w = gcPot m + v := by
  induction m with
  | nil => cases h
  | cons kv rest ih =>
    obtain ⟨k1, v1⟩ := kv
    unfold lookupB at h
    unfold setB
    by_cases h1 : k1 = k
    · rw [if_pos h1] at h
      rw [if_pos h1]
      have hv : v1 = w := by simpa using h
      subst hv
      unfold gcPot
      simp only [List.map_cons, List.sum_cons]
      omega
    · rw [if_neg h1] at h
      rw [if_neg h1]
      have := ih h
      unfold gcPot at this ⊢
      simp only [List.map_cons, List.sum_cons]
      omega

theorem gcPot_setB_of_new {m : GMap} {k : Board}
    (h : lookupB m k = none) (v : Nat) :
    gcPot (setB m k v) = gcPot m + v := by
  induction m with
  | nil => simp [setB, gcPot]
  | cons kv rest ih =>
    obtain ⟨k1, v1⟩ := kv
    unfold lookupB at h
    unfold setB
    by_cases h1 : k1 = k
    · rw [if_pos h1] at h
      cases h
    · rw [if_neg h1] at h
      rw [if_neg h1]
      have := ih h
      unfold gcPot at this ⊢
      simp only [List.map_cons, List.sum_cons]
      omega

/-! ## The key-count bound -/

/-- Any duplicate-free list of well-formed keys has at most `9 ^ 9`
entries. -/
theorem keysValid_length_le {gc : GMap} (h : KeysValid gc) :
    gc.length ≤ NBOARDS := by
  obtain ⟨hnd, hval⟩ := h
  have hinj : ∀ x ∈ gc.map Prod.fst, ∀ y ∈ gc.map Prod.fst,
      (fun (k : Board) (i : Fin 9) =>
        (⟨k.getD i.val 0 % 9, Nat.mod_lt _ (by omega)⟩ : Fin 9)) x =
      (fun (k : Board) (i : Fin 9) =>
        (⟨k.getD i.val 0 % 9, Nat.mod_lt _ (by omega)⟩ : Fin 9)) y → x = y := by
    intro x hx y hy hf
    obtain ⟨kvx, hkvx, hkx⟩ := List.mem_map.mp hx
    obtain ⟨kvy, hkvy, hky⟩ := List.mem_map.mp hy
    have hxv := hval kvx hkvx
    have hyv := hval kvy hkvy
    rw [hkx] at hxv
    rw [hky] at hyv
    obtain ⟨hx1, hx2⟩ := hxv
    obtain ⟨hy1, hy2⟩ := hyv
    apply eq_of_getD hx1 hy1
    intro n hn
    have hfn := congrFun hf ⟨n, hn⟩
    have he : x.getD n 0 % 9 = y.getD n 0 % 9 := by
      simpa using hfn
    have hxlt : x.getD n 0 < 9 := by
      have hlen : n < x.length := by rw [hx1]; exact hn
      rw [getD_eq_getElem hlen]
      exact hx2 _ (List.getElem_mem hlen)
    have hylt : y.getD n 0 < 9 := by
      have hlen : n < y.length := by rw [hy1]; exact hn
      rw [getD_eq_getElem hlen]
      exact hy2 _ (List.getElem_mem hlen)
    rw [Nat.mod_eq_of_lt hxlt, Nat.mod_eq_of_lt hylt] at he
    exact he
  have hnd2 := List.Nodup.map_on hinj hnd
  have hle := hnd2.length_le_card
  rw [Fintype.card_fun, Fintype.card_fin, List.length_map, List.length_map] at hle
  unfold NBOARDS
  exact hle

end Puzzle

namespace Puzzle

/-- Bundled facts about moving the tile next to the blank at cell `nb`. -/
theorem swap_move_facts {s : Board} (hsB : IsBoard s) {nb : Nat}
    (hnb : nb ∈ neighbors (blankIdx s)) :
    legalMove s (s.getD nb 0) = true ∧
      applyMove s (s.getD nb 0) = swapCells s (blankIdx s) nb ∧
      IsBoard (swapCells s (blankIdx s) nb) := by
  have hnb9 : nb < 9 := (neighbors_range _ hsB.blankIdx_lt _ hnb).1
  refine ⟨?_, ?_, hsB.swapCells hsB.blankIdx_lt hnb9⟩
  · rw [legalMove_iff, hsB.indexOf_eq_of_getD hnb9 rfl]
    exact hnb
  · unfold applyMove
    rw [hsB.indexOf_eq_of_getD hnb9 rfl]

theorem mem_setB {α : Type} {m : List (Board × α)} {k : Board} {v : α} :
    ∀ kv ∈ setB m k v, kv.1 = k ∨ kv ∈ m := by
  induction m with
  | nil =>
    intro kv hkv
    unfold setB at hkv
    rw [List.mem_singleton] at hkv
    subst hkv
    exact Or.inl rfl
  | cons kw rest ih =>
    obtain ⟨k1, v1⟩ := kw
    intro kv hkv
    unfold setB at hkv
    by_cases h1 : k1 = k
    · rw [if_pos h1] at hkv
      rcases List.mem_cons.mp hkv with h2 | h2
      · subst h2
        exact Or.inl rfl
      · exact Or.inr (List.mem_cons_of_mem _ h2)
    · rw [if_neg h1] at hkv
      rcases List.mem_cons.mp hkv with h2 | h2
      · subst h2
        exact Or.inr (List.mem_cons_self _ _)
      · rcases ih kv h2 with h3 | h3
        · exact Or.inl h3
        · exact Or.inr (List.mem_cons_of_mem _ h3)

theorem KeysValid.setB {gc : GMap} (h : KeysValid gc) {k : Board}
    (hk : k.length = 9 ∧ ∀ x ∈ k, x < 9) (v : Nat) :
    KeysValid (Puzzle.setB gc k v) := by
  constructor
  · rcases hlk : lookupB gc k with _ | w
    · rw [(setB_of_new hlk v).1]
      refine List.Nodup.append h.1 (List.nodup_singleton k) ?_
      rw [List.disjoint_singleton]
      exact lookupB_eq_none_iff.mp hlk
    · rw [(setB_of_mem hlk v).1]
      exact h.1
  · intro kv hkv
    rcases mem_setB kv hkv with h1 | h1
    · rw [h1]
      exact hk
    · exact h.2 kv h1

/-- The expansion loop preserves the heap invariant. -/
theorem relaxAll_heapInv {start s : Board} (hsB : IsBoard s)
    (hspar : inversions s % 2 = inversions start % 2) (g : Nat) :
    ∀ (nbs : List Nat) (gc : GMap) (par : PMap) (heap : List Entry),
      HeapInv start heap →
      (∀ nb ∈ nbs, nb ∈ neighbors (blankIdx s)) →
      HeapInv start (relaxAll s g (blankIdx s) nbs heap gc par).1 := by
  intro nbs
  induction nbs with
  | nil =>
    intro gc par heap hh _
    exact hh
  | cons nb rest ih =>
    intro gc par heap hh hnbs
    have hnb : nb ∈ neighbors (blankIdx s) := hnbs nb (List.mem_cons_self nb rest)
    have hrest : ∀ x ∈ rest, x ∈ neighbors (blankIdx s) :=
      fun x hx => hnbs x (List.mem_cons_of_mem nb hx)
    obtain ⟨hleg, happ, hnewB⟩ := swap_move_facts hsB hnb
    unfold relaxAll
    by_cases hupd : g + 1 < getDflt gc (swapCells s (blankIdx s) nb)
    · rw [if_pos hupd]
      refine ih _ _ _ ?_ hrest
      intro e he
      rcases mem_insertE.mp he with he | he
      · subst he
        refine ⟨hnewB, ?_⟩
        show inversions (swapCells s (blankIdx s) nb) % 2 = inversions start % 2
        rw [← happ, inversions_applyMove_parity hsB hleg, hspar]
      · exact hh e he
    · rw [if_neg hupd]
      exact ih _ _ _ hh hrest

/-- The expansion loop preserves key validity and does not increase the
termination measure. -/
theorem relaxAll_keys_phi {s : Board} (hsB : IsBoard s) (g : Nat) :
    ∀ (nbs : List Nat) (gc : GMap) (par : PMap) (heap : List Entry),
      KeysValid gc →
      (∀ nb ∈ nbs, nb ∈ neighbors (blankIdx s)) →
      KeysValid (relaxAll s g (blankIdx s) nbs heap gc par).2.1 ∧
        phi (relaxAll s g (blankIdx s) nbs heap gc par).1
          (relaxAll s g (blankIdx s) nbs heap gc par).2.1 ≤ phi heap gc := by
  intro nbs
  induction nbs with
  | nil =>
    intro gc par heap hk _
    exact ⟨hk, le_refl _⟩
  | cons nb rest ih =>
    intro gc par heap hk hnbs
    have hnb : nb ∈ neighbors (blankIdx s) := hnbs nb (List.mem_cons_self nb rest)
    have hrest : ∀ x ∈ rest, x ∈ neighbors (blankIdx s) :=
      fun x hx => hnbs x (List.mem_cons_of_mem nb hx)
    obtain ⟨_, _, hnewB⟩ := swap_move_facts hsB hnb
    unfold relaxAll
    by_cases hupd : g + 1 < getDflt gc (swapCells s (blankIdx s) nb)
    · rw [if_pos hupd]
      have hkey : (swapCells s (blankIdx s) nb).length = 9 ∧
          ∀ x ∈ swapCells s (blankIdx s) nb, x < 9 := by
        refine ⟨hnewB.length, ?_⟩
        intro x hx
        exact hnewB.mem_val.mp hx
      have hk' : KeysValid (setB gc (swapCells s (blankIdx s) nb) (g + 1)) :=
        hk.setB hkey (g + 1)
      obtain ⟨hkfin, hphi⟩ := ih (setB gc (swapCells s (blankIdx s) nb) (g + 1))
        (setB par (swapCells s (blankIdx s) nb) (s, s.getD nb 0))
        (insertE (g + 1 + manhattan (swapCells s (blankIdx s) nb), g + 1,
          swapCells s (blankIdx s) nb) heap) hk' hrest
      refine ⟨hkfin, le_trans hphi ?_⟩
      -- one push does not increase `phi`
      unfold phi
      rw [length_insertE]
      rcases hlk : lookupB gc (swapCells s (blankIdx s) nb) with _ | w
      · -- new key
        have hBIG : g + 1 < BIG := by
          rw [getDflt_eq_BIG hlk] at hupd
          exact hupd
        have hpot := gcPot_setB_of_new hlk (g + 1)
        have hlen := (setB_of_new hlk (g + 1)).2
        have hcnt := keysValid_length_le hk'
        rw [hpot, hlen]
        rw [hlen] at hcnt
        unfold NBOARDS at hcnt ⊢
        unfold BIG at hBIG ⊢
        omega
      · -- existing key improved
        have hw : g + 1 < w := by
          rw [getDflt_eq_of_lookup hlk] at hupd
          exact hupd
        have hpot := gcPot_setB_of_mem hlk (g + 1)
        have hlen := (setB_of_mem hlk (g + 1)).2
        rw [hlen]
        omega
    · rw [if_neg hupd]
      exact ih _ _ _ hk hrest

/-- With enough fuel the loop always terminates with a Python-level result. -/
theorem astarLoop_term {start : Board} {maxExp : Nat} :
    ∀ (fuel : Nat) (heap : List Entry) (gc : GMap) (par : PMap) (exps : Nat),
      MapsInv start gc par → KeysValid gc → HeapInv start heap →
      phi heap gc < fuel →
      ∃ r, astarLoop maxExp fuel heap gc par exps = some r := by
  intro fuel
  induction fuel with
  | zero =>
    intro heap gc par exps _ _ _ hphi
    omega
  | succ n ih =>
    intro heap gc par exps hm hk hh hphi
    match heap with
    | [] => exact ⟨none, by rw [astarLoop]⟩
    | (f, g, s) :: rest =>
      have hcons : phi ((f, g, s) :: rest) gc = phi rest gc + 1 := by
        unfold phi
        simp only [List.length_cons]
        omega
      have hh_rest : HeapInv start rest :=
        fun e he => hh e (List.mem_cons_of_mem _ he)
      by_cases h1 : g ≠ getDflt gc s
      · obtain ⟨r, hr⟩ := ih rest gc par exps hm hk hh_rest (by omega)
        exact ⟨r, by rw [astarLoop, if_pos h1]; exact hr⟩
      · by_cases h2 : s = GOAL
        · exact ⟨some ((walkParents par s g).reverse),
            by rw [astarLoop, if_neg h1, if_pos h2]⟩
        · by_cases h3 : exps + 1 > maxExp
          · exact ⟨none, by rw [astarLoop, if_neg h1, if_neg h2, if_pos h3]⟩
          · push_neg at h1
            obtain ⟨hsB, hspar⟩ := hh (f, g, s) (List.mem_cons_self _ _)
            rcases hlk : lookupB gc s with _ | gs
            · -- unknown state: the expansion is a no-op
              have hgB : g = BIG := by rw [h1, getDflt_eq_BIG hlk]
              obtain ⟨r, hr⟩ := ih rest gc par (exps + 1) hm hk hh_rest (by omega)
              refine ⟨r, ?_⟩
              rw [astarLoop, if_neg (by omega), if_neg h2, if_neg h3]
              simp only []
              rw [hgB, relaxAll_noop hm.gval_lt _ _]
              exact hr
            · have hgg : g = gs := by rw [h1, getDflt_eq_of_lookup hlk]
              subst hgg
              have hm' := relaxAll_maps_inv hsB (neighbors (blankIdx s)) gc par
                rest hm hlk (fun x hx => hx)
              obtain ⟨hk', hphi'⟩ := relaxAll_keys_phi hsB g (neighbors (blankIdx s))
                gc par rest hk (fun x hx => hx)
              have hh' := relaxAll_heapInv hsB hspar g (neighbors (blankIdx s))
                gc par rest hh_rest (fun x hx => hx)
              obtain ⟨r, hr⟩ := ih _ _ _ (exps + 1) hm' hk' hh' (by omega)
              refine ⟨r, ?_⟩
              rw [astarLoop, if_neg (by omega), if_neg h2, if_neg h3]
              simp only []
              exact hr

/-- On an odd-parity start the loop can never return a move list: the goal
has even parity and every queued board has the start's parity. -/
theorem astarLoop_no_path {start : Board} {maxExp : Nat}
    (hodd : inversions start % 2 = 1) :
    ∀ (fuel : Nat) (heap : List Entry) (gc : GMap) (par : PMap) (exps : Nat)
      (moves : List Nat),
      MapsInv start gc par → HeapInv start heap →
      astarLoop maxExp fuel heap gc par exps = some (some moves) → False := by
  intro fuel
  induction fuel with
  | zero =>
    intro heap gc par exps moves _ _ h
    exact absurd h (by simp [astarLoop])
  | succ n ih =>
    intro heap gc par exps moves hm hh h
    match heap with
    | [] =>
      rw [astarLoop] at h
      have : (none : Option (List Nat)) = some moves := by simpa using h
      cases this
    | (f, g, s) :: rest =>
      have hh_rest : HeapInv start rest :=
        fun e he => hh e (List.mem_cons_of_mem _ he)
      rw [astarLoop] at h
      by_cases h1 : g ≠ getDflt gc s
      · rw [if_pos h1] at h
        exact ih rest gc par exps moves hm hh_rest h
      · rw [if_neg h1] at h
        push_neg at h1
        by_cases h2 : s = GOAL
        · obtain ⟨_, hspar⟩ := hh (f, g, s) (List.mem_cons_self _ _)
          rw [h2] at hspar
          rw [inversions_goal] at hspar
          omega
        · rw [if_neg h2] at h
          by_cases h3 : exps + 1 > maxExp
          · rw [if_pos h3] at h
            have : (none : Option (List Nat)) = some moves := by simpa using h
            cases this
          · rw [if_neg h3] at h
            simp only [] at h
            obtain ⟨hsB, hspar⟩ := hh (f, g, s) (List.mem_cons_self _ _)
            rcases hlk : lookupB gc s with _ | gs
            · have hgB : g = BIG := by rw [h1, getDflt_eq_BIG hlk]
              rw [hgB, relaxAll_noop hm.gval_lt _ _] at h
              exact ih rest gc par (exps + 1) moves hm hh_rest h
            · have hgg : g = gs := by rw [h1, getDflt_eq_of_lookup hlk]
              subst hgg
              have hm' := relaxAll_maps_inv hsB (neighbors (blankIdx s)) gc par
                rest hm hlk (fun x hx => hx)
              have hh' := relaxAll_heapInv hsB hspar g (neighbors (blankIdx s))
                gc par rest hh_rest (fun x hx => hx)
              exact ih _ _ _ (exps + 1) moves hm' hh' h

/-- The unsolvable case: the solver terminates with `None`, and `None` is the
only value it can return. -/
theorem astar_unsolvable {start : Board} {maxExp : Nat} (hB : IsBoard start)
    (hunsolv : is_solvable_3x3 start = false) :
    astarReturns start maxExp none ∧
      ∀ r, astarReturns start maxExp r → r = none := by
  have hodd : inversions start % 2 = 1 := by
    unfold is_solvable_3x3 at hunsolv
    rcases Nat.mod_two_eq_zero_or_one (inversions start) with h | h
    · rw [h] at hunsolv
      simp at hunsolv
    · exact h
  have hne : start ≠ GOAL := by
    intro he
    rw [he, inversions_goal] at hodd
    omega
  have hm0 : MapsInv start [(start, 0)] [] := MapsInv.initial hB
  have hk0 : KeysValid [(start, 0)] := by
    constructor
    · simp
    · intro kv hkv
      rw [List.mem_singleton] at hkv
      subst hkv
      exact ⟨hB.length, fun x hx => hB.mem_val.mp hx⟩
  have hh0 : HeapInv start [(manhattan start, 0, start)] := by
    intro e he
    rw [List.mem_singleton] at he
    subst he
    exact ⟨hB, rfl⟩
  obtain ⟨r, hr⟩ := astarLoop_term (phi [(manhattan start, 0, start)] [(start, 0)] + 1)
    [(manhattan start, 0, start)] [(start, 0)] [] 0 hm0 hk0 hh0 (by omega)
  have hrnone : r = none := by
    rcases r with _ | moves
    · rfl
    · exact absurd hr (fun h =>
        astarLoop_no_path hodd _ _ _ _ _ moves hm0 hh0 h)
  subst hrnone
  constructor
  · exact ⟨phi [(manhattan start, 0, start)] [(start, 0)] + 1, by
      unfold astar_solve
      rw [if_neg hne]
      exact hr⟩
  · intro r2 hr2
    have h1 : astarReturns start maxExp none := ⟨_, by
      unfold astar_solve
      rw [if_neg hne]
      exact hr⟩
    exact astarReturns_unique hr2 h1

end Puzzle

namespace Puzzle

/-! ## Permuting cells and walking the blank -/

theorem finOf_val {n : Nat} (h : n < 9) : (finOf n).val = n := Nat.mod_eq_of_lt h

theorem finOf_eq_mk {n : Nat} (h : n < 9) : (⟨n, h⟩ : Fin 9) = finOf n :=
  Fin.ext (finOf_val h).symm

theorem length_permuteCells (st : Board) (π : Equiv.Perm (Fin 9)) :
    (permuteCells st π).length = 9 := by
  simp [permuteCells]

theorem getD_permuteCells (st : Board) (π : Equiv.Perm (Fin 9)) {i : Nat}
    (hi : i < 9) :
    (permuteCells st π).getD i 0 = st.getD (π ⟨i, hi⟩).val 0 := by
  have hlen : i < (permuteCells st π).length := by
    rw [length_permuteCells]
    exact hi
  rw [getD_eq_getElem hlen]
  unfold permuteCells
  rw [List.getElem_map]
  congr 2
  rw [List.getElem_finRange]
  rfl

theorem permuteCells_one {st : Board} (hlen : st.length = 9) :
    permuteCells st 1 = st := by
  apply eq_of_getD (length_permuteCells st 1) hlen
  intro n hn
  rw [getD_permuteCells st 1 hn, Equiv.Perm.one_apply]

theorem permuteCells_mul (st : Board) (π σ : Equiv.Perm (Fin 9)) :
    permuteCells st (π * σ) = permuteCells (permuteCells st π) σ := by
  apply eq_of_getD (length_permuteCells _ _) (length_permuteCells _ _)
  intro n hn
  rw [getD_permuteCells _ _ hn, getD_permuteCells _ _ hn,
    getD_permuteCells st π (σ ⟨n, hn⟩).isLt, Fin.eta, Equiv.Perm.mul_apply]

theorem applyMove_eq_permuteCells {st : Board} (hB : IsBoard st) {d : Nat}
    (hd : d ∈ neighbors (blankIdx st)) :
    applyMove st (st.getD d 0)
      = permuteCells st (Equiv.swap (finOf (blankIdx st)) (finOf d)) := by
  have hz9 := hB.blankIdx_lt
  have hd9 : d < 9 := (neighbors_range _ hz9 _ hd).1
  have hdz : d ≠ blankIdx st := (neighbors_range _ hz9 _ hd).2
  have hzlen : blankIdx st < st.length := by rw [hB.length]; exact hz9
  have hdlen : d < st.length := by rw [hB.length]; exact hd9
  obtain ⟨hleg, happ, hnewB⟩ := swap_move_facts hB hd
  rw [happ]
  apply eq_of_getD (by rw [length_swapCells]; exact hB.length)
    (length_permuteCells _ _)
  intro n hn
  rw [getD_permuteCells _ _ hn]
  by_cases h1 : n = blankIdx st
  · subst h1
    rw [getD_swapCells_fst hzlen (Ne.symm hdz), finOf_eq_mk hz9,
      Equiv.swap_apply_left, finOf_val hd9]
  · by_cases h2 : n = d
    · subst h2
      rw [getD_swapCells_snd hdlen, finOf_eq_mk hd9, Equiv.swap_apply_right,
        finOf_val hz9]
    · rw [getD_swapCells_other h1 h2]
      have hne1 : (⟨n, hn⟩ : Fin 9) ≠ finOf (blankIdx st) := by
        intro he
        apply h1
        have h3 := congrArg Fin.val he
        rw [finOf_val hz9] at h3
        simpa using h3
      have hne2 : (⟨n, hn⟩ : Fin 9) ≠ finOf d := by
        intro he
        apply h2
        have h3 := congrArg Fin.val he
        rw [finOf_val hd9] at h3
        simpa using h3
      rw [Equiv.swap_apply_of_ne_of_ne hne1 hne2]

/-- Walking the blank along a grid path is a legal move sequence realizing
the path's cell permutation. -/
theorem movesOfPath_spec : ∀ (steps : List Nat) {st : Board}, IsBoard st →
    StepsOK (blankIdx st) steps →
    LegalSeq st (movesOfPath st steps) ∧
      replay st (movesOfPath st steps)
        = permuteCells st (pathPerm (blankIdx st) steps) := by
  intro steps
  induction steps with
  | nil =>
    intro st hB _
    refine ⟨trivial, ?_⟩
    show st = permuteCells st 1
    rw [permuteCells_one hB.length]
  | cons d rest ih =>
    intro st hB hok
    obtain ⟨hd, hrest⟩ := hok
    have hz9 := hB.blankIdx_lt
    have hd9 : d < 9 := (neighbors_range _ hz9 _ hd).1
    obtain ⟨hleg, happ, hnewB⟩ := swap_move_facts hB hd
    have hblank' : blankIdx (applyMove st (st.getD d 0)) = d := by
      rw [blankIdx_applyMove hB hleg, hB.indexOf_eq_of_getD hd9 rfl]
    have hok' : StepsOK (blankIdx (applyMove st (st.getD d 0))) rest := by
      rw [hblank']
      exact hrest
    obtain ⟨ihleg, ihrep⟩ := ih (hB.applyMove_isBoard hleg) hok'
    constructor
    · exact ⟨hleg, ihleg⟩
    · show replay (applyMove st (st.getD d 0)) (movesOfPath _ rest) = _
      rw [ihrep, hblank']
      show permuteCells (applyMove st (st.getD d 0)) (pathPerm d rest)
        = permuteCells st
          (Equiv.swap (finOf (blankIdx st)) (finOf d) * pathPerm d rest)
      rw [permuteCells_mul, applyMove_eq_permuteCells hB hd]

/-! ## Path algebra -/

theorem stepsOK_append {s t : List Nat} : ∀ {c : Nat},
    StepsOK c s → StepsOK (pathEnd c s) t → StepsOK c (s ++ t) := by
  induction s with
  | nil => intro c _ ht; exact ht
  | cons d rest ih =>
    intro c hs ht
    exact ⟨hs.1, ih hs.2 ht⟩

theorem pathEnd_append (s t : List Nat) : ∀ c,
    pathEnd c (s ++ t) = pathEnd (pathEnd c s) t := by
  induction s with
  | nil => intro c; rfl
  | cons d rest ih => intro c; exact ih d

theorem pathPerm_append (s t : List Nat) : ∀ c,
    pathPerm c (s ++ t) = pathPerm c s * pathPerm (pathEnd c s) t := by
  induction s with
  | nil =>
    intro c
    show pathPerm c t = 1 * pathPerm c t
    rw [one_mul]
  | cons d rest ih =>
    intro c
    show Equiv.swap (finOf c) (finOf d) * pathPerm d (rest ++ t) = _
    rw [ih d]
    show _ = Equiv.swap (finOf c) (finOf d) * pathPerm d rest
      * pathPerm (pathEnd d rest) t
    rw [mul_assoc]

theorem stepsOK_lt : ∀ {s : List Nat} {c : Nat}, c < 9 → StepsOK c s →
    pathEnd c s < 9 ∧ ∀ d ∈ s, d < 9 := by
  intro s
  induction s with
  | nil => intro c hc _; exact ⟨hc, by simp⟩
  | cons d rest ih =>
    intro c hc hok
    have hd9 : d < 9 := (neighbors_range _ hc _ hok.1).1
    obtain ⟨h1, h2⟩ := ih hd9 hok.2
    refine ⟨h1, ?_⟩
    intro x hx
    rcases List.mem_cons.mp hx with hx | hx
    · rw [hx]; exact hd9
    · exact h2 x hx

/-- The permutation of a walk carries the end cell back to the start cell. -/
theorem pathPerm_end : ∀ (s : List Nat) (c : Nat), c < 9 → StepsOK c s →
    pathPerm c s (finOf (pathEnd c s)) = finOf c := by
  intro s
  induction s with
  | nil => intro c _ _; rfl
  | cons d rest ih =>
    intro c hc hok
    have hd9 : d < 9 := (neighbors_range _ hc _ hok.1).1
    show (Equiv.swap (finOf c) (finOf d) * pathPerm d rest)
      (finOf (pathEnd d rest)) = finOf c
    rw [Equiv.Perm.mul_apply, ih d hd9 hok.2, Equiv.swap_apply_right]

/-- Each step of a walk flips the chessboard colour of the blank cell. -/
theorem neighbors_colour : ∀ c, c < 9 → ∀ d ∈ neighbors c,
    (c / 3 + c % 3) % 2 ≠ (d / 3 + d % 3) % 2 := by
  decide

/-- Walk length parity matches the colour change of the endpoints. -/
theorem stepsOK_length_parity : ∀ (s : List Nat) (c : Nat), c < 9 → StepsOK c s →
    (s.length + (c / 3 + c % 3)) % 2 = (pathEnd c s / 3 + pathEnd c s % 3) % 2 := by
  intro s
  induction s with
  | nil => intro c _ _; simp [pathEnd]
  | cons d rest ih =>
    intro c hc hok
    have hd9 : d < 9 := (neighbors_range _ hc _ hok.1).1
    have h1 := ih d hd9 hok.2
    have h2 := neighbors_colour c hc d hok.1
    have hpe : pathEnd c (d :: rest) = pathEnd d rest := rfl
    rw [hpe, List.length_cons]
    omega

/-- Closed walks have even length. -/
theorem closed_walk_even {s : List Nat} (hok : StepsOK 8 s)
    (hend : pathEnd 8 s = 8) : s.length % 2 = 0 := by
  have := stepsOK_length_parity s 8 (by omega) hok
  rw [hend] at this
  omega

/-- The permutation of a walk is a product of `length` transpositions. -/
theorem sign_pathPerm : ∀ (s : List Nat) (c : Nat), c < 9 → StepsOK c s →
    Equiv.Perm.sign (pathPerm c s) = (-1) ^ s.length := by
  intro s
  induction s with
  | nil => intro c _ _; simp [pathPerm]
  | cons d rest ih =>
    intro c hc hok
    have hd9 : d < 9 := (neighbors_range _ hc _ hok.1).1
    have hne : finOf c ≠ finOf d := by
      intro he
      have := congrArg Fin.val he
      rw [finOf_val hc, finOf_val hd9] at this
      exact (neighbors_range _ hc _ hok.1).2 this.symm
    show Equiv.Perm.sign (Equiv.swap (finOf c) (finOf d) * pathPerm d rest) = _
    rw [Equiv.Perm.sign_mul, Equiv.Perm.sign_swap hne, ih d hd9 hok.2,
      List.length_cons, pow_succ, mul_comm]

/-- Realizable permutations are even. -/
theorem Realizable.sign {π : Equiv.Perm (Fin 9)} (h : Realizable π) :
    Equiv.Perm.sign π = 1 := by
  obtain ⟨s, hok, hend, hperm⟩ := h
  rw [← hperm, sign_pathPerm s 8 (by omega) hok]
  rw [neg_one_pow_eq_one_iff_even (by decide)]
  exact Nat.even_iff.mpr (closed_walk_even hok hend)

theorem Realizable.one : Realizable 1 := ⟨[], trivial, rfl, rfl⟩

theorem Realizable.mul {π σ : Equiv.Perm (Fin 9)} (hπ : Realizable π)
    (hσ : Realizable σ) : Realizable (π * σ) := by
  obtain ⟨s, hs1, hs2, hs3⟩ := hπ
  obtain ⟨t, ht1, ht2, ht3⟩ := hσ
  refine ⟨s ++ t, stepsOK_append hs1 (by rw [hs2]; exact ht1), ?_, ?_⟩
  · rw [pathEnd_append, hs2, ht2]
  · rw [pathPerm_append, hs2, hs3, ht3]

end Puzzle

namespace Puzzle

/-! ## Star transpositions and the certificate table -/

instance stepsOK_dec : (c : Nat) → (s : List Nat) → Decidable (StepsOK c s)
  | _, [] => .isTrue trivial
  | c, d :: rest =>
    have : Decidable (StepsOK d rest) := stepsOK_dec d rest
    inferInstanceAs (Decidable (d ∈ neighbors c ∧ StepsOK d rest))

/-- The searched-for closed walks do realize the star-pair permutations. -/
theorem starPairSteps_spec : ∀ x ∈ [1, 2, 3, 4, 5, 6, 7],
    ∀ y ∈ [1, 2, 3, 4, 5, 6, 7], x ≠ y →
    StepsOK 8 (starPairSteps x y) ∧ pathEnd 8 (starPairSteps x y) = 8 ∧
      ∀ i : Fin 9, pathPerm 8 (starPairSteps x y) i
        = (star (finOf x) * star (finOf y)) i := by
  decide

theorem starPair_realizable {x y : Nat} (hx1 : 1 ≤ x) (hx7 : x ≤ 7)
    (hy1 : 1 ≤ y) (hy7 : y ≤ 7) :
    Realizable (star (finOf x) * star (finOf y)) := by
  by_cases hxy : x = y
  · subst hxy
    show Realizable (Equiv.swap _ _ * Equiv.swap _ _)
    rw [Equiv.swap_mul_self]
    exact Realizable.one
  · have hxm : x ∈ [1, 2, 3, 4, 5, 6, 7] := by interval_cases x <;> decide
    have hym : y ∈ [1, 2, 3, 4, 5, 6, 7] := by interval_cases y <;> decide
    obtain ⟨h1, h2, h3⟩ := starPairSteps_spec x hxm y hym hxy
    exact ⟨starPairSteps x y, h1, h2, Equiv.ext h3⟩

theorem starProd_append (u v : List (Fin 9)) :
    starProd (u ++ v) = starProd u * starProd v := by
  induction u with
  | nil =>
    show starProd v = 1 * starProd v
    rw [one_mul]
  | cons x rest ih =>
    show star x * starProd (rest ++ v) = star x * starProd rest * starProd v
    rw [ih, mul_assoc]

/-- A transposition of two interior cells is an odd-length word of stars. -/
theorem swap_eq_starProd {a b : Fin 9} (ha8 : a ≠ finOf 8) (hb8 : b ≠ finOf 8)
    (hab : a ≠ b) :
    ∃ w : List (Fin 9), (∀ x ∈ w, x ≠ finOf 0 ∧ x ≠ finOf 8) ∧
      w.length % 2 = 1 ∧ Equiv.swap a b = starProd w := by
  by_cases ha0 : a = finOf 0
  · refine ⟨[b], ?_, rfl, ?_⟩
    · intro x hx
      rw [List.mem_singleton] at hx
      subst hx
      exact ⟨by rw [← ha0]; exact (Ne.symm hab), hb8⟩
    · show Equiv.swap a b = star b * 1
      rw [mul_one, ha0]
      rfl
  · by_cases hb0 : b = finOf 0
    · refine ⟨[a], ?_, rfl, ?_⟩
      · intro x hx
        rw [List.mem_singleton] at hx
        subst hx
        exact ⟨ha0, ha8⟩
      · show Equiv.swap a b = star a * 1
        rw [mul_one, hb0]
        unfold star
        rw [Equiv.swap_comm]
    · refine ⟨[a, b, a], ?_, by simp, ?_⟩
      · intro x hx
        rcases List.mem_cons.mp hx with hx | hx
        · subst hx; exact ⟨ha0, ha8⟩
        rcases List.mem_cons.mp hx with hx | hx
        · subst hx; exact ⟨hb0, hb8⟩
        · rw [List.mem_singleton] at hx
          subst hx; exact ⟨ha0, ha8⟩
      · show Equiv.swap a b = star a * (star b * (star a * 1))
        rw [mul_one]
        unfold star
        have h1 : Equiv.swap a b
            = Equiv.swap ((Equiv.swap (finOf 0) a) (finOf 0))
                ((Equiv.swap (finOf 0) a) b) := by
          rw [Equiv.swap_apply_left,
            Equiv.swap_apply_of_ne_of_ne hb0 (Ne.symm hab)]
        rw [h1, Equiv.swap_apply_apply]
        have h2 : (Equiv.swap (finOf 0) a)⁻¹ = Equiv.swap (finOf 0) a :=
          Equiv.swap_inv _ _
        rw [h2, mul_assoc]

/-- Even-length words of interior stars are realizable. -/
theorem starProd_even_realizable : ∀ (w : List (Fin 9)),
    (∀ x ∈ w, x ≠ finOf 0 ∧ x ≠ finOf 8) → w.length % 2 = 0 →
    Realizable (starProd w)
  | [], _, _ => Realizable.one
  | [x], _, hlen => by simp at hlen
  | x :: y :: rest, hmem, hlen => by
    have hx := hmem x (List.mem_cons_self _ _)
    have hy := hmem y (List.mem_cons_of_mem _ (List.mem_cons_self _ _))
    have hrest : ∀ z ∈ rest, z ≠ finOf 0 ∧ z ≠ finOf 8 := by
      intro z hz
      exact hmem z (List.mem_cons_of_mem _ (List.mem_cons_of_mem _ hz))
    have hlen2 : rest.length % 2 = 0 := by
      simp only [List.length_cons] at hlen
      omega
    have hf0 : (finOf 0).val = 0 := finOf_val (by omega)
    have hf8 : (finOf 8).val = 8 := finOf_val (by omega)
    have hxv : 1 ≤ x.val ∧ x.val ≤ 7 := by
      constructor
      · by_contra h
        exact hx.1 (Fin.ext (by omega))
      · have := x.isLt
        by_contra h
        exact hx.2 (Fin.ext (by omega))
    have hyv : 1 ≤ y.val ∧ y.val ≤ 7 := by
      constructor
      · by_contra h
        exact hy.1 (Fin.ext (by omega))
      · have := y.isLt
        by_contra h
        exact hy.2 (Fin.ext (by omega))
    have hpair := starPair_realizable hxv.1 hxv.2 hyv.1 hyv.2
    have hfx : finOf x.val = x := Fin.ext (finOf_val x.isLt)
    have hfy : finOf y.val = y := Fin.ext (finOf_val y.isLt)
    rw [hfx, hfy] at hpair
    have hrec := starProd_even_realizable rest hrest hlen2
    have hshape : starProd (x :: y :: rest) = (star x * star y) * starProd rest := by
      show star x * (star y * starProd rest) = _
      rw [mul_assoc]
    rw [hshape]
    exact hpair.mul hrec

/-- Both transposition pairs of interior cells are realizable. -/
theorem swap_pair_realizable {u v w z : Fin 9} (hu : u ≠ finOf 8)
    (hv : v ≠ finOf 8) (hw : w ≠ finOf 8) (hz : z ≠ finOf 8) (huv : u ≠ v)
    (hwz : w ≠ z) : Realizable (Equiv.swap u v * Equiv.swap w z) := by
  obtain ⟨w1, hmem1, hodd1, he1⟩ := swap_eq_starProd hu hv huv
  obtain ⟨w2, hmem2, hodd2, he2⟩ := swap_eq_starProd hw hz hwz
  rw [he1, he2, ← starProd_append]
  apply starProd_even_realizable
  · intro x hx
    rcases List.mem_append.mp hx with hx | hx
    · exact hmem1 x hx
    · exact hmem2 x hx
  · rw [List.length_append]
    omega

/-- Every even permutation of the cells fixing the blank's home cell is
realizable by a closed walk of the blank. -/
theorem even_fix8_realizable {π : Equiv.Perm (Fin 9)}
    (h8 : π (finOf 8) = finOf 8) (hsign : Equiv.Perm.sign π = 1) :
    Realizable π := by
  have hiff : ∀ x : Fin 9, x ≠ finOf 8 ↔ π x ≠ finOf 8 := by
    intro x
    constructor
    · intro hx he
      exact hx (π.injective (by rw [he, h8]))
    · intro hx he
      subst he
      exact hx h8
  have hof : Equiv.Perm.ofSubtype (π.subtypePerm hiff) = π := by
    apply Equiv.Perm.ofSubtype_subtypePerm hiff
    intro x hx he
    subst he
    exact hx h8
  have hsub : Equiv.Perm.sign (π.subtypePerm hiff) = 1 := by
    have := Equiv.Perm.sign_ofSubtype (π.subtypePerm hiff)
    rw [hof] at this
    rw [← this]
    exact hsign
  have key : ∀ f : Equiv.Perm {x : Fin 9 // x ≠ finOf 8},
      Realizable (Equiv.Perm.ofSubtype f) ∨
      ∃ a b : {x : Fin 9 // x ≠ finOf 8}, a ≠ b ∧
        Realizable (Equiv.Perm.ofSubtype (Equiv.swap a b * f)) := by
    intro f
    refine Equiv.Perm.swap_induction_on f ?_ ?_
    · left
      rw [map_one]
      exact Realizable.one
    · intro f x y hxy ih
      rcases ih with hf | ⟨a, b, hab, hreal⟩
      · right
        refine ⟨x, y, hxy, ?_⟩
        rw [← mul_assoc, Equiv.swap_mul_self, one_mul]
        exact hf
      · left
        have hshape : Equiv.swap x y * f
            = (Equiv.swap x y * Equiv.swap a b) * (Equiv.swap a b * f) := by
          rw [mul_assoc, ← mul_assoc (Equiv.swap a b), Equiv.swap_mul_self,
            one_mul]
        rw [hshape, map_mul, map_mul, Equiv.Perm.ofSubtype_swap_eq,
          Equiv.Perm.ofSubtype_swap_eq]
        refine Realizable.mul ?_ hreal
        refine swap_pair_realizable x.2 y.2 a.2 b.2 ?_ ?_
        · intro he
          exact hxy (Subtype.ext he)
        · intro he
          exact hab (Subtype.ext he)
  rcases key (π.subtypePerm hiff) with h | ⟨a, b, hab, hreal⟩
  · rw [hof] at h
    exact h
  · exfalso
    have h1 := hreal.sign
    rw [Equiv.Perm.sign_ofSubtype, Equiv.Perm.sign_mul,
      Equiv.Perm.sign_swap (fun he => hab he), hsub] at h1
    · simp at h1

end Puzzle

namespace Puzzle

/-! ## The sign of a board permutation versus its inversion count -/

theorem invTail_eq_zero_iff : ∀ (l : List Nat),
    invTail l = 0 ↔ l.Pairwise (· ≤ ·) := by
  intro l
  induction l with
  | nil => simp [invTail]
  | cons x rest ih =>
    rw [invTail_cons, List.pairwise_cons]
    constructor
    · intro h
      have h1 : rest.countP (fun y => decide (y < x)) = 0 := by omega
      have h2 : invTail rest = 0 := by omega
      refine ⟨?_, ih.mp h2⟩
      intro y hy
      have h3 := List.countP_eq_zero.mp h1 y hy
      simp at h3
      omega
    · rintro ⟨h1, h2⟩
      have hc : rest.countP (fun y => decide (y < x)) = 0 := by
        rw [List.countP_eq_zero]
        intro y hy
        simp
        exact h1 y hy
      rw [hc, ih.mpr h2]

theorem exists_adjacent_inversion {l : List Nat} (h : invTail l ≠ 0) :
    ∃ i, i + 1 < l.length ∧ l.getD (i + 1) 0 < l.getD i 0 := by
  by_contra hno
  push_neg at hno
  apply h
  rw [invTail_eq_zero_iff, ← List.chain'_iff_pairwise, List.chain'_iff_get]
  intro i hi
  have h1 : i + 1 < l.length := by omega
  have h2 : i < l.length := by omega
  have h3 := hno i h1
  rw [getD_eq_getElem h1 0, getD_eq_getElem h2 0] at h3
  simp only [List.get_eq_getElem]
  omega

theorem invTail_adjacent_swap {l : List Nat} {i : Nat} (hi : i + 1 < l.length)
    (hlt : l.getD (i + 1) 0 < l.getD i 0) :
    invTail (swapCells l i (i + 1)) + 1 = invTail l := by
  have h2 : i < l.length := by omega
  have hlen : (l.take i).length = i := List.length_take_of_le (by omega)
  have e1 : l = l.take i ++ l.getD i 0 :: l.getD (i + 1) 0 :: l.drop (i + 2) := by
    conv_lhs => rw [← List.take_append_drop i l]
    congr 1
    rw [List.drop_eq_getElem_cons h2, getD_eq_getElem h2 0]
    congr 1
    rw [List.drop_eq_getElem_cons hi, getD_eq_getElem hi 0]
  have e1n : l = l.take i ++ l.getD i 0
      :: ([] ++ l.getD (i + 1) 0 :: l.drop (i + 2)) := by
    rw [List.nil_append]
    exact e1
  have e2 := swap_decomp (l.take i) [] (l.drop (i + 2)) (l.getD i 0)
    (l.getD (i + 1) 0)
  rw [hlen] at e2
  simp only [List.length_nil, Nat.add_zero, List.nil_append] at e2
  rw [← e1] at e2
  rw [e2]
  conv_rhs => rw [e1]
  simp only [invTail_append, invTail_cons, List.countP_cons]
  rw [crossInv_perm_right _ (List.Perm.swap _ _ _)]
  have hd1 : decide (l.getD (i + 1) 0 < l.getD i 0) = true := decide_eq_true hlt
  have hd2 : ¬(decide (l.getD i 0 < l.getD (i + 1) 0) = true) := by
    rw [decide_eq_true_eq]
    omega
  rw [if_pos hd1, if_neg hd2]
  omega

theorem boardFun_leftInv {st : Board} (hB : IsBoard st) :
    Function.LeftInverse (boardInv st) (boardFun st) := by
  intro i
  have hv : st.getD i.val 0 < 9 := hB.getD_lt i.isLt
  show finOf (List.indexOf (finOf (st.getD i.val 0)).val st) = i
  rw [finOf_val hv, hB.indexOf_eq_of_getD i.isLt rfl]
  exact Fin.ext (finOf_val i.isLt)

theorem boardFun_rightInv {st : Board} (hB : IsBoard st) :
    Function.RightInverse (boardInv st) (boardFun st) := by
  intro v
  have hidx : List.indexOf v.val st < 9 := hB.indexOf_lt v.isLt
  show finOf (st.getD (finOf (List.indexOf v.val st)).val 0) = v
  rw [finOf_val hidx, hB.getD_indexOf v.isLt]
  exact Fin.ext (finOf_val v.isLt)

/-- The cell-to-content permutation of a genuine board. -/
def permOf (st : Board) (hB : IsBoard st) : Equiv.Perm (Fin 9) :=
  boardPerm st (boardFun_leftInv hB) (boardFun_rightInv hB)

theorem permOf_apply (st : Board) (hB : IsBoard st) (k : Fin 9) :
    permOf st hB k = finOf (st.getD k.val 0) := rfl

theorem sign_permOf : ∀ (n : Nat) (st : Board) (hB : IsBoard st),
    invFull st = n → Equiv.Perm.sign (permOf st hB) = (-1) ^ n := by
  intro n
  induction n with
  | zero =>
    intro st hB hinv
    have hpair : st.Pairwise (· ≤ ·) := (invTail_eq_zero_iff st).mp hinv
    have hst : st = List.range 9 :=
      List.eq_of_perm_of_sorted hB hpair (List.sorted_le_range 9)
    subst hst
    have h1 : permOf (List.range 9) hB = 1 := by
      apply Equiv.ext
      intro k
      rw [permOf_apply]
      have hk : k.val < (List.range 9).length := by
        simpa using k.isLt
      rw [getD_eq_getElem hk 0, List.getElem_range]
      show finOf k.val = k
      exact Fin.ext (finOf_val k.isLt)
    rw [h1]
    simp
  | succ n ih =>
    intro st hB hinv
    have h4 : invTail st = n + 1 := hinv
    have hne : invTail st ≠ 0 := by omega
    obtain ⟨i, hi1, hlt⟩ := exists_adjacent_inversion hne
    have hlen9 : st.length = 9 := hB.length
    have hi9 : i < 9 := by omega
    have hi19 : i + 1 < 9 := by omega
    have hB' : IsBoard (swapCells st i (i + 1)) := hB.swapCells hi9 hi19
    have hinv' : invFull (swapCells st i (i + 1)) = n := by
      have h3 := invTail_adjacent_swap hi1 hlt
      show invTail (swapCells st i (i + 1)) = n
      omega
    have hne' : finOf i ≠ finOf (i + 1) := by
      intro he
      have h5 := congrArg Fin.val he
      rw [finOf_val hi9, finOf_val hi19] at h5
      omega
    have hrel : permOf (swapCells st i (i + 1)) hB'
        = permOf st hB * Equiv.swap (finOf i) (finOf (i + 1)) := by
      apply Equiv.ext
      intro k
      rw [Equiv.Perm.mul_apply, permOf_apply, permOf_apply]
      by_cases hk1 : k = finOf i
      · subst hk1
        rw [Equiv.swap_apply_left, finOf_val hi9, finOf_val hi19,
          getD_swapCells_fst (by omega) (by omega)]
      · by_cases hk2 : k = finOf (i + 1)
        · subst hk2
          rw [Equiv.swap_apply_right, finOf_val hi9, finOf_val hi19,
            getD_swapCells_snd (by omega)]
        · rw [Equiv.swap_apply_of_ne_of_ne hk1 hk2]
          have hki : k.val ≠ i := by
            intro he
            exact hk1 (Fin.ext (by rw [he, finOf_val hi9]))
          have hki1 : k.val ≠ i + 1 := by
            intro he
            exact hk2 (Fin.ext (by rw [he, finOf_val hi19]))
          rw [getD_swapCells_other hki hki1]
    have hs := ih (swapCells st i (i + 1)) hB' hinv'
    have hst' : permOf st hB = permOf (swapCells st i (i + 1)) hB'
        * Equiv.swap (finOf i) (finOf (i + 1)) := by
      rw [hrel, mul_assoc, Equiv.swap_mul_self, mul_one]
    rw [hst', map_mul, hs, Equiv.Perm.sign_swap hne', pow_succ]

theorem invFull_eq {st : Board} (hB : IsBoard st) :
    invFull st = inversions st + blankIdx st := by
  have hz9 : blankIdx st < 9 := hB.blankIdx_lt
  have hzlen : blankIdx st < st.length := by rw [hB.length]; exact hz9
  have hlen : (st.take (blankIdx st)).length = blankIdx st :=
    List.length_take_of_le (by omega)
  have e1 : st = st.take (blankIdx st)
      ++ 0 :: st.drop (blankIdx st + 1) := by
    conv_lhs => rw [← List.take_append_drop (blankIdx st) st]
    congr 1
    rw [List.drop_eq_getElem_cons hzlen]
    congr 1
    rw [← getD_eq_getElem hzlen 0]
    exact hB.getD_blankIdx
  have hnd : (st.take (blankIdx st)
      ++ 0 :: st.drop (blankIdx st + 1)).Nodup := by
    rw [← e1]
    exact hB.nodup
  rw [List.nodup_append] at hnd
  have hL0 : ∀ x ∈ st.take (blankIdx st), x ≠ 0 := by
    intro x hx he
    subst he
    exact hnd.2.2 hx (by simp)
  have hR0 : ∀ x ∈ st.drop (blankIdx st + 1), x ≠ 0 := by
    intro x hx he
    subst he
    exact (List.nodup_cons.mp hnd.2.1).1 hx
  have hfil : st.filter (fun x => !(x == 0))
      = st.take (blankIdx st) ++ st.drop (blankIdx st + 1) := by
    conv_lhs => rw [e1]
    rw [List.filter_append, List.filter_cons]
    have hc0 : ((!(0 == 0)) = true) = False := by simp
    rw [if_neg (by simp)]
    congr 1
    · rw [List.filter_eq_self]
      intro a ha
      simp only [Bool.not_eq_eq_eq_not, Bool.not_true, beq_eq_false_iff_ne]
      exact hL0 a ha
    · rw [List.filter_eq_self]
      intro a ha
      simp only [Bool.not_eq_eq_eq_not, Bool.not_true, beq_eq_false_iff_ne]
      exact hR0 a ha
  have hcross : crossInv (st.take (blankIdx st))
      (0 :: st.drop (blankIdx st + 1))
      = blankIdx st + crossInv (st.take (blankIdx st))
          (st.drop (blankIdx st + 1)) := by
    have hsplit : crossInv (st.take (blankIdx st))
        (0 :: st.drop (blankIdx st + 1))
        = crossInv (st.take (blankIdx st)) [0]
          + crossInv (st.take (blankIdx st)) (st.drop (blankIdx st + 1)) :=
      crossInv_append_right _ [0] _
    have hone : crossInv (st.take (blankIdx st)) [0] = blankIdx st := by
      rw [crossInv_singleton_right]
      have hcl : (st.take (blankIdx st)).countP (fun x => decide (0 < x))
          = (st.take (blankIdx st)).length := by
        rw [List.countP_eq_length]
        intro a ha
        rw [decide_eq_true_eq]
        have := hL0 a ha
        omega
      rw [hcl, hlen]
    rw [hsplit, hone]
  have hinv0 : invTail (0 :: st.drop (blankIdx st + 1))
      = invTail (st.drop (blankIdx st + 1)) := by
    rw [invTail_cons]
    have hc : (st.drop (blankIdx st + 1)).countP
        (fun y => decide (y < 0)) = 0 := by
      rw [List.countP_eq_zero]
      intro a _
      simp
    rw [hc, Nat.zero_add]
  show invTail st = inversions st + blankIdx st
  conv_lhs => rw [e1]
  unfold inversions
  rw [hfil, invTail_append, invTail_append, hcross, hinv0]
  omega

end Puzzle

namespace Puzzle

/-! ## Every even board is reachable from the goal -/

theorem homePath_spec : ∀ m, m < 9 → StepsOK 8 (homePath m) ∧
    pathEnd 8 (homePath m) = m ∧ (homePath m).length % 2 = m % 2 := by
  decide

theorem permuteCells_permOf {st : Board} (hB : IsBoard st) :
    permuteCells GOAL ((permOf GOAL isBoard_goal)⁻¹ * permOf st hB) = st := by
  apply eq_of_getD (length_permuteCells _ _) hB.length
  intro n hn
  rw [getD_permuteCells _ _ hn]
  have hv9 : st.getD n 0 < 9 := hB.getD_lt hn
  have hgoal : permOf GOAL isBoard_goal (finOf (GOAL_POS (st.getD n 0)))
      = finOf (st.getD n 0) := by
    rw [permOf_apply, finOf_val (goalPos_lt _ hv9), goal_getD_goalPos _ hv9]
  have hpin : ((permOf GOAL isBoard_goal)⁻¹ * permOf st hB) ⟨n, hn⟩
      = finOf (GOAL_POS (st.getD n 0)) := by
    apply (permOf GOAL isBoard_goal).injective
    rw [Equiv.Perm.mul_apply, Equiv.Perm.apply_inv_self, permOf_apply, hgoal]
  rw [hpin, finOf_val (goalPos_lt _ hv9), goal_getD_goalPos _ hv9]

theorem permOf_fix {st : Board} (hB : IsBoard st) :
    ((permOf GOAL isBoard_goal)⁻¹ * permOf st hB) (finOf (blankIdx st))
      = finOf 8 := by
  apply (permOf GOAL isBoard_goal).injective
  rw [Equiv.Perm.mul_apply, Equiv.Perm.apply_inv_self, permOf_apply,
    permOf_apply, finOf_val hB.blankIdx_lt, hB.getD_blankIdx,
    finOf_val (show (8 : Nat) < 9 by omega)]
  rfl

theorem sign_mixed {st : Board} (hB : IsBoard st) :
    Equiv.Perm.sign ((permOf GOAL isBoard_goal)⁻¹ * permOf st hB)
      = (-1) ^ (inversions st + blankIdx st) := by
  have hsgp : Equiv.Perm.sign (permOf GOAL isBoard_goal) = 1 := by
    rw [sign_permOf 8 GOAL isBoard_goal (by decide)]
    exact Even.neg_one_pow ⟨4, rfl⟩
  have hsbp : Equiv.Perm.sign (permOf st hB)
      = (-1) ^ (inversions st + blankIdx st) :=
    sign_permOf _ st hB (invFull_eq hB)
  have h1 : Equiv.Perm.sign ((permOf GOAL isBoard_goal)
      * ((permOf GOAL isBoard_goal)⁻¹ * permOf st hB))
      = Equiv.Perm.sign (permOf st hB) := by
    rw [mul_inv_cancel_left]
  rw [map_mul, hsgp, one_mul] at h1
  rw [h1, hsbp]

theorem even_reachable {st : Board} (hB : IsBoard st)
    (heven : inversions st % 2 = 0) : ReachableFromGoal st := by
  obtain ⟨hq1, hq2, hq3⟩ := homePath_spec (blankIdx st) hB.blankIdx_lt
  have hss : Equiv.Perm.sign (pathPerm 8 (homePath (blankIdx st)))
      = (-1) ^ (homePath (blankIdx st)).length :=
    sign_pathPerm _ 8 (by omega) hq1
  have hsm : pathPerm 8 (homePath (blankIdx st)) (finOf (blankIdx st))
      = finOf 8 := by
    have h0 := pathPerm_end (homePath (blankIdx st)) 8 (by omega) hq1
    rw [hq2] at h0
    exact h0
  have hfix : ((permOf GOAL isBoard_goal)⁻¹ * permOf st hB
      * (pathPerm 8 (homePath (blankIdx st)))⁻¹) (finOf 8) = finOf 8 := by
    rw [Equiv.Perm.mul_apply]
    have hs8 : (pathPerm 8 (homePath (blankIdx st)))⁻¹ (finOf 8)
        = finOf (blankIdx st) := by
      apply (pathPerm 8 (homePath (blankIdx st))).injective
      rw [Equiv.Perm.apply_inv_self, hsm]
    rw [hs8]
    exact permOf_fix hB
  have hsh : Equiv.Perm.sign ((permOf GOAL isBoard_goal)⁻¹ * permOf st hB
      * (pathPerm 8 (homePath (blankIdx st)))⁻¹) = 1 := by
    have h2 : (permOf GOAL isBoard_goal)⁻¹ * permOf st hB
        * (pathPerm 8 (homePath (blankIdx st)))⁻¹
        * pathPerm 8 (homePath (blankIdx st))
        = (permOf GOAL isBoard_goal)⁻¹ * permOf st hB :=
      inv_mul_cancel_right _ _
    have h3 := congrArg Equiv.Perm.sign h2
    rw [map_mul, hss, sign_mixed hB] at h3
    have hcancel : ((-1 : ℤˣ)) ^ (homePath (blankIdx st)).length
        * (-1) ^ (homePath (blankIdx st)).length = 1 := by
      rw [← mul_pow, neg_one_mul, neg_neg, one_pow]
    have h4 := congrArg
      (· * ((-1 : ℤˣ)) ^ (homePath (blankIdx st)).length) h3
    simp only [] at h4
    rw [mul_assoc, hcancel, mul_one, ← pow_add] at h4
    rw [h4]
    apply Even.neg_one_pow
    rw [Nat.even_iff]
    omega
  obtain ⟨hsteps, hok, hend, hperm⟩ := even_fix8_realizable hfix hsh
  have hokfull : StepsOK 8 (hsteps ++ homePath (blankIdx st)) := by
    apply stepsOK_append hok
    rw [hend]
    exact hq1
  have hpermfull : pathPerm 8 (hsteps ++ homePath (blankIdx st))
      = (permOf GOAL isBoard_goal)⁻¹ * permOf st hB := by
    rw [pathPerm_append, hend, hperm, inv_mul_cancel_right]
  have hbg : blankIdx GOAL = 8 := by decide
  have hms := movesOfPath_spec (hsteps ++ homePath (blankIdx st)) isBoard_goal
    (by rw [hbg]; exact hokfull)
  refine ⟨movesOfPath GOAL (hsteps ++ homePath (blankIdx st)), hms.1, ?_⟩
  rw [hms.2, hbg, hpermfull, permuteCells_permOf hB]

/-- Solvability, evenness and reachability all coincide for genuine boards. -/
theorem reachable_iff_even {st : Board} (hB : IsBoard st) :
    ReachableFromGoal st ↔ inversions st % 2 = 0 :=
  ⟨ReachableFromGoal.even, even_reachable hB⟩

end Puzzle

namespace Puzzle

/-! ## Counting even boards -/

theorem swap12_invol (x : Nat) : swap12 (swap12 x) = x := by
  unfold swap12
  split_ifs <;> omega

theorem swap12_eq_zero (x : Nat) : swap12 x = 0 ↔ x = 0 := by
  unfold swap12
  split_ifs with h1 h2
  · constructor
    · intro h
      exact h.elim
    · intro h
      omega
  · constructor
    · intro h
      exact h.elim
    · intro h
      omega
  · constructor
    · intro h
      exact h
    · intro h
      exact h

theorem invTail_map_swap12_no1 : ∀ (l : List Nat), (∀ y ∈ l, y ≠ 0 ∧ y ≠ 1) →
    invTail (l.map swap12) = invTail l := by
  intro l
  induction l with
  | nil => intro _; rfl
  | cons x rest ih =>
    intro h
    have hx := h x (List.mem_cons_self _ _)
    have hrest : ∀ y ∈ rest, y ≠ 0 ∧ y ≠ 1 :=
      fun y hy => h y (List.mem_cons_of_mem _ hy)
    show invTail (swap12 x :: rest.map swap12) = invTail (x :: rest)
    rw [invTail_cons, invTail_cons, ih hrest, List.countP_map]
    congr 1
    apply List.countP_congr
    intro y hy
    have hyy := hrest y hy
    simp only [Function.comp]
    rw [decide_eq_true_eq, decide_eq_true_eq]
    unfold swap12
    split_ifs <;> omega

theorem invTail_map_swap12_no2 : ∀ (l : List Nat), (∀ y ∈ l, y ≠ 0 ∧ y ≠ 2) →
    invTail (l.map swap12) = invTail l := by
  intro l
  induction l with
  | nil => intro _; rfl
  | cons x rest ih =>
    intro h
    have hx := h x (List.mem_cons_self _ _)
    have hrest : ∀ y ∈ rest, y ≠ 0 ∧ y ≠ 2 :=
      fun y hy => h y (List.mem_cons_of_mem _ hy)
    show invTail (swap12 x :: rest.map swap12) = invTail (x :: rest)
    rw [invTail_cons, invTail_cons, ih hrest, List.countP_map]
    congr 1
    apply List.countP_congr
    intro y hy
    have hyy := hrest y hy
    simp only [Function.comp]
    rw [decide_eq_true_eq, decide_eq_true_eq]
    unfold swap12
    split_ifs <;> omega

theorem invTail_map_swap12_parity : ∀ (l : List Nat), l.Nodup →
    (∀ y ∈ l, y ≠ 0) → 1 ∈ l → 2 ∈ l →
    (invTail (l.map swap12) + invTail l) % 2 = 1 := by
  intro l
  induction l with
  | nil => intro _ _ h1; cases h1
  | cons x rest ih =>
    intro hnd h0 h1 h2
    have hx0 : x ≠ 0 := h0 x (List.mem_cons_self _ _)
    have hrest0 : ∀ y ∈ rest, y ≠ 0 :=
      fun y hy => h0 y (List.mem_cons_of_mem _ hy)
    have hndr : rest.Nodup := (List.nodup_cons.mp hnd).2
    have hxr : x ∉ rest := (List.nodup_cons.mp hnd).1
    show (invTail (swap12 x :: rest.map swap12) + invTail (x :: rest)) % 2 = 1
    rw [invTail_cons, invTail_cons, List.countP_map]
    by_cases hx1 : x = 1
    · subst hx1
      have h2r : 2 ∈ rest := by
        rcases List.mem_cons.mp h2 with h | h
        · omega
        · exact h
      have hA : rest.countP ((fun y => decide (y < swap12 1)) ∘ swap12) = 1 := by
        have he : rest.countP ((fun y => decide (y < swap12 1)) ∘ swap12)
            = rest.countP (fun y => y == 2) := by
          apply List.countP_congr
          intro y hy
          have hy0 := hrest0 y hy
          have hy1 : y ≠ 1 := fun he2 => hxr (he2 ▸ hy)
          simp only [Function.comp]
          rw [decide_eq_true_eq, beq_iff_eq]
          unfold swap12
          split_ifs <;> omega
        rw [he, ← List.count_eq_countP, List.count_eq_one_of_mem hndr h2r]
      have hB : rest.countP (fun y => decide (y < 1)) = 0 := by
        rw [List.countP_eq_zero]
        intro y hy
        have := hrest0 y hy
        simp only [decide_eq_true_eq]
        omega
      have hT : invTail (rest.map swap12) = invTail rest := by
        apply invTail_map_swap12_no1
        intro y hy
        exact ⟨hrest0 y hy, fun he2 => hxr (he2 ▸ hy)⟩
      rw [hA, hB, hT]
      omega
    · by_cases hx2 : x = 2
      · subst hx2
        have h1r : 1 ∈ rest := by
          rcases List.mem_cons.mp h1 with h | h
          · omega
          · exact h
        have hA : rest.countP ((fun y => decide (y < swap12 2)) ∘ swap12) = 0 := by
          rw [List.countP_eq_zero]
          intro y hy
          have hy0 := hrest0 y hy
          simp only [Function.comp]
          rw [decide_eq_true_eq]
          unfold swap12
          split_ifs <;> omega
        have hB : rest.countP (fun y => decide (y < 2)) = 1 := by
          have he : rest.countP (fun y => decide (y < 2))
              = rest.countP (fun y => y == 1) := by
            apply List.countP_congr
            intro y hy
            have hy0 := hrest0 y hy
            rw [decide_eq_true_eq, beq_iff_eq]
            omega
          rw [he, ← List.count_eq_countP, List.count_eq_one_of_mem hndr h1r]
        have hT : invTail (rest.map swap12) = invTail rest := by
          apply invTail_map_swap12_no2
          intro y hy
          exact ⟨hrest0 y hy, fun he2 => hxr (he2 ▸ hy)⟩
        rw [hA, hB, hT]
        omega
      · have h1r : 1 ∈ rest := by
          rcases List.mem_cons.mp h1 with h | h
          · omega
          · exact h
        have h2r : 2 ∈ rest := by
          rcases List.mem_cons.mp h2 with h | h
          · omega
          · exact h
        have hAB : rest.countP ((fun y => decide (y < swap12 x)) ∘ swap12)
            = rest.countP (fun y => decide (y < x)) := by
          apply List.countP_congr
          intro y hy
          have hy0 := hrest0 y hy
          simp only [Function.comp]
          rw [decide_eq_true_eq, decide_eq_true_eq]
          unfold swap12
          split_ifs <;> omega
        have hrec := ih hndr hrest0 h1r h2r
        rw [hAB]
        omega

theorem inversions_map_swap12 {b : Board} (hB : IsBoard b) :
    (inversions (b.map swap12) + inversions b) % 2 = 1 := by
  unfold inversions
  have hf : (b.map swap12).filter (fun x => !(x == 0))
      = (b.filter (fun x => !(x == 0))).map swap12 := by
    rw [List.filter_map]
    congr 1
    apply List.filter_congr
    intro y _
    simp only [Function.comp]
    by_cases hy0 : y = 0
    · subst hy0
      rfl
    · have hsy : swap12 y ≠ 0 := fun he => hy0 ((swap12_eq_zero y).mp he)
      simp [hy0, hsy]
  rw [hf]
  apply invTail_map_swap12_parity
  · exact hB.nodup.filter _
  · intro y hy
    have h1 := List.of_mem_filter hy
    simpa using h1
  · rw [List.mem_filter]
    exact ⟨hB.mem_val.mpr (by omega), rfl⟩
  · rw [List.mem_filter]
    exact ⟨hB.mem_val.mpr (by omega), rfl⟩

theorem isBoard_map_swap12 {b : Board} (hB : IsBoard b) :
    IsBoard (b.map swap12) := by
  have h1 : (b.map swap12).Perm ((List.range 9).map swap12) :=
    List.Perm.map _ hB
  have h2 : ((List.range 9).map swap12).Perm (List.range 9) := by
    show ([0, 2, 1, 3, 4, 5, 6, 7, 8] : List Nat).Perm [0, 1, 2, 3, 4, 5, 6, 7, 8]
    exact List.Perm.cons 0 (List.Perm.swap 1 2 [3, 4, 5, 6, 7, 8])
  exact h1.trans h2

theorem evenBoards_mem {b : Board} :
    b ∈ evenBoards ↔ IsBoard b ∧ inversions b % 2 = 0 := by
  unfold evenBoards
  rw [Finset.mem_filter, List.mem_toFinset, List.mem_permutations]
  exact Iff.rfl

theorem evenBoards_card_le : evenBoards.card ≤ 181440 := by
  have hnd : (List.range 9).permutations.Nodup :=
    List.nodup_permutations _ (List.nodup_range 9)
  have hAcard : (List.range 9).permutations.toFinset.card = 362880 := by
    rw [List.toFinset_card_of_nodup hnd, List.length_permutations,
      List.length_range]
    norm_num [Nat.factorial]
  have hdisj : Disjoint
      (Finset.filter (fun b => inversions b % 2 = 0)
        ((List.range 9).permutations.toFinset))
      (Finset.filter (fun b => ¬ inversions b % 2 = 0)
        ((List.range 9).permutations.toFinset)) := by
    rw [Finset.disjoint_left]
    intro b hb1 hb2
    rw [Finset.mem_filter] at hb1 hb2
    exact hb2.2 hb1.2
  have htot := Finset.card_le_card (Finset.union_subset
    (Finset.filter_subset (fun b => inversions b % 2 = 0)
      ((List.range 9).permutations.toFinset))
    (Finset.filter_subset (fun b => ¬ inversions b % 2 = 0)
      ((List.range 9).permutations.toFinset)))
  rw [Finset.card_union_of_disjoint hdisj, hAcard] at htot
  have hmapsto : ∀ b ∈ Finset.filter (fun b => inversions b % 2 = 0)
      ((List.range 9).permutations.toFinset),
      b.map swap12 ∈ Finset.filter (fun b => ¬ inversions b % 2 = 0)
        ((List.range 9).permutations.toFinset) := by
    intro b hb
    rw [Finset.mem_filter, List.mem_toFinset, List.mem_permutations] at hb
    have hbB : IsBoard b := hb.1
    rw [Finset.mem_filter, List.mem_toFinset, List.mem_permutations]
    refine ⟨isBoard_map_swap12 hbB, ?_⟩
    have hflip := inversions_map_swap12 hbB
    have hbev := hb.2
    omega
  have hinj : Set.InjOn (fun b : Board => b.map swap12)
      ↑(Finset.filter (fun b => inversions b % 2 = 0)
        ((List.range 9).permutations.toFinset)) := by
    intro b1 _ b2 _ he
    have hid : ∀ (c : Board), (c.map swap12).map swap12 = c := by
      intro c
      rw [List.map_map]
      have hp : ∀ y ∈ c, (swap12 ∘ swap12) y = id y :=
        fun y _ => swap12_invol y
      rw [List.map_congr_left hp, List.map_id]
    have e1 : (b1.map swap12).map swap12 = (b2.map swap12).map swap12 := by
      show ((fun b : Board => b.map swap12) b1).map swap12
        = ((fun b : Board => b.map swap12) b2).map swap12
      rw [he]
    rw [hid, hid] at e1
    exact e1
  have hle := Finset.card_le_card_of_injOn (fun b : Board => b.map swap12)
    hmapsto hinj
  show (Finset.filter (fun b => inversions b % 2 = 0)
    ((List.range 9).permutations.toFinset)).card ≤ 181440
  omega

/-! ## Path splitting and the distance bound -/

theorem legalSeq_append_iff : ∀ (ms1 ms2 : List Nat) (st : Board),
    LegalSeq st (ms1 ++ ms2)
      ↔ LegalSeq st ms1 ∧ LegalSeq (replay st ms1) ms2 := by
  intro ms1
  induction ms1 with
  | nil =>
    intro ms2 st
    exact ⟨fun h => ⟨trivial, h⟩, fun h => h.2⟩
  | cons m rest ih =>
    intro ms2 st
    show (legalMove st m = true ∧ LegalSeq (applyMove st m) (rest ++ ms2)) ↔ _
    rw [ih]
    show _ ↔ ((legalMove st m = true ∧ LegalSeq (applyMove st m) rest) ∧ _)
    constructor
    · rintro ⟨h1, h2, h3⟩
      exact ⟨⟨h1, h2⟩, h3⟩
    · rintro ⟨⟨h1, h2⟩, h3⟩
      exact ⟨h1, h2, h3⟩

theorem pathTo_take {a b : Board} {ms : List Nat} (h : PathTo a b ms)
    (k : Nat) : PathTo a (replay a (ms.take k)) (ms.take k) := by
  have hsplit : ms = ms.take k ++ ms.drop k := (List.take_append_drop k ms).symm
  refine ⟨?_, rfl⟩
  have h1 := h.1
  rw [hsplit, legalSeq_append_iff] at h1
  exact h1.1

theorem pathTo_mem_evenBoards {start b : Board} {ms : List Nat}
    (hB : IsBoard start) (heven : inversions start % 2 = 0)
    (h : PathTo start b ms) : b ∈ evenBoards := by
  rw [evenBoards_mem, ← h.2]
  exact ⟨hB.replay_isBoard h.1, by rw [replay_parity hB h.1]; exact heven⟩

theorem isDist_le_bound {start v : Board} (hB : IsBoard start)
    (heven : inversions start % 2 = 0) {dv : Nat} (hd : IsDist start v dv) :
    dv ≤ 181439 := by
  obtain ⟨⟨ms, hms, hlen⟩, hmin⟩ := hd
  have hinj : ∀ i j, i < j → j ≤ ms.length →
      replay start (ms.take i) ≠ replay start (ms.take j) := by
    intro i j hij hjle he
    have hsplit : ms = ms.take j ++ ms.drop j := (List.take_append_drop j ms).symm
    have hlegal := hms.1
    rw [hsplit, legalSeq_append_iff] at hlegal
    have hshort : PathTo start v (ms.take i ++ ms.drop j) := by
      constructor
      · refine LegalSeq.append (pathTo_take hms i).1 ?_
        rw [he]
        exact hlegal.2
      · rw [replay_append, he, ← replay_append, ← hsplit]
        exact hms.2
    have hge := hmin _ hshort
    rw [List.length_append, List.length_take, List.length_drop] at hge
    omega
  have hLnd : ((List.range (dv + 1)).map
      (fun k => replay start (ms.take k))).Nodup := by
    refine List.Nodup.map_on ?_ (List.nodup_range _)
    intro i hi j hj he
    rw [List.mem_range] at hi hj
    by_contra hne
    rcases Nat.lt_or_ge i j with h | h
    · exact hinj i j h (by omega) he
    · have hji : j < i := by omega
      exact hinj j i hji (by omega) he.symm
  have hsub : ((List.range (dv + 1)).map
      (fun k => replay start (ms.take k))).toFinset ⊆ evenBoards := by
    intro b hb
    rw [List.mem_toFinset, List.mem_map] at hb
    obtain ⟨k, _, hk⟩ := hb
    rw [← hk]
    exact pathTo_mem_evenBoards hB heven (pathTo_take hms k)
  have hcard := Finset.card_le_card hsub
  rw [List.toFinset_card_of_nodup hLnd, List.length_map, List.length_range]
    at hcard
  have := evenBoards_card_le
  omega

end Puzzle

namespace Puzzle

/-! ## Heap order and minimality of the popped entry -/

theorem entryLe_imp_le {a b : Entry} (h : entryLe a b = true) : a.1 ≤ b.1 := by
  unfold entryLe at h
  by_cases h1 : a.1 = b.1
  · omega
  · rw [if_neg h1, decide_eq_true_eq] at h
    omega

theorem not_entryLe_imp_le {a b : Entry} (h : ¬ entryLe a b = true) :
    b.1 ≤ a.1 := by
  unfold entryLe at h
  by_cases h1 : a.1 = b.1
  · omega
  · rw [if_neg h1] at h
    rw [decide_eq_true_eq] at h
    omega

theorem pairwiseF_insertE {l : List Entry} (e : Entry)
    (h : l.Pairwise (fun a b => a.1 ≤ b.1)) :
    (insertE e l).Pairwise (fun a b => a.1 ≤ b.1) := by
  induction l with
  | nil => exact List.pairwise_singleton _ _
  | cons x xs ih =>
    rw [List.pairwise_cons] at h
    unfold insertE
    by_cases hle : entryLe x e = true
    · rw [if_pos hle, List.pairwise_cons]
      refine ⟨?_, ih h.2⟩
      intro a ha
      rcases mem_insertE.mp ha with ha | ha
      · subst ha
        exact entryLe_imp_le hle
      · exact h.1 a ha
    · rw [if_neg hle, List.pairwise_cons]
      refine ⟨?_, List.pairwise_cons.mpr h⟩
      intro a ha
      rcases List.mem_cons.mp ha with ha | ha
      · subst ha
        exact not_entryLe_imp_le hle
      · exact le_trans (not_entryLe_imp_le hle) (h.1 a ha)

theorem pairwise_insertE {P : Entry → Entry → Prop} {l : List Entry} {e : Entry}
    (h : l.Pairwise P) (he : ∀ a ∈ l, P a e ∧ P e a) :
    (insertE e l).Pairwise P := by
  induction l with
  | nil => exact List.pairwise_singleton _ _
  | cons x xs ih =>
    rw [List.pairwise_cons] at h
    have hx := he x (List.mem_cons_self _ _)
    have hxs : ∀ a ∈ xs, P a e ∧ P e a :=
      fun a ha => he a (List.mem_cons_of_mem _ ha)
    unfold insertE
    by_cases hle : entryLe x e = true
    · rw [if_pos hle, List.pairwise_cons]
      refine ⟨?_, ih h.2 hxs⟩
      intro a ha
      rcases mem_insertE.mp ha with ha | ha
      · subst ha
        exact hx.1
      · exact h.1 a ha
    · rw [if_neg hle, List.pairwise_cons]
      refine ⟨?_, List.pairwise_cons.mpr h⟩
      intro a ha
      rcases List.mem_cons.mp ha with ha | ha
      · subst ha
        exact hx.2
      · exact (hxs a ha).2

/-! ## Shortest distances -/

theorem nat_exists_min {P : Nat → Prop} (h : ∃ n, P n) :
    ∃ n, P n ∧ ∀ m, P m → n ≤ m := by
  classical
  exact ⟨Nat.find h, Nat.find_spec h, fun m hm => Nat.find_min' h hm⟩

theorem isDist_exists {a b : Board} (h : ∃ ms, PathTo a b ms) :
    ∃ n, IsDist a b n := by
  have hex : ∃ n, ∃ ms, PathTo a b ms ∧ ms.length = n := by
    obtain ⟨ms, hms⟩ := h
    exact ⟨ms.length, ms, hms, rfl⟩
  obtain ⟨n, hn, hmin⟩ :=
    @nat_exists_min (fun n => ∃ ms, PathTo a b ms ∧ ms.length = n) hex
  refine ⟨n, hn, ?_⟩
  intro ms hms
  exact hmin ms.length ⟨ms, hms, rfl⟩

theorem isDist_unique {a b : Board} {n m : Nat} (h1 : IsDist a b n)
    (h2 : IsDist a b m) : n = m := by
  obtain ⟨⟨ms1, hp1, hl1⟩, hmin1⟩ := h1
  obtain ⟨⟨ms2, hp2, hl2⟩, hmin2⟩ := h2
  have hb1 := hmin1 ms2 hp2
  have hb2 := hmin2 ms1 hp1
  omega

theorem pathTo_snoc {a b : Board} {ms : List Nat} (h : PathTo a b ms) {t : Nat}
    (ht : legalMove b t = true) : PathTo a (applyMove b t) (ms ++ [t]) := by
  refine ⟨?_, ?_⟩
  · refine LegalSeq.append h.1 ?_
    rw [h.2]
    exact ⟨ht, trivial⟩
  · rw [replay_append, h.2]
    rfl

theorem isDist_step {start v : Board} {dv : Nat} (hd : IsDist start v dv)
    {t : Nat} (ht : legalMove v t = true) :
    ∃ dw, IsDist start (applyMove v t) dw ∧ dw ≤ dv + 1 := by
  obtain ⟨⟨ms, hms, hlen⟩, hmin⟩ := hd
  obtain ⟨dw, hdw⟩ := isDist_exists ⟨ms ++ [t], pathTo_snoc hms ht⟩
  refine ⟨dw, hdw, ?_⟩
  have hb := hdw.2 _ (pathTo_snoc hms ht)
  rw [List.length_append] at hb
  simp only [List.length_singleton] at hb
  omega

theorem pathTo_reverse {a : Board} (hA : IsBoard a) : ∀ {ms : List Nat}
    {b : Board}, PathTo a b ms → PathTo b a ms.reverse := by
  intro ms
  induction ms generalizing a with
  | nil =>
    intro b h
    have he : b = a := h.2.symm
    subst he
    exact ⟨trivial, rfl⟩
  | cons m rest ih =>
    intro b h
    obtain ⟨⟨hleg, hrest⟩, hrep⟩ := h
    have hA' : IsBoard (applyMove a m) := hA.applyMove_isBoard hleg
    have hpart : PathTo (applyMove a m) b rest := ⟨hrest, hrep⟩
    have hback := ih hA' hpart
    have hsnoc := pathTo_snoc hback (legalMove_applyMove hA hleg)
    rw [applyMove_applyMove hA hleg] at hsnoc
    rw [List.reverse_cons]
    exact hsnoc

theorem walkParents_length (par : PMap) : ∀ (fuel : Nat) (s : Board),
    (walkParents par s fuel).length ≤ fuel := by
  intro fuel
  induction fuel with
  | zero => intro s; exact le_refl _
  | succ n ih =>
    intro s
    unfold walkParents
    rcases lookupB par s with _ | pt
    · simp
    · obtain ⟨p, t⟩ := pt
      simp only [List.length_cons]
      have := ih p
      omega

/-! ## The frontier argument -/

theorem find_frontier {start : Board} {heap : List Entry} {gc : GMap}
    {exps : Nat} {D : Finset Board}
    (inv : AStarInv start heap gc exps D) :
    ∀ (ms : List Nat) (u : Board) (cu : Nat),
      lookupB gc u = some cu → LegalSeq u ms →
      (∃ w cw fw rs, (fw, cw, w) ∈ heap ∧ lookupB gc w = some cw ∧
        LegalSeq w rs ∧ replay w rs = replay u ms ∧
        cw + rs.length ≤ cu + ms.length)
      ∨ (replay u ms ∈ D ∧
          ∃ cs, lookupB gc (replay u ms) = some cs ∧ cs ≤ cu + ms.length) := by
  intro ms
  induction ms with
  | nil =>
    intro u cu hgu _
    rcases inv.open_ok u cu hgu with hD | ⟨f0, hf0⟩
    · right
      exact ⟨hD, cu, hgu, by omega⟩
    · left
      exact ⟨u, cu, f0, [], hf0, hgu, trivial, rfl, by omega⟩
  | cons t rest ih =>
    intro u cu hgu hleg
    obtain ⟨hlegt, hlegrest⟩ := hleg
    rcases inv.open_ok u cu hgu with hD | ⟨f0, hf0⟩
    · obtain ⟨du, hdist, hgdu, _, hrelax⟩ := inv.settled u hD
      have hdu : du = cu := by
        rw [hgu] at hgdu
        exact (Option.some.inj hgdu).symm
      obtain ⟨gw, hgw, hgwle⟩ := hrelax t hlegt
      rcases ih (applyMove u t) gw hgw hlegrest with
        ⟨w, cw, fw, rs, h1, h2, h3, h4, h5⟩ | ⟨h1, cs, h2, h3⟩
      · left
        refine ⟨w, cw, fw, rs, h1, h2, h3, h4, ?_⟩
        show cw + rs.length ≤ cu + (t :: rest).length
        rw [List.length_cons]
        omega
      · right
        refine ⟨h1, cs, h2, ?_⟩
        show cs ≤ cu + (t :: rest).length
        rw [List.length_cons]
        omega
    · left
      exact ⟨u, cu, f0, t :: rest, hf0, hgu, ⟨hlegt, hlegrest⟩, rfl, by omega⟩

theorem popped_dist {start s : Board} {f g : Nat} {rest : List Entry}
    {gc : GMap} {exps : Nat} {D : Finset Board}
    (hstart0 : lookupB gc start = some 0)
    (inv : AStarInv start ((f, g, s) :: rest) gc exps D)
    (hg : lookupB gc s = some g) :
    IsDist start s g := by
  obtain ⟨msg, hmsg, hlen⟩ := inv.gexact s g hg
  refine ⟨⟨msg, hmsg, hlen⟩, ?_⟩
  intro ms hms
  rcases find_frontier inv ms start 0 hstart0 hms.1 with
    ⟨w, cw, fw, rs, hwmem, hwgc, hwleg, hwrep, hwb⟩ | ⟨hmem, cs, hcs, hcsle⟩
  · have hhead : f ≤ fw := by
      rcases List.mem_cons.mp hwmem with he | hin
      · have e1 : fw = f := congrArg Prod.fst he
        omega
      · have hp := List.pairwise_cons.mp inv.sortedF
        exact hp.1 (fw, cw, w) hin
    have hf : f = g + manhattan s :=
      inv.entry_f (f, g, s) (List.mem_cons_self _ _)
    have hfw : fw = cw + manhattan w := inv.entry_f (fw, cw, w) hwmem
    have hrep_s : replay w rs = s := by rw [hwrep, hms.2]
    have hwB : IsBoard w := (inv.keyfacts w cw hwgc).1
    have hman : manhattan w ≤ rs.length + manhattan s := by
      have hm0 := manhattan_le_length_add hwB hwleg
      rw [hrep_s] at hm0
      exact hm0
    omega
  · rw [hms.2] at hcs
    rw [hg] at hcs
    have e2 : g = cs := Option.some.inj hcs
    omega

end Puzzle

namespace Puzzle

/-! ## Preservation of the solver invariant through one expansion -/

theorem relaxAll_astar_inv {start s : Board} {g : Nat} {D : Finset Board}
    (hsB : IsBoard s) (hdist : IsDist start s g) (hg181 : g ≤ 181439) :
    ∀ (nbs : List Nat) (heap : List Entry) (gc : GMap) (par : PMap),
      lookupB gc s = some g →
      (∀ nb ∈ nbs, nb ∈ neighbors (blankIdx s)) →
      RelaxInv start s g D heap gc →
      RelaxInv start s g D (relaxAll s g (blankIdx s) nbs heap gc par).1
          (relaxAll s g (blankIdx s) nbs heap gc par).2.1 ∧
        lookupB (relaxAll s g (blankIdx s) nbs heap gc par).2.1 s = some g ∧
        (∀ u gu, lookupB gc u = some gu → ∃ gu2,
          lookupB (relaxAll s g (blankIdx s) nbs heap gc par).2.1 u = some gu2
            ∧ gu2 ≤ gu) ∧
        (∀ nb ∈ nbs, ∃ gw,
          lookupB (relaxAll s g (blankIdx s) nbs heap gc par).2.1
              (swapCells s (blankIdx s) nb) = some gw ∧ gw ≤ g + 1) ∧
        (∀ e ∈ (relaxAll s g (blankIdx s) nbs heap gc par).1,
          e.2.2 = s → e ∈ heap) := by
  intro nbs
  induction nbs with
  | nil =>
    intro heap gc par hg _ inv
    refine ⟨inv, hg, ?_, ?_, ?_⟩
    · intro u gu hu
      exact ⟨gu, hu, le_refl _⟩
    · intro nb hnb
      cases hnb
    · intro e he _
      exact he
  | cons nb rest ih =>
    intro heap gc par hg hnbs inv
    have hnb : nb ∈ neighbors (blankIdx s) := hnbs nb (List.mem_cons_self nb rest)
    have hrest : ∀ x ∈ rest, x ∈ neighbors (blankIdx s) :=
      fun x hx => hnbs x (List.mem_cons_of_mem nb hx)
    have hnb9 : nb < 9 := (neighbors_range _ hsB.blankIdx_lt _ hnb).1
    have hnbz : nb ≠ blankIdx s := (neighbors_range _ hsB.blankIdx_lt _ hnb).2
    have hlen_nb : nb < s.length := by rw [hsB.length]; exact hnb9
    have hlen_z : blankIdx s < s.length := by
      rw [hsB.length]; exact hsB.blankIdx_lt
    have hnewB : IsBoard (swapCells s (blankIdx s) nb) :=
      hsB.swapCells hsB.blankIdx_lt hnb9
    have hsz : s.getD nb 0 ≠ 0 := by
      intro h0
      have h1 := hsB.indexOf_eq_of_getD hnb9 h0
      exact hnbz (by rw [← h1]; rfl)
    have hnew_ne_s : swapCells s (blankIdx s) nb ≠ s := by
      intro he
      have h1 : (swapCells s (blankIdx s) nb).getD (blankIdx s) 0
          = s.getD nb 0 := getD_swapCells_fst hlen_z (Ne.symm hnbz)
      rw [he, hsB.getD_blankIdx] at h1
      exact hsz h1.symm
    have hlegal : legalMove s (s.getD nb 0) = true := by
      rw [legalMove_iff, hsB.indexOf_eq_of_getD hnb9 rfl]
      exact hnb
    have happly : applyMove s (s.getD nb 0) = swapCells s (blankIdx s) nb := by
      unfold applyMove
      rw [hsB.indexOf_eq_of_getD hnb9 rfl]
    unfold relaxAll
    by_cases hupd : g + 1 < getDflt gc (swapCells s (blankIdx s) nb)
    · rw [if_pos hupd]
      have hparity_s : inversions s % 2 = inversions start % 2 :=
        (inv.keyfacts s g hg).2.1
      have hparity_new : inversions (swapCells s (blankIdx s) nb) % 2
          = inversions start % 2 := by
        rw [← happly, inversions_applyMove_parity hsB hlegal]
        exact hparity_s
      obtain ⟨msg, hmsg, hlenmsg⟩ := inv.gexact s g hg
      have hpath_new : PathTo start (swapCells s (blankIdx s) nb)
          (msg ++ [s.getD nb 0]) := by
        have h1 := pathTo_snoc hmsg hlegal
        rw [happly] at h1
        exact h1
      have hlen_new : (msg ++ [s.getD nb 0]).length = g + 1 := by
        rw [List.length_append]
        simp [hlenmsg]
      obtain ⟨dnew, hdnew, hdnew_le⟩ := isDist_step hdist hlegal
      rw [happly] at hdnew
      have hnotD : swapCells s (blankIdx s) nb ∉ D := by
        intro hmem
        obtain ⟨dv, hdv, hdvgc, _, _⟩ := inv.settled _ hmem
        have hdveq : dv = dnew := isDist_unique hdv hdnew
        rw [getDflt_eq_of_lookup hdvgc] at hupd
        omega
      have hglkup : lookupB (setB gc (swapCells s (blankIdx s) nb) (g + 1)) s
          = some g := by
        rw [lookupB_setB_ne _ hnew_ne_s.symm]
        exact hg
      have hub : ∀ e ∈ heap, e.2.2 = swapCells s (blankIdx s) nb →
          g + 1 < e.2.1 := by
        intro e he hes
        obtain ⟨gs, hgs, hgse⟩ := inv.entry_ge e he
        rw [hes] at hgs
        rw [getDflt_eq_of_lookup hgs] at hupd
        omega
      have inv1 : RelaxInv start s g D
          (insertE (g + 1 + manhattan (swapCells s (blankIdx s) nb), g + 1,
            swapCells s (blankIdx s) nb) heap)
          (setB gc (swapCells s (blankIdx s) nb) (g + 1)) := by
        constructor
        · exact pairwiseF_insertE _ inv.sortedF
        · intro e he
          rcases mem_insertE.mp he with he1 | he1
          · subst he1
            rfl
          · exact inv.entry_f e he1
        · intro e he
          rcases mem_insertE.mp he with he1 | he1
          · subst he1
            exact ⟨g + 1, lookupB_setB_self _ _ _, le_refl _⟩
          · obtain ⟨gs, hgs, hgse⟩ := inv.entry_ge e he1
            by_cases hes : e.2.2 = swapCells s (blankIdx s) nb
            · refine ⟨g + 1, ?_, ?_⟩
              · rw [hes]
                exact lookupB_setB_self _ _ _
              · have h2 := hub e he1 hes
                omega
            · exact ⟨gs, by rw [lookupB_setB_ne _ hes]; exact hgs, hgse⟩
        · intro e he
          rcases mem_insertE.mp he with he1 | he1
          · subst he1
            exact ⟨msg ++ [s.getD nb 0], hpath_new, hlen_new⟩
          · exact inv.entry_path e he1
        · refine pairwise_insertE inv.distinct ?_
          intro a ha
          constructor
          · intro hae
            show a.2.1 ≠ g + 1
            have h2 := hub a ha hae
            omega
          · intro hae
            show g + 1 ≠ a.2.1
            have h2 := hub a ha hae.symm
            omega
        · intro u gu hu
          by_cases hue : u = swapCells s (blankIdx s) nb
          · subst hue
            rw [lookupB_setB_self] at hu
            have hgu : gu = g + 1 := (Option.some.inj hu).symm
            subst hgu
            exact ⟨msg ++ [s.getD nb 0], hpath_new, hlen_new⟩
          · rw [lookupB_setB_ne _ hue] at hu
            exact inv.gexact u gu hu
        · intro u gu hu
          by_cases hue : u = swapCells s (blankIdx s) nb
          · subst hue
            rw [lookupB_setB_self] at hu
            have hgu : gu = g + 1 := (Option.some.inj hu).symm
            subst hgu
            exact ⟨hnewB, hparity_new, by omega⟩
          · rw [lookupB_setB_ne _ hue] at hu
            exact inv.keyfacts u gu hu
        · intro u gu hu
          by_cases hue : u = swapCells s (blankIdx s) nb
          · subst hue
            rw [lookupB_setB_self] at hu
            have hgu : gu = g + 1 := (Option.some.inj hu).symm
            subst hgu
            right
            right
            exact ⟨g + 1 + manhattan (swapCells s (blankIdx s) nb),
              mem_insertE.mpr (Or.inl rfl)⟩
          · rw [lookupB_setB_ne _ hue] at hu
            rcases inv.open_ok u gu hu with h | h | ⟨f0, hf0⟩
            · exact Or.inl h
            · exact Or.inr (Or.inl h)
            · exact Or.inr (Or.inr ⟨f0, mem_insertE.mpr (Or.inr hf0)⟩)
        · intro v hv
          obtain ⟨dv, hdv, hdvgc, hdvent, hdvrel⟩ := inv.settled v hv
          have hvne : v ≠ swapCells s (blankIdx s) nb := by
            intro he
            rw [he] at hv
            exact hnotD hv
          refine ⟨dv, hdv, ?_, ?_, ?_⟩
          · rw [lookupB_setB_ne _ hvne]
            exact hdvgc
          · intro e he hev
            rcases mem_insertE.mp he with he1 | he1
            · subst he1
              exact absurd hev.symm hvne
            · exact hdvent e he1 hev
          · intro t ht
            obtain ⟨gw, hgw, hgwle⟩ := hdvrel t ht
            by_cases hwe : applyMove v t = swapCells s (blankIdx s) nb
            · refine ⟨g + 1, ?_, ?_⟩
              · rw [hwe, lookupB_setB_self]
              · rw [hwe] at hgw
                rw [getDflt_eq_of_lookup hgw] at hupd
                omega
            · exact ⟨gw, by rw [lookupB_setB_ne _ hwe]; exact hgw, hgwle⟩
      have hresult := ih
        (insertE (g + 1 + manhattan (swapCells s (blankIdx s) nb), g + 1,
          swapCells s (blankIdx s) nb) heap)
        (setB gc (swapCells s (blankIdx s) nb) (g + 1))
        (setB par (swapCells s (blankIdx s) nb) (s, s.getD nb 0))
        hglkup hrest inv1
      obtain ⟨hinv2, hgs2, hle2, hrel2, hes2⟩ := hresult
      refine ⟨hinv2, hgs2, ?_, ?_, ?_⟩
      · intro u gu hu
        by_cases hue : u = swapCells s (blankIdx s) nb
        · subst hue
          obtain ⟨gu2, hgu2, hgu2le⟩ := hle2 _ (g + 1) (lookupB_setB_self _ _ _)
          refine ⟨gu2, hgu2, ?_⟩
          rw [getDflt_eq_of_lookup hu] at hupd
          omega
        · exact hle2 u gu (by rw [lookupB_setB_ne _ hue]; exact hu)
      · intro nb2 hnb2
        rcases List.mem_cons.mp hnb2 with he | hin
        · subst he
          obtain ⟨gw, hgw, hgwle⟩ := hle2 _ (g + 1) (lookupB_setB_self _ _ _)
          exact ⟨gw, hgw, by omega⟩
        · exact hrel2 nb2 hin
      · intro e he hes
        have h1 := hes2 e he hes
        rcases mem_insertE.mp h1 with he1 | he1
        · subst he1
          exact absurd hes hnew_ne_s
        · exact he1
    · rw [if_neg hupd]
      have hresult := ih heap gc par hg hrest inv
      obtain ⟨hinv2, hgs2, hle2, hrel2, hes2⟩ := hresult
      refine ⟨hinv2, hgs2, hle2, ?_, hes2⟩
      intro nb2 hnb2
      rcases List.mem_cons.mp hnb2 with he | hin
      · subst he
        push_neg at hupd
        rcases hlku : lookupB gc (swapCells s (blankIdx s) nb2) with _ | gu
        · rw [getDflt_eq_BIG hlku] at hupd
          exfalso
          unfold BIG at hupd
          omega
        · obtain ⟨gw, hgw, hgwle⟩ := hle2 _ gu hlku
          refine ⟨gw, hgw, ?_⟩
          rw [getDflt_eq_of_lookup hlku] at hupd
          omega
      · exact hrel2 nb2 hin

end Puzzle

namespace Puzzle

/-! ## The solver loop returns a shortest solution -/

theorem astarLoop_opt {start : Board} {maxExp : Nat} (hB : IsBoard start)
    (heven : inversions start % 2 = 0) (hbud : 181440 < maxExp) :
    ∀ (fuel : Nat) (heap : List Entry) (gc : GMap) (par : PMap) (exps : Nat)
      (D : Finset Board) (r : Option (List Nat)),
      MapsInv start gc par →
      AStarInv start heap gc exps D →
      astarLoop maxExp fuel heap gc par exps = some r →
      ∃ ms, r = some ms ∧ PathTo start GOAL ms ∧
        IsDist start GOAL ms.length := by
  have hgoalpath : ∃ pms, PathTo start GOAL pms := by
    obtain ⟨ms0, hleg0, hrep0⟩ := even_reachable hB heven
    exact ⟨ms0.reverse, pathTo_reverse isBoard_goal ⟨hleg0, hrep0⟩⟩
  intro fuel
  induction fuel with
  | zero =>
    intro heap gc par exps D r _ _ h
    exact absurd h (by simp [astarLoop])
  | succ n ih =>
    intro heap gc par exps D r hm inv h
    match heap with
    | [] =>
      exfalso
      obtain ⟨pms, hpms⟩ := hgoalpath
      rcases find_frontier inv pms start 0 hm.start_mem hpms.1 with
        ⟨w, cw, fw, rs, hwmem, _⟩ | ⟨hmem, _⟩
      · exact absurd hwmem (List.not_mem_nil _)
      · rw [hpms.2] at hmem
        exact inv.goal_not hmem
    | (f, g, s) :: rest =>
      rw [astarLoop] at h
      by_cases h1 : g ≠ getDflt gc s
      · rw [if_pos h1] at h
        have inv2 : AStarInv start rest gc exps D := by
          constructor
          · exact inv.card
          · exact (List.pairwise_cons.mp inv.sortedF).2
          · intro e he
            exact inv.entry_f e (List.mem_cons_of_mem _ he)
          · intro e he
            exact inv.entry_ge e (List.mem_cons_of_mem _ he)
          · intro e he
            exact inv.entry_path e (List.mem_cons_of_mem _ he)
          · exact (List.pairwise_cons.mp inv.distinct).2
          · exact inv.gexact
          · exact inv.keyfacts
          · intro u gu hu
            rcases inv.open_ok u gu hu with hD | ⟨f0, hf0⟩
            · exact Or.inl hD
            · rcases List.mem_cons.mp hf0 with he | hin
              · exfalso
                have hu2 : u = s := congrArg (fun e : Entry => e.2.2) he
                have hg2 : gu = g := congrArg (fun e : Entry => e.2.1) he
                apply h1
                rw [hu2] at hu
                rw [getDflt_eq_of_lookup hu, hg2]
              · exact Or.inr ⟨f0, hin⟩
          · intro v hv
            obtain ⟨dv, h1d, h2d, h3d, h4d⟩ := inv.settled v hv
            exact ⟨dv, h1d, h2d,
              fun e he hev => h3d e (List.mem_cons_of_mem _ he) hev, h4d⟩
          · exact inv.goal_not
        exact ih rest gc par exps D r hm inv2 h
      · rw [if_neg h1] at h
        push_neg at h1
        rcases hlk : lookupB gc s with _ | gs
        · exfalso
          obtain ⟨gs0, hgs0, _⟩ :=
            inv.entry_ge (f, g, s) (List.mem_cons_self _ _)
          have hgs1 : lookupB gc s = some gs0 := hgs0
          rw [hlk] at hgs1
          cases hgs1
        · have hgg : g = gs := by rw [h1, getDflt_eq_of_lookup hlk]
          subst hgg
          have hdist_s : IsDist start s g := popped_dist hm.start_mem inv hlk
          have hsB : IsBoard s := (inv.keyfacts s g hlk).1
          by_cases h2 : s = GOAL
          · rw [if_pos h2] at h
            have hr : r = some ((walkParents par s g).reverse) :=
              (Option.some.inj h).symm
            obtain ⟨hlegW, hrepW⟩ := walkParents_spec hm g s g hlk (le_refl g)
            have hPathS : PathTo start s ((walkParents par s g).reverse) :=
              ⟨hlegW, hrepW⟩
            have hpathW : PathTo start GOAL ((walkParents par s g).reverse) := by
              refine ⟨hlegW, ?_⟩
              rw [hrepW]
              exact h2
            have hlenW : ((walkParents par s g).reverse).length = g := by
              have hle : ((walkParents par s g).reverse).length ≤ g := by
                rw [List.length_reverse]
                exact walkParents_length par g s
              have hge := hdist_s.2 _ hPathS
              omega
            refine ⟨(walkParents par s g).reverse, hr, hpathW, ?_⟩
            rw [hlenW, ← h2]
            exact hdist_s
          · rw [if_neg h2] at h
            have hDsub : D ⊆ evenBoards := by
              intro v hv
              obtain ⟨dv, _, hgcv, _, _⟩ := inv.settled v hv
              obtain ⟨hvB, hvpar, _⟩ := inv.keyfacts v dv hgcv
              rw [evenBoards_mem]
              refine ⟨hvB, ?_⟩
              rw [hvpar]
              exact heven
            have hcard : exps ≤ 181440 := by
              rw [inv.card]
              exact le_trans (Finset.card_le_card hDsub) evenBoards_card_le
            have h3 : ¬ (exps + 1 > maxExp) := by omega
            rw [if_neg h3] at h
            simp only [] at h
            have hg181 : g ≤ 181439 := isDist_le_bound hB heven hdist_s
            have hsD : s ∉ D := by
              intro hmem
              obtain ⟨dv, hdv, hdvgc, hdvent, _⟩ := inv.settled s hmem
              have hdveq : g = dv := by
                rw [hlk] at hdvgc
                exact Option.some.inj hdvgc
              have hlt : dv < g :=
                hdvent (f, g, s) (List.mem_cons_self _ _) rfl
              omega
            have hrelaxinv : RelaxInv start s g D rest gc := by
              constructor
              · exact (List.pairwise_cons.mp inv.sortedF).2
              · intro e he
                exact inv.entry_f e (List.mem_cons_of_mem _ he)
              · intro e he
                exact inv.entry_ge e (List.mem_cons_of_mem _ he)
              · intro e he
                exact inv.entry_path e (List.mem_cons_of_mem _ he)
              · exact (List.pairwise_cons.mp inv.distinct).2
              · exact inv.gexact
              · exact inv.keyfacts
              · intro u gu hu
                rcases inv.open_ok u gu hu with hD | ⟨f0, hf0⟩
                · exact Or.inl hD
                · rcases List.mem_cons.mp hf0 with he | hin
                  · have hu2 : u = s := congrArg (fun e : Entry => e.2.2) he
                    exact Or.inr (Or.inl hu2)
                  · exact Or.inr (Or.inr ⟨f0, hin⟩)
              · intro v hv
                obtain ⟨dv, h1d, h2d, h3d, h4d⟩ := inv.settled v hv
                exact ⟨dv, h1d, h2d,
                  fun e he hev => h3d e (List.mem_cons_of_mem _ he) hev, h4d⟩
            obtain ⟨hinv2, hgs2, hle2, hrel2, hes2⟩ :=
              relaxAll_astar_inv hsB hdist_s hg181 (neighbors (blankIdx s))
                rest gc par hlk (fun x hx => hx) hrelaxinv
            have hrest_s : ∀ e ∈ rest, e.2.2 = s → g < e.2.1 := by
              intro e he hes
              obtain ⟨gs0, hgs0, hgse⟩ :=
                inv.entry_ge e (List.mem_cons_of_mem _ he)
              rw [hes, hlk] at hgs0
              have hgseq : g = gs0 := Option.some.inj hgs0
              have hP := (List.pairwise_cons.mp inv.distinct).1 e he
              have hne : g ≠ e.2.1 := hP hes.symm
              omega
            have hnewinv : AStarInv start
                (relaxAll s g (blankIdx s) (neighbors (blankIdx s))
                  rest gc par).1
                (relaxAll s g (blankIdx s) (neighbors (blankIdx s))
                  rest gc par).2.1
                (exps + 1) (insert s D) := by
              constructor
              · rw [Finset.card_insert_of_not_mem hsD, inv.card]
              · exact hinv2.sortedF
              · exact hinv2.entry_f
              · exact hinv2.entry_ge
              · exact hinv2.entry_path
              · exact hinv2.distinct
              · exact hinv2.gexact
              · exact hinv2.keyfacts
              · intro u gu hu
                rcases hinv2.open_ok u gu hu with hD2 | hus | ⟨f0, hf0⟩
                · exact Or.inl (Finset.mem_insert_of_mem hD2)
                · refine Or.inl ?_
                  rw [hus]
                  exact Finset.mem_insert_self _ _
                · exact Or.inr ⟨f0, hf0⟩
              · intro v hv
                rcases Finset.mem_insert.mp hv with hvs | hvD
                · subst hvs
                  refine ⟨g, hdist_s, hgs2, ?_, ?_⟩
                  · intro e he hes
                    exact hrest_s e (hes2 e he hes) hes
                  · intro t ht
                    have hnbm : List.indexOf t v ∈ neighbors (blankIdx v) :=
                      legalMove_iff.mp ht
                    have happ2 : applyMove v t
                        = swapCells v (blankIdx v) (List.indexOf t v) := rfl
                    obtain ⟨gw, hgw, hgwle⟩ := hrel2 (List.indexOf t v) hnbm
                    rw [happ2]
                    exact ⟨gw, hgw, hgwle⟩
                · obtain ⟨dv, h1d, h2d, h3d, h4d⟩ := hinv2.settled v hvD
                  exact ⟨dv, h1d, h2d, h3d, h4d⟩
              · intro hmem
                rcases Finset.mem_insert.mp hmem with hgs | hgD
                · exact h2 hgs.symm
                · exact inv.goal_not hgD
            have hm2 := relaxAll_maps_inv hsB (neighbors (blankIdx s)) gc par
              rest hm hlk (fun x hx => hx)
            exact ih _ _ _ (exps + 1) (insert s D) r hm2 hnewinv h

end Puzzle

namespace Puzzle

/-! ## End-to-end optimality of the solver -/

theorem astar_optimal {start : Board} (hB : IsBoard start)
    (heven : inversions start % 2 = 0) {maxExp : Nat}
    (hbud : 181440 < maxExp) :
    ∃ ms, astarReturns start maxExp (some ms) ∧ PathTo start GOAL ms ∧
      IsDist start GOAL ms.length ∧
      ∀ r, astarReturns start maxExp r → r = some ms := by
  by_cases hg : start = GOAL
  · subst hg
    refine ⟨[], ⟨1, astar_solve_goal maxExp 1⟩, ⟨trivial, rfl⟩, ?_, ?_⟩
    · exact ⟨⟨[], ⟨trivial, rfl⟩, rfl⟩, fun ms _ => Nat.zero_le _⟩
    · intro r hr
      exact astarReturns_unique hr ⟨1, astar_solve_goal maxExp 1⟩
  · have hm0 : MapsInv start [(start, 0)] [] := MapsInv.initial hB
    have hk0 : KeysValid [(start, 0)] := by
      constructor
      · simp
      · intro kv hkv
        rw [List.mem_singleton] at hkv
        subst hkv
        exact ⟨hB.length, fun x hx => hB.mem_val.mp hx⟩
    have hh0 : HeapInv start [(manhattan start, 0, start)] := by
      intro e he
      rw [List.mem_singleton] at he
      subst he
      exact ⟨hB, rfl⟩
    have hlk0 : lookupB [(start, 0)] start = some 0 := by
      simp [lookupB]
    have hinv0 : AStarInv start [(manhattan start, 0, start)]
        [(start, 0)] 0 ∅ := by
      constructor
      · simp
      · exact List.pairwise_singleton _ _
      · intro e he
        rw [List.mem_singleton] at he
        subst he
        show manhattan start = 0 + manhattan start
        omega
      · intro e he
        rw [List.mem_singleton] at he
        subst he
        exact ⟨0, hlk0, le_refl _⟩
      · intro e he
        rw [List.mem_singleton] at he
        subst he
        exact ⟨[], ⟨trivial, rfl⟩, rfl⟩
      · exact List.pairwise_singleton _ _
      · intro u gu hu
        unfold lookupB at hu
        by_cases he : start = u
        · subst he
          rw [if_pos rfl] at hu
          have hgu : gu = 0 := (Option.some.inj hu).symm
          subst hgu
          exact ⟨[], ⟨trivial, rfl⟩, rfl⟩
        · rw [if_neg he] at hu
          cases hu
      · intro u gu hu
        unfold lookupB at hu
        by_cases he : start = u
        · subst he
          rw [if_pos rfl] at hu
          have hgu : gu = 0 := (Option.some.inj hu).symm
          subst hgu
          exact ⟨hB, rfl, by omega⟩
        · rw [if_neg he] at hu
          cases hu
      · intro u gu hu
        unfold lookupB at hu
        by_cases he : start = u
        · subst he
          rw [if_pos rfl] at hu
          have hgu : gu = 0 := (Option.some.inj hu).symm
          subst hgu
          right
          exact ⟨manhattan start, List.mem_singleton.mpr rfl⟩
        · rw [if_neg he] at hu
          cases hu
      · intro v hv
        exact absurd hv (Finset.not_mem_empty v)
      · exact Finset.not_mem_empty GOAL
    obtain ⟨r, hr⟩ := astarLoop_term
      (phi [(manhattan start, 0, start)] [(start, 0)] + 1)
      [(manhattan start, 0, start)] [(start, 0)] [] 0 hm0 hk0 hh0 (by omega)
    obtain ⟨ms, hrms, hpath, hdist⟩ :=
      astarLoop_opt hB heven hbud _ _ _ _ 0 ∅ r hm0 hinv0 hr
    subst hrms
    have hret : astarReturns start maxExp (some ms) := by
      refine ⟨phi [(manhattan start, 0, start)] [(start, 0)] + 1, ?_⟩
      unfold astar_solve
      rw [if_neg hg]
      exact hr
    refine ⟨ms, hret, hpath, hdist, ?_⟩
    intro r2 hr2
    exact astarReturns_unique hr2 hret

end Puzzle

namespace Puzzle

/-! ## The ten claims -/

/-- C1: for every solvable start board (a permutation of `{0,…,8}` with even
inversion count), the solver with its default budget of 250000 expansions
returns — uniquely, whatever fuel suffices — a move list whose length is the
minimum number of legal moves from the start to `GOAL`; in particular on
`[1,2,3,4,5,6,0,7,8]` it returns `[7, 8]`, of length exactly 2. -/
theorem C1_solve_returns_minimal (start : Board) (hB : IsBoard start)
    (hsolv : is_solvable_3x3 start = true) :
    (∃ ms, astarReturns start 250000 (some ms) ∧
      (∀ r, astarReturns start 250000 r → r = some ms) ∧
      PathTo start GOAL ms ∧ IsDist start GOAL ms.length) ∧
    astarReturns [1, 2, 3, 4, 5, 6, 0, 7, 8] 250000 (some [7, 8]) ∧
    ∀ ms2, astarReturns [1, 2, 3, 4, 5, 6, 0, 7, 8] 250000 (some ms2) →
      ms2.length = 2 := by
  have heven : inversions start % 2 = 0 := is_solvable_iff_even.mp hsolv
  have hconc : astarReturns [1, 2, 3, 4, 5, 6, 0, 7, 8] 250000
      (some [7, 8]) := ⟨40, by decide⟩
  refine ⟨?_, hconc, ?_⟩
  · obtain ⟨ms, hret, hpath, hdist, huniq⟩ :=
      astar_optimal hB heven (show 181440 < 250000 by omega)
    exact ⟨ms, hret, huniq, hpath, hdist⟩
  · intro ms2 hms2
    have he := astarReturns_unique hms2 hconc
    have he2 : ms2 = [7, 8] := Option.some.inj he
    rw [he2]
    rfl

theorem C1_witness :
    IsBoard [1, 2, 3, 4, 5, 6, 0, 7, 8] ∧
      is_solvable_3x3 [1, 2, 3, 4, 5, 6, 0, 7, 8] = true ∧
      ((∃ ms, astarReturns [1, 2, 3, 4, 5, 6, 0, 7, 8] 250000 (some ms) ∧
          (∀ r, astarReturns [1, 2, 3, 4, 5, 6, 0, 7, 8] 250000 r →
            r = some ms) ∧
          PathTo [1, 2, 3, 4, 5, 6, 0, 7, 8] GOAL ms ∧
          IsDist [1, 2, 3, 4, 5, 6, 0, 7, 8] GOAL ms.length) ∧
        astarReturns [1, 2, 3, 4, 5, 6, 0, 7, 8] 250000 (some [7, 8]) ∧
        ∀ ms2, astarReturns [1, 2, 3, 4, 5, 6, 0, 7, 8] 250000 (some ms2) →
          ms2.length = 2) :=
  ⟨by unfold IsBoard; decide, by decide,
    C1_solve_returns_minimal [1, 2, 3, 4, 5, 6, 0, 7, 8]
      (by unfold IsBoard; decide) (by decide)⟩

/-- C2: whenever the solver returns a non-empty move list for a start board,
the moves are legal in sequence from that board (each moved tile is
grid-adjacent to the blank when moved) and replaying them all ends exactly
at `GOAL`. -/
theorem C2_replay_to_goal (start : Board) (hB : IsBoard start) (maxExp : Nat)
    (moves : List Nat) (hret : astarReturns start maxExp (some moves))
    (hne : moves ≠ []) :
    LegalSeq start moves ∧ replay start moves = GOAL := by
  obtain ⟨fuel, hf⟩ := hret
  unfold astar_solve at hf
  by_cases hg : start = GOAL
  · rw [if_pos hg] at hf
    have he : some ([] : List Nat) = some moves := Option.some.inj hf
    exact absurd (Option.some.inj he).symm hne
  · rw [if_neg hg] at hf
    have hm0 : MapsInv start [(start, 0)] [] := MapsInv.initial hB
    rcases astarLoop_replay fuel _ _ _ _ moves hm0 hf with he | hgood
    · exact absurd he hne
    · exact hgood

theorem C2_witness :
    IsBoard [1, 2, 3, 4, 5, 6, 0, 7, 8] ∧
      astarReturns [1, 2, 3, 4, 5, 6, 0, 7, 8] 250000 (some [7, 8]) ∧
      ([7, 8] : List Nat) ≠ [] ∧
      (LegalSeq [1, 2, 3, 4, 5, 6, 0, 7, 8] [7, 8] ∧
        replay [1, 2, 3, 4, 5, 6, 0, 7, 8] [7, 8] = GOAL) :=
  ⟨by unfold IsBoard; decide, ⟨40, by decide⟩, by decide,
    C2_replay_to_goal [1, 2, 3, 4, 5, 6, 0, 7, 8] (by unfold IsBoard; decide)
      250000 [7, 8] ⟨40, by decide⟩ (by decide)⟩

/-- C3: on every board (permutation of `{0,…,8}`), `is_solvable_3x3` returns
true exactly when the inversion count with the blank removed is even, and
that holds exactly when the board is reachable from `GOAL` by a finite
sequence of legal moves. -/
theorem C3_solvable_iff_reachable (B : Board) (hB : IsBoard B) :
    (is_solvable_3x3 B = true ↔ inversions B % 2 = 0) ∧
    (is_solvable_3x3 B = true ↔ ReachableFromGoal B) := by
  refine ⟨is_solvable_iff_even, ?_⟩
  rw [is_solvable_iff_even]
  exact (reachable_iff_even hB).symm

theorem C3_witness :
    IsBoard GOAL ∧
      ((is_solvable_3x3 GOAL = true ↔ inversions GOAL % 2 = 0) ∧
        (is_solvable_3x3 GOAL = true ↔ ReachableFromGoal GOAL)) :=
  ⟨by unfold IsBoard; decide,
    C3_solvable_iff_reachable GOAL (by unfold IsBoard; decide)⟩

/-- C4: for every positive budget, the solver on `GOAL` returns the empty
move list immediately (even with zero loop fuel, i.e. before any search),
and the empty list is the unique possible return value. -/
theorem C4_goal_immediate (budget : Nat) (hpos : 0 < budget) :
    astar_solve GOAL budget 0 = some (some []) ∧
      astarReturns GOAL budget (some []) ∧
      ∀ r, astarReturns GOAL budget r → r = some [] := by
  refine ⟨astar_solve_goal budget 0, ⟨0, astar_solve_goal budget 0⟩, ?_⟩
  intro r hr
  exact astarReturns_unique hr ⟨0, astar_solve_goal budget 0⟩

theorem C4_witness :
    0 < 1 ∧
      (astar_solve GOAL 1 0 = some (some []) ∧
        astarReturns GOAL 1 (some []) ∧
        ∀ r, astarReturns GOAL 1 r → r = some []) :=
  ⟨by decide, C4_goal_immediate 1 (by decide)⟩

/-- C5: `manhattan GOAL = 0`; on every board (permutation of `{0,…,8}`) the
heuristic vanishes exactly on `GOAL`; and, being a sum of natural numbers,
it is always non-negative. -/
theorem C5_manhattan_zero_iff (B : Board) (hB : IsBoard B) :
    manhattan GOAL = 0 ∧ (manhattan B = 0 ↔ B = GOAL) ∧ 0 ≤ manhattan B :=
  ⟨manhattan_goal, manhattan_eq_zero_iff hB, Nat.zero_le _⟩

theorem C5_witness :
    IsBoard [1, 2, 3, 4, 5, 6, 0, 7, 8] ∧
      (manhattan GOAL = 0 ∧
        (manhattan [1, 2, 3, 4, 5, 6, 0, 7, 8] = 0
          ↔ [1, 2, 3, 4, 5, 6, 0, 7, 8] = GOAL) ∧
        0 ≤ manhattan [1, 2, 3, 4, 5, 6, 0, 7, 8]) :=
  ⟨by unfold IsBoard; decide,
    C5_manhattan_zero_iff [1, 2, 3, 4, 5, 6, 0, 7, 8]
      (by unfold IsBoard; decide)⟩

/-- C6: the Manhattan heuristic changes by at most one along every legal
move: on every board `B` and legal move `m`,
`|manhattan (applyMove B m) − manhattan B| ≤ 1`. -/
theorem C6_manhattan_consistent (B : Board) (hB : IsBoard B) (m : Nat)
    (hm : legalMove B m = true) :
    manhattan (applyMove B m) ≤ manhattan B + 1 ∧
      manhattan B ≤ manhattan (applyMove B m) + 1 ∧
      ((manhattan (applyMove B m) : Int) - (manhattan B : Int)).natAbs ≤ 1 := by
  obtain ⟨h1, h2⟩ := manhattan_applyMove_close hB hm
  exact ⟨h1, h2, by omega⟩

theorem C6_witness :
    IsBoard GOAL ∧ legalMove GOAL 8 = true ∧
      (manhattan (applyMove GOAL 8) ≤ manhattan GOAL + 1 ∧
        manhattan GOAL ≤ manhattan (applyMove GOAL 8) + 1 ∧
        ((manhattan (applyMove GOAL 8) : Int)
            - (manhattan GOAL : Int)).natAbs ≤ 1) :=
  ⟨by unfold IsBoard; decide, by decide,
    C6_manhattan_consistent GOAL (by unfold IsBoard; decide) 8 (by decide)⟩

/-- C7: the Manhattan heuristic is admissible: on every board it is a lower
bound on the length of every legal move sequence that reaches `GOAL`. -/
theorem C7_manhattan_admissible (B : Board) (hB : IsBoard B) (ms : List Nat)
    (hleg : LegalSeq B ms) (hgoal : replay B ms = GOAL) :
    manhattan B ≤ ms.length :=
  manhattan_admissible hB hleg hgoal

theorem C7_witness :
    IsBoard [1, 2, 3, 4, 5, 6, 0, 7, 8] ∧
      LegalSeq [1, 2, 3, 4, 5, 6, 0, 7, 8] [7, 8] ∧
      replay [1, 2, 3, 4, 5, 6, 0, 7, 8] [7, 8] = GOAL ∧
      manhattan [1, 2, 3, 4, 5, 6, 0, 7, 8] ≤ ([7, 8] : List Nat).length :=
  ⟨by unfold IsBoard; decide, by exact ⟨by decide, by decide, trivial⟩,
    by decide,
    C7_manhattan_admissible [1, 2, 3, 4, 5, 6, 0, 7, 8]
      (by unfold IsBoard; decide) [7, 8]
      (by exact ⟨by decide, by decide, trivial⟩) (by decide)⟩

/-- C9: on every unsolvable start board (odd inversion count) and every
positive budget, the solver returns `None` (the `NoSolutionWithinBudget`
outcome), and `None` is the only value it can return — never a spurious
path to `GOAL`. -/
theorem C9_unsolvable_returns_none (start : Board) (hB : IsBoard start)
    (hunsolv : is_solvable_3x3 start = false) (budget : Nat)
    (hpos : 0 < budget) :
    astarReturns start budget none ∧
      ∀ r, astarReturns start budget r → r = none :=
  astar_unsolvable hB hunsolv

theorem C9_witness :
    IsBoard [2, 1, 3, 4, 5, 6, 7, 8, 0] ∧
      is_solvable_3x3 [2, 1, 3, 4, 5, 6, 7, 8, 0] = false ∧ 0 < 1 ∧
      (astarReturns [2, 1, 3, 4, 5, 6, 7, 8, 0] 1 none ∧
        ∀ r, astarReturns [2, 1, 3, 4, 5, 6, 7, 8, 0] 1 r → r = none) :=
  ⟨by unfold IsBoard; decide, by decide, by decide,
    C9_unsolvable_returns_none [2, 1, 3, 4, 5, 6, 7, 8, 0]
      (by unfold IsBoard; decide) (by decide) 1 (by decide)⟩

/-- C10: legal moves preserve both board-ness and solvability: on every
board `B` and legal move `m`, `applyMove B m` is again a permutation of
`{0,…,8}` and has the same `is_solvable_3x3` value as `B`. -/
theorem C10_solvability_invariant (B : Board) (hB : IsBoard B) (m : Nat)
    (hm : legalMove B m = true) :
    IsBoard (applyMove B m) ∧
      is_solvable_3x3 (applyMove B m) = is_solvable_3x3 B :=
  ⟨hB.applyMove_isBoard hm, is_solvable_applyMove hB hm⟩

theorem C10_witness :
    IsBoard GOAL ∧ legalMove GOAL 8 = true ∧
      (IsBoard (applyMove GOAL 8) ∧
        is_solvable_3x3 (applyMove GOAL 8) = is_solvable_3x3 GOAL) :=
  ⟨by unfold IsBoard; decide, by decide,
    C10_solvability_invariant GOAL (by unfold IsBoard; decide) 8
      (by decide)⟩

end Puzzle
